import Mathlib

/-!
# IDEA block cipher (`idea.go`): shallow embedding and verification

Machine integers are modelled as natural numbers reduced explicitly:
a `uint16` value is a `Nat` below `65536`, a byte is a `Nat` below `256`.
Go slices are modelled as lists; a failed index or slice expression and a
division by zero are explicit faults.
-/

namespace Idea

/-! ## Data model -/

/-- Run-time faults of the Go program, plus the bound of the loop model. -/
inductive Fault where
  /-- Go: `index out of range`. -/
  | indexOutOfRange
  /-- Go: `slice bounds out of range`. -/
  | sliceBoundsOutOfRange
  /-- Go: `integer divide by zero`. -/
  | divideByZero
  /-- Not a Go fault: the iteration bound of the model of the `for y != 1` loop was reached. -/
  | fuelExhausted
  deriving DecidableEq, Repr

/-- Result of a procedure that writes into a caller-owned destination buffer:
the buffer contents when the call returns, or the fault together with the
buffer contents at the moment of the panic. -/
inductive Outcome where
  | done (dst : List Nat)
  | panic (f : Fault) (dst : List Nat)
  deriving DecidableEq, Repr

def IDEAKEYSIZE : Nat := 16
def IDEAROUNDS : Nat := 8
def IDEAKEYLEN : Nat := 6 * IDEAROUNDS + 4

/-- Conversion to `uint16`: truncation to 16 bits. -/
def u16 (n : Nat) : Nat := n % 65536

/-- Subtraction `a - b` on `uint16` operands (wrapping). -/
def sub16 (a b : Nat) : Nat := (a + 65536 - b) % 65536

/-- Unary minus `-a` on a `uint16` operand (wrapping). -/
def neg16 (a : Nat) : Nat := (65536 - a) % 65536

/-- Indexing `s[i]` of a slice. -/
def rd (s : List Nat) (i : Nat) : Except Fault Nat :=
  match s[i]? with
  | some v => .ok v
  | none => .error .indexOutOfRange

/-- Assignment `s[i] = v` to a slice or array element. -/
def wr (s : List Nat) (i v : Nat) : Except Fault (List Nat) :=
  if i < s.length then .ok (s.set i v) else .error .indexOutOfRange

/-- Re-slicing `s[k:]`. -/
def sliceFrom (s : List Nat) (k : Nat) : Except Fault (List Nat) :=
  if k ≤ s.length then .ok (s.drop k) else .error .sliceBoundsOutOfRange

/-! ## Ring arithmetic -/

/-- The loop `for y != 1 { ... }` of `mulInv` (lines 25-35) followed by the
`return uint16(1 - t1)` of line 36. The first argument bounds the number of
iterations. -/
def mulInvLoop : Nat → Nat → Nat → Nat → Nat → Except Fault Nat
  | 0, _, _, _, _ => .error .fuelExhausted
  | fuel + 1, x, y, t0, t1 =>
    if y = 1 then .ok (sub16 1 t1)
    else if y = 0 then .error .divideByZero
    else
      let q := x / y
      let x := x % y
      let t0 := u16 (t0 + q * t1)
      if x = 1 then .ok t0
      else if x = 0 then .error .divideByZero
      else
        let q := y / x
        let y := y % x
        let t1 := u16 (t1 + q * t0)
        mulInvLoop fuel x y t0 t1

/-- The function `mulInv` of `idea.go`. Each iteration of the loop strictly decreases `y`,
which starts below `65536`, so `65536` iterations are an upper bound. -/
def mulInv (x : Nat) : Except Fault Nat :=
  if x ≤ 1 then .ok x
  else
    let t1 := u16 (0x10001 / x)
    let y := u16 (0x10001 % x)
    if y = 1 then .ok (sub16 1 t1)
    else mulInvLoop 65536 x y 1 t1

/-- The function `mul` of `idea.go`. -/
def mul (x y : Nat) : Nat :=
  let t16 := y
  if t16 ≠ 0 then
    if x ≠ 0 then
      let t32 := (x * t16) % 4294967296
      let x := u16 t32
      let t16 := u16 (t32 >>> 16)
      if x < t16 then u16 (sub16 x t16 + 1) else sub16 x t16
    else sub16 1 t16
  else sub16 1 x

/-! ## Key schedule -/

/-- The loop of lines 71-74 of `ideaExpandKey`: `n` iterations from index `j`, each storing
one big-endian word of the key and advancing `userKey` by two bytes. -/
def expandLoad : Nat → Nat → List Nat → List Nat → Except Fault (List Nat)
  | 0, _, _, EK => .ok EK
  | n + 1, j, userKey, EK => do
    let b0 ← rd userKey 0
    let b1 ← rd userKey 1
    let EK ← wr EK j (u16 (u16 (b0 <<< 8) + b1))
    let userKey ← sliceFrom userKey 2
    expandLoad n (j + 1) userKey EK

/-- The loop of lines 75-80 of `ideaExpandKey`: `n` iterations. `EK` is the array behind
the slice and `off` is where the current slice `EK[...]` starts in it, so that the slice
element `EK[k]` is the array element `off + k` and `EK = EK[i&8:]` advances `off`. -/
def expandRotate : Nat → Nat → Nat → List Nat → Except Fault (List Nat)
  | 0, _, _, EK => .ok EK
  | n + 1, i, off, EK => do
    let i := i + 1
    let a ← rd EK (off + (i &&& 7))
    let b ← rd EK (off + ((i + 1) &&& 7))
    let EK ← wr EK (off + (i + 7)) (u16 (a <<< 9) ||| (b >>> 7))
    if i &&& 8 ≤ EK.length - off then
      expandRotate n (i &&& 7) (off + (i &&& 8)) EK
    else .error .sliceBoundsOutOfRange

/-- The procedure `ideaExpandKey` of `idea.go`; the result is the array behind `EK` on return. -/
def ideaExpandKey (userKey EK : List Nat) : Except Fault (List Nat) := do
  let EK ← expandLoad 8 0 userKey EK
  expandRotate (IDEAKEYLEN - 8) 0 0 EK

/-- The statements `pidx--; p[pidx] = v` of `ideaInvertKey`, where `v` has been computed. -/
def putBack (p : List Nat) (pidx v : Nat) : Except Fault (List Nat × Nat) :=
  if pidx = 0 then .error .indexOutOfRange
  else do
    let p ← wr p (pidx - 1) v
    .ok (p, pidx - 1)

/-- Lines 90-104 and 140-154 of `ideaInvertKey`: one quadruple, additive keys in order. -/
def invertOuter (EK p : List Nat) (pidx ekidx : Nat) : Except Fault (List Nat × Nat × Nat) := do
  let t1 ← rd EK ekidx >>= mulInv
  let t2 ← rd EK (ekidx + 1)
  let t2 := neg16 t2
  let t3 ← rd EK (ekidx + 2)
  let t3 := neg16 t3
  let v ← rd EK (ekidx + 3) >>= mulInv
  let (p, pidx) ← putBack p pidx v
  let (p, pidx) ← putBack p pidx t3
  let (p, pidx) ← putBack p pidx t2
  let (p, pidx) ← putBack p pidx t1
  .ok (p, pidx, ekidx + 4)

/-- Lines 107-113 and 132-138 of `ideaInvertKey`: the pair of inner subkeys. -/
def invertInner (EK p : List Nat) (pidx ekidx : Nat) : Except Fault (List Nat × Nat × Nat) := do
  let t1 ← rd EK ekidx
  let v ← rd EK (ekidx + 1)
  let (p, pidx) ← putBack p pidx v
  let (p, pidx) ← putBack p pidx t1
  .ok (p, pidx, ekidx + 2)

/-- Lines 115-129 of `ideaInvertKey`: one quadruple, additive keys exchanged. -/
def invertSwapped (EK p : List Nat) (pidx ekidx : Nat) : Except Fault (List Nat × Nat × Nat) := do
  let t1 ← rd EK ekidx >>= mulInv
  let t2 ← rd EK (ekidx + 1)
  let t2 := neg16 t2
  let t3 ← rd EK (ekidx + 2)
  let t3 := neg16 t3
  let v ← rd EK (ekidx + 3) >>= mulInv
  let (p, pidx) ← putBack p pidx v
  let (p, pidx) ← putBack p pidx t2
  let (p, pidx) ← putBack p pidx t3
  let (p, pidx) ← putBack p pidx t1
  .ok (p, pidx, ekidx + 4)

/-- The loop of lines 106-130 of `ideaInvertKey`: `n` iterations. -/
def invertLoop : Nat → List Nat → List Nat → Nat → Nat → Except Fault (List Nat × Nat × Nat)
  | 0, _, p, pidx, ekidx => .ok (p, pidx, ekidx)
  | n + 1, EK, p, pidx, ekidx => do
    let (p, pidx, ekidx) ← invertInner EK p pidx ekidx
    let (p, pidx, ekidx) ← invertSwapped EK p pidx ekidx
    invertLoop n EK p pidx ekidx

/-- The built-in `copy(dst, src)`: the first `min (len dst) (len src)` elements are replaced. -/
def copySlice (dst src : List Nat) : List Nat :=
  src.take dst.length ++ dst.drop src.length

/-- The procedure `ideaInvertKey` of `idea.go`; the result is `DK` on return. -/
def ideaInvertKey (EK DK : List Nat) : Except Fault (List Nat) := do
  let p := List.replicate IDEAKEYLEN 0
  let (p, pidx, ekidx) ← invertOuter EK p IDEAKEYLEN 0
  let (p, pidx, ekidx) ← invertLoop (IDEAROUNDS - 1) EK p pidx ekidx
  let (p, pidx, ekidx) ← invertInner EK p pidx ekidx
  let (p, _, _) ← invertOuter EK p pidx ekidx
  .ok (copySlice DK p)

/-! ## Block transform -/

/-- The function `binary.BigEndian.Uint16` of the Go standard library. -/
def beUint16 (b : List Nat) : Except Fault Nat := do
  let b1 ← rd b 1
  let b0 ← rd b 0
  .ok (b1 ||| u16 (b0 <<< 8))

/-- The call `binary.BigEndian.PutUint16(buf[k:], v)`; the result is `buf` afterwards. -/
def putUint16 (buf : List Nat) (k v : Nat) : Except Fault (List Nat) := do
  let _ ← sliceFrom buf k
  let _ ← rd buf (k + 1)
  let buf ← wr buf k ((v >>> 8) % 256)
  wr buf (k + 1) (v % 256)

/-- The statements `k := key[0]; key = key[1:]` of `ideaCipher`. -/
def nextKey (key : List Nat) : Except Fault (Nat × List Nat) := do
  let k ← rd key 0
  let key ← sliceFrom key 1
  .ok (k, key)

/-- The working words of `ideaCipher`. -/
abbrev Words := Nat × Nat × Nat × Nat

/-- The body of the loop of `ideaCipher` (lines 170-196). -/
def cipherRound (x : Words) (key : List Nat) : Except Fault (Words × List Nat) := do
  let (x1, x2, x3, x4) := x
  let (k, key) ← nextKey key
  let x1 := mul x1 k
  let (k, key) ← nextKey key
  let x2 := u16 (x2 + k)
  let (k, key) ← nextKey key
  let x3 := u16 (x3 + k)
  let (k, key) ← nextKey key
  let x4 := mul x4 k
  let s3 := x3
  let x3 := x3 ^^^ x1
  let (k, key) ← nextKey key
  let x3 := mul x3 k
  let s2 := x2
  let x2 := x2 ^^^ x4
  let x2 := u16 (x2 + x3)
  let (k, key) ← nextKey key
  let x2 := mul x2 k
  let x3 := u16 (x3 + x2)
  let x1 := x1 ^^^ x2
  let x4 := x4 ^^^ x3
  let x2 := x2 ^^^ s3
  let x3 := x3 ^^^ s2
  .ok ((x1, x2, x3, x4), key)

/-- The loop `for r := IDEAROUNDS; r > 0; r--` of `ideaCipher`: `r` iterations. -/
def cipherRounds : Nat → Words → List Nat → Except Fault (Words × List Nat)
  | 0, x, key => .ok (x, key)
  | r + 1, x, key => do
    let (x, key) ← cipherRound x key
    cipherRounds r x key

/-- Lines 199-206 of `ideaCipher`: the output transformation; the last key is read
without advancing the slice. -/
def cipherFinal (x : Words) (key : List Nat) : Except Fault (Words × List Nat) := do
  let (x1, x2, x3, x4) := x
  let (k, key) ← nextKey key
  let x1 := mul x1 k
  let (k, key) ← nextKey key
  let x3 := u16 (x3 + k)
  let (k, key) ← nextKey key
  let x2 := u16 (x2 + k)
  let k ← rd key 0
  let x4 := mul x4 k
  .ok ((x1, x2, x3, x4), key)

/-- Lines 163-166 of `ideaCipher`: the four big-endian words of the input block. -/
def loadWords (inbuf : List Nat) : Except Fault Words := do
  let x1 ← sliceFrom inbuf 0 >>= beUint16
  let x2 ← sliceFrom inbuf 2 >>= beUint16
  let x3 ← sliceFrom inbuf 4 >>= beUint16
  let x4 ← sliceFrom inbuf 6 >>= beUint16
  .ok (x1, x2, x3, x4)

/-- Lines 163-206 of `ideaCipher`: everything before the first store into `outbuf`.
The result is the final words and the final value of the slice variable `key`. -/
def cipherWords (inbuf key : List Nat) : Except Fault (Words × List Nat) := do
  let x ← loadWords inbuf
  let (x, key) ← cipherRounds IDEAROUNDS x key
  cipherFinal x key

/-- Lines 208-211 of `ideaCipher`: the four stores, in the order `x1, x3, x2, x4`. -/
def storeWords (outbuf : List Nat) (x : Words) : Outcome :=
  match putUint16 outbuf 0 x.1 with
  | .error f => .panic f outbuf
  | .ok o1 =>
    match putUint16 o1 2 x.2.2.1 with
    | .error f => .panic f o1
    | .ok o2 =>
      match putUint16 o2 4 x.2.1 with
      | .error f => .panic f o2
      | .ok o3 =>
        match putUint16 o3 6 x.2.2.2 with
        | .error f => .panic f o3
        | .ok o4 => .done o4

/-- The procedure `ideaCipher` of `idea.go`. -/
def ideaCipher (inbuf outbuf key : List Nat) : Outcome :=
  match cipherWords inbuf key with
  | .error f => .panic f outbuf
  | .ok (x, _) => storeWords outbuf x

/-! ## Entry points -/

/-- The Go expression `make([]uint16, n)`. -/
def makeWords (n : Nat) : List Nat := List.replicate n 0

/-- The procedure `IdeaEncrypt` of `idea.go`. -/
def IdeaEncrypt (dst src key : List Nat) : Outcome :=
  match ideaExpandKey key (makeWords IDEAKEYLEN) with
  | .error f => .panic f dst
  | .ok ek => ideaCipher src dst ek

/-- The procedure `IdeaDecrypt` of `idea.go`. -/
def IdeaDecrypt (dst src key : List Nat) : Outcome :=
  match ideaExpandKey key (makeWords IDEAKEYLEN) with
  | .error f => .panic f dst
  | .ok ek =>
    match ideaInvertKey ek (makeWords IDEAKEYLEN) with
    | .error f => .panic f dst
    | .ok dk => ideaCipher src dst dk

/-! ## Reference definitions of the ring arithmetic -/

/-- The ring element a 16-bit pattern stands for: `0` stands for `65536`. -/
def ringRep (a : Nat) : Nat := if a = 0 then 65536 else a

/-- Reference ring product: the product modulo `65537`, the result `65536` encoded as `0`. -/
def mulRef (x y : Nat) : Nat := ((ringRep x * ringRep y) % 65537) % 65536

instance fact_prime_65537 : Fact (Nat.Prime 65537) := ⟨by norm_num⟩

/-- The residue modulo `65537` a 16-bit pattern stands for. -/
def toZ (x : Nat) : ZMod 65537 := (ringRep x : ZMod 65537)

/-- The value returned by `mulInv`, `0` if it faults. -/
def invOf (x : Nat) : Nat :=
  match mulInv x with
  | .ok r => r
  | .error _ => 0

/-! ## Functional description of the procedures -/

/-- Element `i` of a schedule or buffer, `0` when out of range. -/
def at0 (l : List Nat) (i : Nat) : Nat := l.getD i 0

/-- The word stored by one iteration of the first loop of `ideaExpandKey`. -/
def keyWord (key : List Nat) (j : Nat) : Nat :=
  u16 (u16 (at0 key (2 * j) <<< 8) + at0 key (2 * j + 1))

/-- The word stored by one iteration of the second loop of `ideaExpandKey`. -/
def rotWord (a b : Nat) : Nat := u16 (a <<< 9) ||| (b >>> 7)

/-- Index of the first word read by the iteration of the second loop that writes word `m`. -/
def src1 (m : Nat) : Nat := 8 * (m / 8 - 1) + (m + 1) % 8

/-- Index of the second word read by the iteration of the second loop that writes word `m`. -/
def src2 (m : Nat) : Nat := 8 * (m / 8 - 1) + (m + 2) % 8

/-! ## Reference description of the key schedule -/

/-- The 128-bit number whose big-endian bytes are `key`. -/
def keyValue (key : List Nat) : Nat := key.foldl (fun acc b => acc * 256 + b) 0

/-- Cyclic left rotation of a 128-bit number by `r` bits. -/
def rotl128 (v r : Nat) : Nat := (v * 2 ^ (r % 128)) % 2 ^ 128 + v / 2 ^ (128 - r % 128)

/-- Big-endian 16-bit word number `m` (from 0 to 7) of a 128-bit number. -/
def wordBE (v m : Nat) : Nat := (v / 2 ^ (16 * (7 - m))) % 65536

/-! ## Functional description of the key inversion -/

/-- The statements `pidx--; p[pidx] = v`, as a function. -/
def putBackFn (s : List Nat × Nat) (v : Nat) : List Nat × Nat := (s.1.set (s.2 - 1) v, s.2 - 1)

/-- The effect of `invertOuter` when no fault occurs. -/
def invertOuterFn (EK : List Nat) (s : List Nat × Nat × Nat) : List Nat × Nat × Nat :=
  let t1 := invOf (at0 EK s.2.2)
  let t2 := neg16 (at0 EK (s.2.2 + 1))
  let t3 := neg16 (at0 EK (s.2.2 + 2))
  let v := invOf (at0 EK (s.2.2 + 3))
  let q := putBackFn (putBackFn (putBackFn (putBackFn (s.1, s.2.1) v) t3) t2) t1
  (q.1, q.2, s.2.2 + 4)

/-- The effect of `invertInner` when no fault occurs. -/
def invertInnerFn (EK : List Nat) (s : List Nat × Nat × Nat) : List Nat × Nat × Nat :=
  let t1 := at0 EK s.2.2
  let v := at0 EK (s.2.2 + 1)
  let q := putBackFn (putBackFn (s.1, s.2.1) v) t1
  (q.1, q.2, s.2.2 + 2)

/-- The effect of `invertSwapped` when no fault occurs. -/
def invertSwappedFn (EK : List Nat) (s : List Nat × Nat × Nat) : List Nat × Nat × Nat :=
  let t1 := invOf (at0 EK s.2.2)
  let t2 := neg16 (at0 EK (s.2.2 + 1))
  let t3 := neg16 (at0 EK (s.2.2 + 2))
  let v := invOf (at0 EK (s.2.2 + 3))
  let q := putBackFn (putBackFn (putBackFn (putBackFn (s.1, s.2.1) v) t2) t3) t1
  (q.1, q.2, s.2.2 + 4)

/-- The effect of `invertLoop` when no fault occurs. -/
def invertLoopFn (EK : List Nat) : Nat → List Nat × Nat × Nat → List Nat × Nat × Nat
  | 0, s => s
  | n + 1, s => invertLoopFn EK n (invertSwappedFn EK (invertInnerFn EK s))

/-- The array `p` at the end of `ideaInvertKey` when no fault occurs. -/
def invertFn (EK : List Nat) : List Nat :=
  (invertOuterFn EK (invertInnerFn EK (invertLoopFn EK (IDEAROUNDS - 1)
    (invertOuterFn EK (List.replicate IDEAKEYLEN 0, IDEAKEYLEN, 0))))).1

/-- The decryption schedule, entry by entry, as a function of the encryption schedule. -/
def invertedKey (EK : List Nat) : List Nat :=
  [invOf (at0 EK 48), neg16 (at0 EK 49), neg16 (at0 EK 50), invOf (at0 EK 51), at0 EK 46, at0 EK 47,
   invOf (at0 EK 42), neg16 (at0 EK 44), neg16 (at0 EK 43), invOf (at0 EK 45), at0 EK 40, at0 EK 41,
   invOf (at0 EK 36), neg16 (at0 EK 38), neg16 (at0 EK 37), invOf (at0 EK 39), at0 EK 34, at0 EK 35,
   invOf (at0 EK 30), neg16 (at0 EK 32), neg16 (at0 EK 31), invOf (at0 EK 33), at0 EK 28, at0 EK 29,
   invOf (at0 EK 24), neg16 (at0 EK 26), neg16 (at0 EK 25), invOf (at0 EK 27), at0 EK 22, at0 EK 23,
   invOf (at0 EK 18), neg16 (at0 EK 20), neg16 (at0 EK 19), invOf (at0 EK 21), at0 EK 16, at0 EK 17,
   invOf (at0 EK 12), neg16 (at0 EK 14), neg16 (at0 EK 13), invOf (at0 EK 15), at0 EK 10, at0 EK 11,
   invOf (at0 EK 6), neg16 (at0 EK 8), neg16 (at0 EK 7), invOf (at0 EK 9), at0 EK 4, at0 EK 5,
   invOf (at0 EK 0), neg16 (at0 EK 1), neg16 (at0 EK 2), invOf (at0 EK 3)]

/-! ## Functional description of the block transform -/

/-- The four keyed operations that open a round and form the output transformation. -/
def keyMix (k0 k1 k2 k3 : Nat) (x : Words) : Words :=
  (mul x.1 k0, u16 (x.2.1 + k1), u16 (x.2.2.1 + k2), mul x.2.2.2 k3)

/-- The middle stage of a round, without the exchange of the two inner words. -/
def mixMA (k4 k5 : Nat) (x : Words) : Words :=
  let t := mul (x.2.2.1 ^^^ x.1) k4
  let u := mul (u16 ((x.2.1 ^^^ x.2.2.2) + t)) k5
  let v := u16 (t + u)
  (x.1 ^^^ u, x.2.1 ^^^ v, x.2.2.1 ^^^ u, x.2.2.2 ^^^ v)

/-- Exchange of the two inner words. -/
def swapMid (x : Words) : Words := (x.1, x.2.2.1, x.2.1, x.2.2.2)

/-- The words after one iteration of the loop of `ideaCipher`, from the six subkeys it reads. -/
def roundFn (k0 k1 k2 k3 k4 k5 : Nat) (x : Words) : Words :=
  let a := mul x.1 k0
  let b := u16 (x.2.1 + k1)
  let c := u16 (x.2.2.1 + k2)
  let d := mul x.2.2.2 k3
  let t := mul (c ^^^ a) k4
  let u := mul (u16 ((b ^^^ d) + t)) k5
  let v := u16 (t + u)
  (a ^^^ u, u ^^^ c, v ^^^ b, d ^^^ v)

/-- Round number `r` (from 0) with the schedule `k`. -/
def roundAt (k : List Nat) (r : Nat) (x : Words) : Words :=
  roundFn (at0 k (6 * r)) (at0 k (6 * r + 1)) (at0 k (6 * r + 2)) (at0 k (6 * r + 3))
    (at0 k (6 * r + 4)) (at0 k (6 * r + 5)) x

/-- The words after rounds `s`, ..., `s + n - 1`. -/
def roundsFrom (k : List Nat) : Nat → Nat → Words → Words
  | _, 0, x => x
  | s, n + 1, x => roundsFrom k (s + 1) n (roundAt k s x)

/-- The words `x1, x2, x3, x4` after the output transformation (lines 199-206). -/
def finalFn (k : List Nat) (x : Words) : Words :=
  (mul x.1 (at0 k 48), u16 (x.2.1 + at0 k 50), u16 (x.2.2.1 + at0 k 49), mul x.2.2.2 (at0 k 51))

/-- The four words of the output block, in the order they are stored. -/
def blockFn (k : List Nat) (x : Words) : Words :=
  swapMid (finalFn k (roundsFrom k 0 IDEAROUNDS x))

/-- The big-endian word at offset `i` of a buffer. -/
def beWord (b : List Nat) (i : Nat) : Nat := at0 b (i + 1) ||| u16 (at0 b i <<< 8)

/-- The four big-endian words of a block. -/
def blockWords (b : List Nat) : Words := (beWord b 0, beWord b 2, beWord b 4, beWord b 6)

/-- The eight bytes of four words, big-endian. -/
def wordsBytes (x : Words) : List Nat :=
  [(x.1 >>> 8) % 256, x.1 % 256, (x.2.1 >>> 8) % 256, x.2.1 % 256,
   (x.2.2.1 >>> 8) % 256, x.2.2.1 % 256, (x.2.2.2 >>> 8) % 256, x.2.2.2 % 256]

/-- Four 16-bit values. -/
def W16 (x : Words) : Prop :=
  x.1 < 65536 ∧ x.2.1 < 65536 ∧ x.2.2.1 < 65536 ∧ x.2.2.2 < 65536

/-- The output block of `ideaCipher` as a function of the input block and the schedule. -/
def cipherFn (k inbuf : List Nat) : List Nat := wordsBytes (blockFn k (blockWords inbuf))

/-- The schedule `ek` built by `IdeaEncrypt` and `IdeaDecrypt`, empty if the expansion faults. -/
def scheduleOf (key : List Nat) : List Nat :=
  match ideaExpandKey key (makeWords IDEAKEYLEN) with
  | .ok ek => ek
  | .error _ => []

/-! ## Reference block transform -/

/-- Reference round map number `r` (from 0): from the words `(x1, x2, x3, x4)` to
`(a xor U, U xor c, (T + U) xor b, d xor (T + U))`, additions modulo `2 ^ 16`. -/
def specRound (k : List Nat) (r : Nat) (x : Words) : Words :=
  let a := mul x.1 (at0 k (6 * r))
  let b := (x.2.1 + at0 k (6 * r + 1)) % 65536
  let c := (x.2.2.1 + at0 k (6 * r + 2)) % 65536
  let d := mul x.2.2.2 (at0 k (6 * r + 3))
  let T := mul (c ^^^ a) (at0 k (6 * r + 4))
  let U := mul (((b ^^^ d) + T) % 65536) (at0 k (6 * r + 5))
  (a ^^^ U, U ^^^ c, ((T + U) % 65536) ^^^ b, d ^^^ ((T + U) % 65536))

/-- The four big-endian 16-bit words of a block of bytes. -/
def specWords (b : List Nat) : Words :=
  (256 * at0 b 0 + at0 b 1, 256 * at0 b 2 + at0 b 3, 256 * at0 b 4 + at0 b 5,
    256 * at0 b 6 + at0 b 7)

/-- The two bytes of a 16-bit word, big-endian. -/
def specBytes (w : Nat) : List Nat := [w / 256, w % 256]

/-- Reference block transform: the round maps for `r = 0, ..., 7` in order, then the four
output words written big-endian. -/
def specBlock (k b : List Nat) : List Nat :=
  let x := (List.range 8).foldl (fun x r => specRound k r x) (specWords b)
  specBytes (mul x.1 (at0 k 48)) ++ specBytes ((x.2.2.1 + at0 k 49) % 65536)
    ++ specBytes ((x.2.1 + at0 k 50) % 65536) ++ specBytes (mul x.2.2.2 (at0 k 51))

/-! ## The exits of `mulInv` -/

/-- The loop of `mulInv` once more, reporting how it is left instead of the value returned:
`(true, t1)` when it is left with `y = 1`, through `return uint16(1 - t1)` of line 36, and
`(false, t0)` when it is left with `x = 1`, through `return t0` of line 30; nothing on a
fault or when the bound on the iterations is reached. -/
def mulInvLoopExit : Nat → Nat → Nat → Nat → Nat → Option (Bool × Nat)
  | 0, _, _, _, _ => none
  | fuel + 1, x, y, t0, t1 =>
    if y = 1 then some (true, t1)
    else if y = 0 then none
    else
      let q := x / y
      let x := x % y
      let t0 := u16 (t0 + q * t1)
      if x = 1 then some (false, t0)
      else if x = 0 then none
      else
        let q := y / x
        let y := y % x
        let t1 := u16 (t1 + q * t0)
        mulInvLoopExit fuel x y t0 t1

/-- How `mulInv` is left for `x ≥ 2`: `(true, t1)` through one of the two statements that
return `1 - t1` (lines 20-22 and 36), `(false, t0)` through `return t0`. -/
def mulInvExit (x : Nat) : Option (Bool × Nat) :=
  if x ≤ 1 then none
  else
    let t1 := u16 (0x10001 / x)
    let y := u16 (0x10001 % x)
    if y = 1 then some (true, t1)
    else mulInvLoopExit 65536 x y 1 t1

/-! # Theorems -/

/-! ## Ring arithmetic -/

theorem prime_65537 : Nat.Prime 65537 := by norm_num

theorem sub16_lt (a b : Nat) : sub16 a b < 65536 := by
  unfold sub16; omega

theorem neg16_lt (a : Nat) : neg16 a < 65536 := by
  unfold neg16; omega

theorem u16_lt (a : Nat) : u16 a < 65536 := by
  unfold u16; omega

theorem mul_lt (x y : Nat) : mul x y < 65536 := by
  unfold mul
  simp only
  split_ifs
  · exact u16_lt _
  · exact sub16_lt _ _
  · exact sub16_lt _ _
  · exact sub16_lt _ _

/-- Residue modulo `65537` of a number given by its high and low 16-bit halves. -/
theorem mod_65537_of_halves (hi lo : Nat) (hlo : lo < 65536) (hhi : hi < 65536) :
    (65536 * hi + lo) % 65537 = if lo < hi then 65537 + lo - hi else lo - hi := by
  split_ifs with h
  · have e : 65536 * hi + lo = (65537 + lo - hi) + 65537 * (hi - 1) := by omega
    rw [e, Nat.add_mul_mod_self_left]
    exact Nat.mod_eq_of_lt (by omega)
  · have e : 65536 * hi + lo = (lo - hi) + 65537 * hi := by omega
    rw [e, Nat.add_mul_mod_self_left]
    exact Nat.mod_eq_of_lt (by omega)

/-- Multiplying by the pattern `0`, which stands for `65536 = -1`, negates modulo `65537`. -/
theorem mul_65536_mod (x : Nat) (h1 : 1 ≤ x) (h2 : x ≤ 65536) :
    (x * 65536) % 65537 = 65537 - x := by
  have e : x * 65536 = (65537 - x) + 65537 * (x - 1) := by omega
  rw [e, Nat.add_mul_mod_self_left]
  exact Nat.mod_eq_of_lt (by omega)

theorem mul_eq_mulRef (x y : Nat) (hx : x < 65536) (hy : y < 65536) :
    mul x y = mulRef x y := by
  unfold mul mulRef ringRep sub16 u16
  simp only [Nat.shiftRight_eq_div_pow]
  by_cases hy0 : y = 0
  · subst hy0
    simp only [ne_eq, not_true_eq_false, if_false, if_true]
    by_cases hx0 : x = 0
    · subst hx0; rfl
    · rw [if_neg hx0, mul_65536_mod x (by omega) (by omega)]
  · by_cases hx0 : x = 0
    · subst hx0
      simp only [ne_eq, hy0, not_false_eq_true, if_true, not_true_eq_false, if_false]
      rw [Nat.mul_comm, mul_65536_mod y (by omega) (by omega)]
    · simp only [ne_eq, hy0, hx0, not_false_eq_true, if_true, if_false]
      have hp : x * y ≤ 65535 * 65535 := Nat.mul_le_mul (by omega) (by omega)
      generalize x * y = p at hp ⊢
      have e : p = 65536 * (p / 65536) + p % 65536 := (Nat.div_add_mod p 65536).symm
      have hm := mod_65537_of_halves (p / 65536) (p % 65536) (Nat.mod_lt _ (by norm_num))
        (by omega)
      rw [← e] at hm
      rw [hm]
      split_ifs <;> omega

/-! ## The ring of residues modulo 65537 -/

theorem ringRep_pos (x : Nat) : 1 ≤ ringRep x := by
  unfold ringRep; split_ifs <;> omega

theorem ringRep_le (x : Nat) (hx : x < 65536) : ringRep x ≤ 65536 := by
  unfold ringRep; split_ifs <;> omega

theorem toZ_ne_zero (x : Nat) (hx : x < 65536) : toZ x ≠ 0 := by
  unfold toZ
  intro h
  rw [ZMod.natCast_zmod_eq_zero_iff_dvd] at h
  have h1 := ringRep_pos x
  have h2 := ringRep_le x hx
  have := Nat.le_of_dvd (by omega) h
  omega

theorem toZ_injective (x y : Nat) (hx : x < 65536) (hy : y < 65536) (h : toZ x = toZ y) :
    x = y := by
  unfold toZ at h
  rw [ZMod.natCast_eq_natCast_iff'] at h
  have hx1 := ringRep_pos x
  have hx2 := ringRep_le x hx
  have hy1 := ringRep_pos y
  have hy2 := ringRep_le y hy
  rw [Nat.mod_eq_of_lt (by omega), Nat.mod_eq_of_lt (by omega)] at h
  unfold ringRep at h
  split_ifs at h <;> omega

theorem toZ_mul (x y : Nat) (hx : x < 65536) (hy : y < 65536) :
    toZ (mul x y) = toZ x * toZ y := by
  rw [mul_eq_mulRef x y hx hy]
  have hne : toZ x * toZ y ≠ 0 := mul_ne_zero (toZ_ne_zero x hx) (toZ_ne_zero y hy)
  unfold toZ at hne ⊢
  rw [← Nat.cast_mul, Ne, ZMod.natCast_zmod_eq_zero_iff_dvd] at hne
  have hm : (ringRep x * ringRep y) % 65537 ≠ 0 := fun h => hne (Nat.dvd_of_mod_eq_zero h)
  have hlt : (ringRep x * ringRep y) % 65537 < 65537 := Nat.mod_lt _ (by norm_num)
  have hr : ringRep (mulRef x y) = (ringRep x * ringRep y) % 65537 := by
    unfold mulRef
    generalize (ringRep x * ringRep y) % 65537 = m at hm hlt
    unfold ringRep
    split_ifs <;> omega
  rw [hr, ZMod.natCast_mod, Nat.cast_mul]

theorem toZ_one : toZ 1 = 1 := by
  unfold toZ ringRep
  simp

theorem toZ_zero_sq : toZ 0 * toZ 0 = 1 := by
  unfold toZ ringRep
  simp only [if_true]
  rw [← Nat.cast_mul, ← Nat.cast_one, ZMod.natCast_eq_natCast_iff']

/-! ## Correctness of `mulInv` -/

/-- Loop invariant of `mulInv`: with `a` the argument of `mulInv`, the remainders `x`, `y`
and the accumulators satisfy `t0 * y + t1 * x = 65537`, `t0 * a = x` and `t1 * a = -y`
modulo `65537`; then the loop returns within `y` iterations, without a fault, a 16-bit
value that stands for the inverse of `a`. -/
theorem mulInvLoop_spec (a : Nat) : ∀ (fuel x y t0 t1 : Nat),
    1 ≤ y → y < x → x < 65536 → t0 * y + t1 * x = 65537 →
    (t0 : ZMod 65537) * a = x → (t1 : ZMod 65537) * a + y = 0 → y ≤ fuel →
    ∃ r, mulInvLoop fuel x y t0 t1 = .ok r ∧ r < 65536 ∧ toZ r * a = 1 := by
  intro fuel
  induction fuel with
  | zero => intro x y t0 t1 h1 _ _ _ _ _ h7; omega
  | succ n ih =>
    intro x y t0 t1 hy hyx hx hN h0 h1 hf
    by_cases hy1 : y = 1
    · subst hy1
      refine ⟨sub16 1 t1, by simp [mulInvLoop], sub16_lt _ _, ?_⟩
      have ht1 : t1 ≤ 32768 := by
        by_contra hc
        have : 32769 * 2 ≤ t1 * x := Nat.mul_le_mul (by omega) (by omega)
        omega
      have ht0 : t1 ≠ 0 := by
        rintro rfl
        simp at h1
      have hr : ringRep (sub16 1 t1) = 65537 - t1 := by
        unfold ringRep sub16
        split_ifs <;> omega
      unfold toZ
      rw [hr, Nat.cast_sub (by omega)]
      have hz : ((65537 : ℕ) : ZMod 65537) = 0 := ZMod.natCast_self 65537
      rw [hz]
      push_cast at h1
      linear_combination (-1 : ZMod 65537) * h1
    · have hy0 : y ≠ 0 := by omega
      have hd : y * (x / y) + x % y = x := Nat.div_add_mod x y
      have hxlt : x % y < y := Nat.mod_lt _ (by omega)
      have hN1 : (t0 + x / y * t1) * y + t1 * (x % y) = 65537 := by
        have e : (t0 + x / y * t1) * y + t1 * (x % y) = t0 * y + t1 * (y * (x / y) + x % y) := by
          ring
        rw [e, hd, hN]
      have hx0 : x % y ≠ 0 := by
        intro hc
        rw [hc, Nat.mul_zero, Nat.add_zero] at hN1
        have hdvd : y ∣ 65537 := ⟨t0 + x / y * t1, by rw [Nat.mul_comm]; exact hN1.symm⟩
        rcases (Nat.dvd_prime prime_65537).1 hdvd with h | h <;> omega
      have hb0 : t0 + x / y * t1 < 65536 := by
        by_contra hc
        have : 65536 * 2 ≤ (t0 + x / y * t1) * y := Nat.mul_le_mul (by omega) (by omega)
        omega
      have hZ0 : ((t0 + x / y * t1 : ℕ) : ZMod 65537) * a = ((x % y : ℕ) : ZMod 65537) := by
        have hdZ : (y : ZMod 65537) * ((x / y : ℕ) : ZMod 65537) + ((x % y : ℕ) : ZMod 65537)
            = x := by exact_mod_cast congrArg (Nat.cast : ℕ → ZMod 65537) hd
        push_cast
        linear_combination h0 + ((x / y : ℕ) : ZMod 65537) * h1 - hdZ
      by_cases hx1 : x % y = 1
      · refine ⟨t0 + x / y * t1, ?_, hb0, ?_⟩
        · simp [mulInvLoop, hy1, hy0, hx1, u16, Nat.mod_eq_of_lt hb0]
        · have hne : t0 + x / y * t1 ≠ 0 := by
            intro hc
            rw [hc, hx1] at hZ0
            simp at hZ0
          unfold toZ ringRep
          rw [if_neg hne, hZ0, hx1]
          simp
      · have hd2 : x % y * (y / (x % y)) + y % (x % y) = y := Nat.div_add_mod y (x % y)
        have hylt : y % (x % y) < x % y := Nat.mod_lt _ (by omega)
        have hN2 : (t0 + x / y * t1) * (y % (x % y))
            + (t1 + y / (x % y) * (t0 + x / y * t1)) * (x % y) = 65537 := by
          have e : (t0 + x / y * t1) * (y % (x % y))
              + (t1 + y / (x % y) * (t0 + x / y * t1)) * (x % y)
              = (t0 + x / y * t1) * (x % y * (y / (x % y)) + y % (x % y)) + t1 * (x % y) := by
            ring
          rw [e, hd2, hN1]
        have hy20 : y % (x % y) ≠ 0 := by
          intro hc
          rw [hc, Nat.mul_zero, Nat.zero_add] at hN2
          have hdvd : x % y ∣ 65537 :=
            ⟨t1 + y / (x % y) * (t0 + x / y * t1), by rw [Nat.mul_comm]; exact hN2.symm⟩
          rcases (Nat.dvd_prime prime_65537).1 hdvd with h | h <;> omega
        have hb1 : t1 + y / (x % y) * (t0 + x / y * t1) < 65536 := by
          by_contra hc
          have : 65536 * 2 ≤ (t1 + y / (x % y) * (t0 + x / y * t1)) * (x % y) :=
            Nat.mul_le_mul (by omega) (by omega)
          omega
        have hZ1 : ((t1 + y / (x % y) * (t0 + x / y * t1) : ℕ) : ZMod 65537) * a
            + ((y % (x % y) : ℕ) : ZMod 65537) = 0 := by
          have hdZ : ((x % y : ℕ) : ZMod 65537) * ((y / (x % y) : ℕ) : ZMod 65537)
              + ((y % (x % y) : ℕ) : ZMod 65537) = y := by
            exact_mod_cast congrArg (Nat.cast : ℕ → ZMod 65537) hd2
          push_cast at hZ0 ⊢
          linear_combination h1 + ((y / (x % y) : ℕ) : ZMod 65537) * hZ0 + hdZ
        obtain ⟨r, hr, hrlt, hrz⟩ := ih (x % y) (y % (x % y)) (t0 + x / y * t1)
          (t1 + y / (x % y) * (t0 + x / y * t1)) (by omega) hylt (by omega) hN2 hZ0 hZ1
          (by omega)
        refine ⟨r, ?_, hrlt, hrz⟩
        rw [← hr]
        simp [mulInvLoop, hy1, hy0, hx1, hx0, u16, Nat.mod_eq_of_lt hb0, Nat.mod_eq_of_lt hb1]

/-- Main fact about `mulInv`: on every 16-bit argument it returns, without a fault, a 16-bit
value whose ring product with the argument is the ring identity. -/
theorem mulInv_spec (x : Nat) (hx : x < 65536) :
    ∃ r, mulInv x = .ok r ∧ r < 65536 ∧ toZ r * toZ x = 1 := by
  by_cases h0 : x = 0
  · subst h0
    exact ⟨0, by simp [mulInv], by norm_num, toZ_zero_sq⟩
  by_cases h1 : x = 1
  · subst h1
    exact ⟨1, by simp [mulInv], by norm_num, by rw [toZ_one]; simp⟩
  have hx2 : 2 ≤ x := by omega
  have hd : x * (65537 / x) + 65537 % x = 65537 := Nat.div_add_mod 65537 x
  have hylt : 65537 % x < x := Nat.mod_lt _ (by omega)
  have hy0 : 65537 % x ≠ 0 := by
    intro hc
    have hdvd : x ∣ 65537 := Nat.dvd_of_mod_eq_zero hc
    rcases (Nat.dvd_prime prime_65537).1 hdvd with h | h <;> omega
  have hq : 65537 / x ≤ 32768 := by
    by_contra hc
    have : 2 * 32769 ≤ x * (65537 / x) := Nat.mul_le_mul hx2 (by omega)
    omega
  have hloop : mulInv x = mulInvLoop 65536 x (65537 % x) 1 (65537 / x) := by
    unfold mulInv
    rw [if_neg (by omega)]
    simp only [u16, Nat.mod_eq_of_lt (show 65537 / x < 65536 by omega),
      Nat.mod_eq_of_lt (show 65537 % x < 65536 by omega)]
    split_ifs with hy1
    · rw [hy1]; simp [mulInvLoop]
    · rfl
  have hrep : toZ x = (x : ZMod 65537) := by
    unfold toZ ringRep
    rw [if_neg h0]
  rw [hloop, hrep]
  apply mulInvLoop_spec x 65536 x (65537 % x) 1 (65537 / x) (by omega) hylt hx
  · rw [Nat.one_mul, Nat.mul_comm, Nat.add_comm]; exact hd
  · simp
  · have hz : ((x * (65537 / x) + 65537 % x : ℕ) : ZMod 65537) = 0 := by
      rw [hd]; exact ZMod.natCast_self 65537
    push_cast at hz ⊢
    linear_combination hz
  · omega

theorem mulInv_eq_ok (x : Nat) (hx : x < 65536) : mulInv x = .ok (invOf x) := by
  obtain ⟨r, hr, _, _⟩ := mulInv_spec x hx
  simp [invOf, hr]

theorem invOf_lt (x : Nat) (hx : x < 65536) : invOf x < 65536 := by
  obtain ⟨r, hr, hlt, _⟩ := mulInv_spec x hx
  simpa [invOf, hr] using hlt

theorem toZ_invOf (x : Nat) (hx : x < 65536) : toZ (invOf x) * toZ x = 1 := by
  obtain ⟨r, hr, _, hz⟩ := mulInv_spec x hx
  simpa [invOf, hr] using hz

theorem mul_invOf (x : Nat) (hx : x < 65536) : mul x (invOf x) = 1 := by
  apply toZ_injective _ _ (mul_lt _ _) (by norm_num)
  rw [toZ_mul x _ hx (invOf_lt x hx), toZ_one, mul_comm]
  exact toZ_invOf x hx

theorem mul_mul_invOf (x y : Nat) (hx : x < 65536) (hy : y < 65536) :
    mul (mul x y) (invOf y) = x := by
  apply toZ_injective _ _ (mul_lt _ _) hx
  rw [toZ_mul _ _ (mul_lt _ _) (invOf_lt y hy), toZ_mul x y hx hy, mul_assoc,
    mul_comm (toZ y), toZ_invOf y hy, mul_one]

theorem invOf_invOf (x : Nat) (hx : x < 65536) : invOf (invOf x) = x := by
  apply toZ_injective _ _ (invOf_lt _ (invOf_lt x hx)) hx
  have h1 := toZ_invOf x hx
  have h2 := toZ_invOf (invOf x) (invOf_lt x hx)
  calc toZ (invOf (invOf x)) = toZ (invOf (invOf x)) * (toZ (invOf x) * toZ x) := by
        rw [h1, mul_one]
    _ = (toZ (invOf (invOf x)) * toZ (invOf x)) * toZ x := by ring
    _ = toZ x := by rw [h2, one_mul]

/-! ## Slices -/

theorem ok_bind {α β : Type} (a : α) (f : α → Except Fault β) :
    (Except.ok a >>= f) = f a := rfl

theorem at0_eq_getElem (l : List Nat) (i : Nat) (h : i < l.length) : at0 l i = l[i] := by
  simp [at0, List.getD_eq_getElem?_getD, List.getElem?_eq_getElem h]

theorem at0_of_le (l : List Nat) (i : Nat) (h : l.length ≤ i) : at0 l i = 0 := by
  simp [at0, List.getD_eq_getElem?_getD, List.getElem?_eq_none h]

theorem rd_eq (l : List Nat) (i : Nat) (h : i < l.length) : rd l i = .ok (at0 l i) := by
  simp [rd, at0, List.getD_eq_getElem?_getD, List.getElem?_eq_getElem h]

theorem rd_fault (l : List Nat) (i : Nat) (h : l.length ≤ i) :
    rd l i = .error .indexOutOfRange := by
  simp [rd, List.getElem?_eq_none h]

theorem wr_eq (l : List Nat) (i v : Nat) (h : i < l.length) : wr l i v = .ok (l.set i v) := by
  simp [wr, h]

theorem sliceFrom_eq (l : List Nat) (k : Nat) (h : k ≤ l.length) :
    sliceFrom l k = .ok (l.drop k) := by
  simp [sliceFrom, h]

theorem at0_set (l : List Nat) (i j v : Nat) :
    at0 (l.set i v) j = if i = j ∧ i < l.length then v else at0 l j := by
  unfold at0
  simp only [List.getD_eq_getElem?_getD, List.getElem?_set]
  by_cases h : i = j
  · subst h
    by_cases h2 : i < l.length
    · simp [h2]
    · simp [h2, List.getElem?_eq_none (Nat.le_of_not_lt h2)]
  · simp [h]

theorem at0_drop (l : List Nat) (k i : Nat) : at0 (l.drop k) i = at0 l (k + i) := by
  simp [at0, List.getD_eq_getElem?_getD, List.getElem?_drop]

/-- A list is determined by its length and its elements. -/
theorem list_ext_at0 (l l2 : List Nat) (hlen : l.length = l2.length)
    (h : ∀ i, i < l.length → at0 l i = at0 l2 i) : l = l2 := by
  apply List.ext_getElem hlen
  intro i h1 h2
  have := h i h1
  rwa [at0_eq_getElem l i h1, at0_eq_getElem l2 i h2] at this

theorem range_16 : List.range 16 = [0, 1, 2, 3, 4, 5, 6, 7, 8, 9, 10, 11, 12, 13, 14, 15] := by
  decide

theorem list_eq_map_range (l : List Nat) : l = (List.range l.length).map (at0 l) := by
  apply list_ext_at0
  · simp
  · intro i h
    have h2 : i < ((List.range l.length).map (at0 l)).length := by simpa using h
    rw [at0_eq_getElem _ i h2]
    simp

theorem at0_lt_of_forall (l : List Nat) (c : Nat) (h : ∀ b ∈ l, b < c) (i : Nat)
    (hi : i < l.length) : at0 l i < c := by
  rw [at0_eq_getElem l i hi]
  exact h _ (List.getElem_mem hi)

/-! ## Key expansion -/

theorem keyWord_drop (key : List Nat) (k : Nat) :
    keyWord (key.drop 2) k = keyWord key (k + 1) := by
  unfold keyWord
  rw [at0_drop, at0_drop]
  have e1 : 2 + 2 * k = 2 * (k + 1) := by ring
  have e2 : 2 + (2 * k + 1) = 2 * (k + 1) + 1 := by ring
  rw [e1, e2]

/-- Effect of the first loop of `ideaExpandKey`. -/
theorem expandLoad_spec : ∀ (n j : Nat) (userKey EK : List Nat),
    2 * n ≤ userKey.length → j + n ≤ EK.length →
    ∃ A, expandLoad n j userKey EK = .ok A ∧ A.length = EK.length ∧
      ∀ m, at0 A m = if j ≤ m ∧ m < j + n then keyWord userKey (m - j) else at0 EK m := by
  intro n
  induction n with
  | zero =>
    intro j userKey EK _ _
    refine ⟨EK, rfl, rfl, ?_⟩
    intro m
    rw [if_neg (by omega)]
  | succ n ih =>
    intro j userKey EK hk he
    obtain ⟨A, hA, hlen, hat⟩ := ih (j + 1) (userKey.drop 2)
      (EK.set j (u16 (u16 (at0 userKey 0 <<< 8) + at0 userKey 1)))
      (by rw [List.length_drop]; omega) (by rw [List.length_set]; omega)
    refine ⟨A, ?_, by rw [hlen, List.length_set], ?_⟩
    · rw [← hA]
      simp only [expandLoad]
      rw [rd_eq userKey 0 (by omega), ok_bind, rd_eq userKey 1 (by omega), ok_bind,
        wr_eq EK j _ (by omega), ok_bind, sliceFrom_eq userKey 2 (by omega), ok_bind]
    · intro m
      rw [hat m, at0_set]
      by_cases hm : j + 1 ≤ m ∧ m < j + 1 + n
      · rw [if_pos hm, if_pos (by omega), keyWord_drop]
        congr 1
        omega
      · rw [if_neg hm]
        by_cases hj : j = m
        · subst hj
          rw [if_pos ⟨rfl, by omega⟩, if_pos (by omega)]
          simp [keyWord]
        · rw [if_neg (by omega), if_neg (by omega)]

/-- Effect of the second loop of `ideaExpandKey`, started with the slice at a multiple of 8. -/
theorem expandRotate_spec : ∀ (n i o : Nat) (EK : List Nat),
    i < 8 → 8 * o + i + 8 + n ≤ EK.length →
    ∃ A, expandRotate n i (8 * o) EK = .ok A ∧ A.length = EK.length ∧
      (∀ m, m < 8 * o + i + 8 → at0 A m = at0 EK m) ∧
      (∀ m, 8 * o + i + 8 + n ≤ m → at0 A m = at0 EK m) ∧
      (∀ m, 8 * o + i + 8 ≤ m → m < 8 * o + i + 8 + n →
        at0 A m = rotWord (at0 A (src1 m)) (at0 A (src2 m))) := by
  intro n
  induction n with
  | zero =>
    intro i o EK _ _
    exact ⟨EK, rfl, rfl, fun _ _ => rfl, fun _ _ => rfl, fun m h1 h2 => by omega⟩
  | succ n ih =>
    intro i o EK hi hlen
    have h7 : (i + 1) &&& 7 = (i + 1) % 8 := by interval_cases i <;> rfl
    have h7b : (i + 1 + 1) &&& 7 = (i + 2) % 8 := by interval_cases i <;> rfl
    have h8 : (i + 1) &&& 8 = if i = 7 then 8 else 0 := by interval_cases i <;> rfl
    have hstep : expandRotate (n + 1) i (8 * o) EK
        = expandRotate n ((i + 1) % 8) (8 * o + if i = 7 then 8 else 0)
            (EK.set (8 * o + i + 8)
              (rotWord (at0 EK (8 * o + (i + 1) % 8)) (at0 EK (8 * o + (i + 2) % 8)))) := by
      simp only [expandRotate]
      rw [h7, h7b, h8, rd_eq EK _ (by omega), ok_bind, rd_eq EK _ (by omega), ok_bind,
        wr_eq EK _ _ (by omega), ok_bind, if_pos (by rw [List.length_set]; split_ifs <;> omega)]
      rfl
    rw [hstep]
    by_cases h : i = 7
    · subst h
      obtain ⟨A, hA, hl, hlo, hhi, hmid⟩ := ih 0 (o + 1)
        (EK.set (8 * o + 7 + 8) (rotWord (at0 EK (8 * o + (7 + 1) % 8))
          (at0 EK (8 * o + (7 + 2) % 8)))) (by omega) (by rw [List.length_set]; omega)
      refine ⟨A, ?_, by rw [hl, List.length_set], ?_, ?_, ?_⟩
      · rw [← hA]; rfl
      · intro m hm
        rw [hlo m (by omega), at0_set, if_neg (by omega)]
      · intro m hm
        rw [hhi m (by omega), at0_set, if_neg (by omega)]
      · intro m hm1 hm2
        by_cases hm : m = 8 * o + 7 + 8
        · have e1 : src1 m = 8 * o + (7 + 1) % 8 := by unfold src1; omega
          have e2 : src2 m = 8 * o + (7 + 2) % 8 := by unfold src2; omega
          rw [e1, e2, hlo _ (by omega), hlo _ (by omega), hm, hlo _ (by omega)]
          simp only [at0_set]
          rw [if_pos ⟨trivial, by omega⟩, if_neg (by omega), if_neg (by omega)]
        · exact hmid m (by omega) (by omega)
    · obtain ⟨A, hA, hl, hlo, hhi, hmid⟩ := ih (i + 1) o
        (EK.set (8 * o + i + 8) (rotWord (at0 EK (8 * o + (i + 1) % 8))
          (at0 EK (8 * o + (i + 2) % 8)))) (by omega) (by rw [List.length_set]; omega)
      refine ⟨A, ?_, by rw [hl, List.length_set], ?_, ?_, ?_⟩
      · rw [← hA, if_neg h, Nat.mod_eq_of_lt (by omega)]; rfl
      · intro m hm
        rw [hlo m (by omega), at0_set, if_neg (by omega)]
      · intro m hm
        rw [hhi m (by omega), at0_set, if_neg (by omega)]
      · intro m hm1 hm2
        by_cases hm : m = 8 * o + i + 8
        · have e1 : src1 m = 8 * o + (i + 1) % 8 := by unfold src1; omega
          have e2 : src2 m = 8 * o + (i + 2) % 8 := by unfold src2; omega
          rw [e1, e2, hlo _ (by omega), hlo _ (by omega), hm, hlo _ (by omega)]
          simp only [at0_set]
          rw [if_pos ⟨trivial, by omega⟩, if_neg (by omega), if_neg (by omega)]
        · exact hmid m (by omega) (by omega)

/-- Effect of `ideaExpandKey` on a key of at least 16 bytes and a slice of at least 52
words: it returns without a fault, the first eight words are the big-endian words of the
key, and each of the next 44 is computed from two words of the preceding group. -/
theorem ideaExpandKey_spec (key EK : List Nat) (hk : 16 ≤ key.length) (he : 52 ≤ EK.length) :
    ∃ A, ideaExpandKey key EK = .ok A ∧ A.length = EK.length ∧
      (∀ m, m < 8 → at0 A m = keyWord key m) ∧
      (∀ m, 8 ≤ m → m < 52 → at0 A m = rotWord (at0 A (src1 m)) (at0 A (src2 m))) ∧
      (∀ m, 52 ≤ m → at0 A m = at0 EK m) := by
  obtain ⟨B, hB, hBl, hBat⟩ := expandLoad_spec 8 0 key EK (by omega) (by omega)
  obtain ⟨A, hA, hl, hlo, hhi, hmid⟩ := expandRotate_spec 44 0 0 B (by omega) (by omega)
  refine ⟨A, ?_, by rw [hl, hBl], ?_, ?_, ?_⟩
  · unfold ideaExpandKey
    rw [hB, ok_bind]
    exact hA
  · intro m hm
    rw [hlo m (by omega), hBat m, if_pos (by omega)]
    rfl
  · intro m h1 h2
    exact hmid m (by omega) (by omega)
  · intro m hm
    rw [hhi m (by omega), hBat m, if_neg (by omega)]

/-! ## The key schedule as rotations of the key -/

theorem rotWord_eq (a b : Nat) (hb : b < 65536) :
    rotWord a b = 512 * (a % 128) + b / 128 := by
  unfold rotWord u16
  rw [Nat.shiftLeft_eq, Nat.shiftRight_eq_div_pow]
  have e : a * 2 ^ 9 % 65536 = 2 ^ 9 * (a % 128) := by omega
  rw [e, ← Nat.mul_add_lt_is_or (by omega)]

theorem rotWord_lt (a b : Nat) (hb : b < 65536) : rotWord a b < 65536 := by
  rw [rotWord_eq a b hb]; omega

theorem keyWord_lt (key : List Nat) (m : Nat) : keyWord key m < 65536 := by
  unfold keyWord u16; omega

theorem wordBE_lt (v m : Nat) : wordBE v m < 65536 := by
  unfold wordBE; omega

theorem rotl128_zero (v : Nat) (hv : v < 2 ^ 128) : rotl128 v 0 = v := by
  have e : rotl128 v 0 = v * 2 ^ 0 % 2 ^ 128 + v / 2 ^ 128 := rfl
  rw [e]; omega

theorem rotl128_25 (v : Nat) : rotl128 v 25 = v * 2 ^ 25 % 2 ^ 128 + v / 2 ^ 103 := rfl

theorem rotl128_50 (v : Nat) : rotl128 v 50 = v * 2 ^ 50 % 2 ^ 128 + v / 2 ^ 78 := rfl

theorem rotl128_75 (v : Nat) : rotl128 v 75 = v * 2 ^ 75 % 2 ^ 128 + v / 2 ^ 53 := rfl

theorem rotl128_100 (v : Nat) : rotl128 v 100 = v * 2 ^ 100 % 2 ^ 128 + v / 2 ^ 28 := rfl

theorem rotl128_125 (v : Nat) : rotl128 v 125 = v * 2 ^ 125 % 2 ^ 128 + v / 2 ^ 3 := rfl

theorem rotl128_150 (v : Nat) : rotl128 v 150 = v * 2 ^ 22 % 2 ^ 128 + v / 2 ^ 106 := rfl

theorem rotl128_25_lt (v : Nat) (hv : v < 2 ^ 128) : rotl128 v 25 < 2 ^ 128 := by
  rw [rotl128_25]; omega

theorem rotl128_25_25 (v : Nat) (hv : v < 2 ^ 128) :
    rotl128 (rotl128 v 25) 25 = rotl128 v 50 := by
  rw [rotl128_25, rotl128_25, rotl128_50]
  have h1 : v * 2 ^ 25 % 2 ^ 128 = 2 ^ 25 * (v % 2 ^ 103) := by omega
  have h2 : v * 2 ^ 50 % 2 ^ 128 = 2 ^ 50 * (v % 2 ^ 78) := by omega
  have h3 : v / 2 ^ 103 < 2 ^ 25 := by omega
  have h4 : v % 2 ^ 103 = 2 ^ 78 * (v / 2 ^ 78 % 2 ^ 25) + v % 2 ^ 78 := by omega
  have h5 : v / 2 ^ 78 = 2 ^ 25 * (v / 2 ^ 103) + v / 2 ^ 78 % 2 ^ 25 := by omega
  have hM : v / 2 ^ 78 % 2 ^ 25 < 2 ^ 25 := Nat.mod_lt _ (by norm_num)
  have hN : v % 2 ^ 78 < 2 ^ 78 := Nat.mod_lt _ (by norm_num)
  rw [h1, h2]
  clear h1 h2 hv
  generalize v / 2 ^ 103 = H at *
  generalize v % 2 ^ 103 = L at *
  generalize v / 2 ^ 78 % 2 ^ 25 = M at *
  generalize v % 2 ^ 78 = N at *
  generalize v / 2 ^ 78 = Q at *
  subst h4 h5
  have h6 : (2 ^ 25 * (2 ^ 78 * M + N) + H) * 2 ^ 25 % 2 ^ 128
      = 2 ^ 25 * (2 ^ 25 * N + H) := by omega
  have h7 : (2 ^ 25 * (2 ^ 78 * M + N) + H) / 2 ^ 103 = M := by omega
  rw [h6, h7]
  omega

theorem rotl128_50_25 (v : Nat) (hv : v < 2 ^ 128) :
    rotl128 (rotl128 v 50) 25 = rotl128 v 75 := by
  rw [rotl128_25, rotl128_50, rotl128_75]
  have h1 : v * 2 ^ 50 % 2 ^ 128 = 2 ^ 50 * (v % 2 ^ 78) := by omega
  have h2 : v * 2 ^ 75 % 2 ^ 128 = 2 ^ 75 * (v % 2 ^ 53) := by omega
  have h3 : v / 2 ^ 78 < 2 ^ 50 := by omega
  have h4 : v % 2 ^ 78 = 2 ^ 53 * (v / 2 ^ 53 % 2 ^ 25) + v % 2 ^ 53 := by omega
  have h5 : v / 2 ^ 53 = 2 ^ 25 * (v / 2 ^ 78) + v / 2 ^ 53 % 2 ^ 25 := by omega
  have hM : v / 2 ^ 53 % 2 ^ 25 < 2 ^ 25 := Nat.mod_lt _ (by norm_num)
  have hN : v % 2 ^ 53 < 2 ^ 53 := Nat.mod_lt _ (by norm_num)
  rw [h1, h2]
  clear h1 h2 hv
  generalize v / 2 ^ 78 = H at *
  generalize v % 2 ^ 78 = L at *
  generalize v / 2 ^ 53 % 2 ^ 25 = M at *
  generalize v % 2 ^ 53 = N at *
  generalize v / 2 ^ 53 = Q at *
  subst h4 h5
  have h6 : (2 ^ 50 * (2 ^ 53 * M + N) + H) * 2 ^ 25 % 2 ^ 128
      = 2 ^ 25 * (2 ^ 50 * N + H) := by omega
  have h7 : (2 ^ 50 * (2 ^ 53 * M + N) + H) / 2 ^ 103 = M := by omega
  rw [h6, h7]
  omega

theorem rotl128_75_25 (v : Nat) (hv : v < 2 ^ 128) :
    rotl128 (rotl128 v 75) 25 = rotl128 v 100 := by
  rw [rotl128_25, rotl128_75, rotl128_100]
  have h1 : v * 2 ^ 75 % 2 ^ 128 = 2 ^ 75 * (v % 2 ^ 53) := by omega
  have h2 : v * 2 ^ 100 % 2 ^ 128 = 2 ^ 100 * (v % 2 ^ 28) := by omega
  have h3 : v / 2 ^ 53 < 2 ^ 75 := by omega
  have h4 : v % 2 ^ 53 = 2 ^ 28 * (v / 2 ^ 28 % 2 ^ 25) + v % 2 ^ 28 := by omega
  have h5 : v / 2 ^ 28 = 2 ^ 25 * (v / 2 ^ 53) + v / 2 ^ 28 % 2 ^ 25 := by omega
  have hM : v / 2 ^ 28 % 2 ^ 25 < 2 ^ 25 := Nat.mod_lt _ (by norm_num)
  have hN : v % 2 ^ 28 < 2 ^ 28 := Nat.mod_lt _ (by norm_num)
  rw [h1, h2]
  clear h1 h2 hv
  generalize v / 2 ^ 53 = H at *
  generalize v % 2 ^ 53 = L at *
  generalize v / 2 ^ 28 % 2 ^ 25 = M at *
  generalize v % 2 ^ 28 = N at *
  generalize v / 2 ^ 28 = Q at *
  subst h4 h5
  have h6 : (2 ^ 75 * (2 ^ 28 * M + N) + H) * 2 ^ 25 % 2 ^ 128
      = 2 ^ 25 * (2 ^ 75 * N + H) := by omega
  have h7 : (2 ^ 75 * (2 ^ 28 * M + N) + H) / 2 ^ 103 = M := by omega
  rw [h6, h7]
  omega

theorem rotl128_100_25 (v : Nat) (hv : v < 2 ^ 128) :
    rotl128 (rotl128 v 100) 25 = rotl128 v 125 := by
  rw [rotl128_25, rotl128_100, rotl128_125]
  have h1 : v * 2 ^ 100 % 2 ^ 128 = 2 ^ 100 * (v % 2 ^ 28) := by omega
  have h2 : v * 2 ^ 125 % 2 ^ 128 = 2 ^ 125 * (v % 2 ^ 3) := by omega
  have h3 : v / 2 ^ 28 < 2 ^ 100 := by omega
  have h4 : v % 2 ^ 28 = 2 ^ 3 * (v / 2 ^ 3 % 2 ^ 25) + v % 2 ^ 3 := by omega
  have h5 : v / 2 ^ 3 = 2 ^ 25 * (v / 2 ^ 28) + v / 2 ^ 3 % 2 ^ 25 := by omega
  have hM : v / 2 ^ 3 % 2 ^ 25 < 2 ^ 25 := Nat.mod_lt _ (by norm_num)
  have hN : v % 2 ^ 3 < 2 ^ 3 := Nat.mod_lt _ (by norm_num)
  rw [h1, h2]
  clear h1 h2 hv
  generalize v / 2 ^ 28 = H at *
  generalize v % 2 ^ 28 = L at *
  generalize v / 2 ^ 3 % 2 ^ 25 = M at *
  generalize v % 2 ^ 3 = N at *
  generalize v / 2 ^ 3 = Q at *
  subst h4 h5
  have h6 : (2 ^ 100 * (2 ^ 3 * M + N) + H) * 2 ^ 25 % 2 ^ 128
      = 2 ^ 25 * (2 ^ 100 * N + H) := by omega
  have h7 : (2 ^ 100 * (2 ^ 3 * M + N) + H) / 2 ^ 103 = M := by omega
  rw [h6, h7]
  omega

theorem rotl128_125_25 (v : Nat) (hv : v < 2 ^ 128) :
    rotl128 (rotl128 v 125) 25 = rotl128 v 150 := by
  rw [rotl128_25, rotl128_125, rotl128_150]
  have h1 : v * 2 ^ 125 % 2 ^ 128 = 2 ^ 125 * (v % 2 ^ 3) := by omega
  have h2 : v * 2 ^ 22 % 2 ^ 128 = 2 ^ 22 * (v % 2 ^ 106) := by omega
  have h4 : v / 2 ^ 3 = 2 ^ 103 * (v / 2 ^ 106) + v / 2 ^ 3 % 2 ^ 103 := by omega
  have h5 : v % 2 ^ 106 = 2 ^ 3 * (v / 2 ^ 3 % 2 ^ 103) + v % 2 ^ 3 := by omega
  have h3 : v / 2 ^ 106 < 2 ^ 22 := by omega
  have hL : v / 2 ^ 3 % 2 ^ 103 < 2 ^ 103 := Nat.mod_lt _ (by norm_num)
  have hN : v % 2 ^ 3 < 2 ^ 3 := Nat.mod_lt _ (by norm_num)
  rw [h1, h2]
  clear h1 h2 hv
  generalize v / 2 ^ 106 = H at *
  generalize v / 2 ^ 3 % 2 ^ 103 = L at *
  generalize v % 2 ^ 3 = N at *
  generalize v / 2 ^ 3 = Q at *
  generalize v % 2 ^ 106 = R at *
  subst h4 h5
  have h6 : (2 ^ 125 * N + (2 ^ 103 * H + L)) * 2 ^ 25 % 2 ^ 128 = 2 ^ 25 * L := by omega
  have h7 : (2 ^ 125 * N + (2 ^ 103 * H + L)) / 2 ^ 103 = 2 ^ 22 * N + H := by omega
  rw [h6, h7]
  omega

/-- Rotating by 25 bits once more. -/
theorem rotl128_succ (v : Nat) (hv : v < 2 ^ 128) (g : Nat) (hg : g < 6) :
    rotl128 (rotl128 v (25 * g)) 25 = rotl128 v (25 * (g + 1)) := by
  interval_cases g
  · show rotl128 (rotl128 v 0) 25 = rotl128 v 25
    rw [rotl128_zero v hv]
  · exact rotl128_25_25 v hv
  · exact rotl128_50_25 v hv
  · exact rotl128_75_25 v hv
  · exact rotl128_100_25 v hv
  · exact rotl128_125_25 v hv

theorem rotl128_word_0 (v : Nat) (hv : v < 2 ^ 128) :
    rotWord (wordBE v 1) (wordBE v 2) = wordBE (rotl128 v 25) 0 := by
  have hl : 512 * (v / 2 ^ 96 % 65536 % 128) + v / 2 ^ 80 % 65536 / 128
      = v / 2 ^ 87 % 65536 := by omega
  have h1 : v * 2 ^ 25 % 2 ^ 128 = 2 ^ 25 * (v % 2 ^ 103) := by omega
  have h2 : v / 2 ^ 103 < 2 ^ 25 := by omega
  clear hv
  rw [rotWord_eq _ _ (wordBE_lt _ _), rotl128_25]
  have ea : wordBE v 1 = v / 2 ^ 96 % 65536 := rfl
  have eb : wordBE v 2 = v / 2 ^ 80 % 65536 := rfl
  have ec : wordBE (v * 2 ^ 25 % 2 ^ 128 + v / 2 ^ 103) 0
      = (v * 2 ^ 25 % 2 ^ 128 + v / 2 ^ 103) / 2 ^ 112 % 65536 := rfl
  rw [ea, eb, ec, hl, h1]
  clear ea eb ec hl h1
  have h3 : ∀ m h : Nat, h < 2 ^ 25 → (2 ^ 25 * m + h) / 2 ^ 112 = m / 2 ^ 87 := by
    intro m h hh; omega
  have h4 : ∀ w : Nat, w % 2 ^ 103 / 2 ^ 87 % 65536 = w / 2 ^ 87 % 65536 := by
    intro w; omega
  rw [h3 _ _ h2, h4]

theorem rotl128_word_1 (v : Nat) (hv : v < 2 ^ 128) :
    rotWord (wordBE v 2) (wordBE v 3) = wordBE (rotl128 v 25) 1 := by
  have hl : 512 * (v / 2 ^ 80 % 65536 % 128) + v / 2 ^ 64 % 65536 / 128
      = v / 2 ^ 71 % 65536 := by omega
  have h1 : v * 2 ^ 25 % 2 ^ 128 = 2 ^ 25 * (v % 2 ^ 103) := by omega
  have h2 : v / 2 ^ 103 < 2 ^ 25 := by omega
  clear hv
  rw [rotWord_eq _ _ (wordBE_lt _ _), rotl128_25]
  have ea : wordBE v 2 = v / 2 ^ 80 % 65536 := rfl
  have eb : wordBE v 3 = v / 2 ^ 64 % 65536 := rfl
  have ec : wordBE (v * 2 ^ 25 % 2 ^ 128 + v / 2 ^ 103) 1
      = (v * 2 ^ 25 % 2 ^ 128 + v / 2 ^ 103) / 2 ^ 96 % 65536 := rfl
  rw [ea, eb, ec, hl, h1]
  clear ea eb ec hl h1
  have h3 : ∀ m h : Nat, h < 2 ^ 25 → (2 ^ 25 * m + h) / 2 ^ 96 = m / 2 ^ 71 := by
    intro m h hh; omega
  have h4 : ∀ w : Nat, w % 2 ^ 103 / 2 ^ 71 % 65536 = w / 2 ^ 71 % 65536 := by
    intro w; omega
  rw [h3 _ _ h2, h4]

theorem rotl128_word_2 (v : Nat) (hv : v < 2 ^ 128) :
    rotWord (wordBE v 3) (wordBE v 4) = wordBE (rotl128 v 25) 2 := by
  have hl : 512 * (v / 2 ^ 64 % 65536 % 128) + v / 2 ^ 48 % 65536 / 128
      = v / 2 ^ 55 % 65536 := by omega
  have h1 : v * 2 ^ 25 % 2 ^ 128 = 2 ^ 25 * (v % 2 ^ 103) := by omega
  have h2 : v / 2 ^ 103 < 2 ^ 25 := by omega
  clear hv
  rw [rotWord_eq _ _ (wordBE_lt _ _), rotl128_25]
  have ea : wordBE v 3 = v / 2 ^ 64 % 65536 := rfl
  have eb : wordBE v 4 = v / 2 ^ 48 % 65536 := rfl
  have ec : wordBE (v * 2 ^ 25 % 2 ^ 128 + v / 2 ^ 103) 2
      = (v * 2 ^ 25 % 2 ^ 128 + v / 2 ^ 103) / 2 ^ 80 % 65536 := rfl
  rw [ea, eb, ec, hl, h1]
  clear ea eb ec hl h1
  have h3 : ∀ m h : Nat, h < 2 ^ 25 → (2 ^ 25 * m + h) / 2 ^ 80 = m / 2 ^ 55 := by
    intro m h hh; omega
  have h4 : ∀ w : Nat, w % 2 ^ 103 / 2 ^ 55 % 65536 = w / 2 ^ 55 % 65536 := by
    intro w; omega
  rw [h3 _ _ h2, h4]

theorem rotl128_word_3 (v : Nat) (hv : v < 2 ^ 128) :
    rotWord (wordBE v 4) (wordBE v 5) = wordBE (rotl128 v 25) 3 := by
  have hl : 512 * (v / 2 ^ 48 % 65536 % 128) + v / 2 ^ 32 % 65536 / 128
      = v / 2 ^ 39 % 65536 := by omega
  have h1 : v * 2 ^ 25 % 2 ^ 128 = 2 ^ 25 * (v % 2 ^ 103) := by omega
  have h2 : v / 2 ^ 103 < 2 ^ 25 := by omega
  clear hv
  rw [rotWord_eq _ _ (wordBE_lt _ _), rotl128_25]
  have ea : wordBE v 4 = v / 2 ^ 48 % 65536 := rfl
  have eb : wordBE v 5 = v / 2 ^ 32 % 65536 := rfl
  have ec : wordBE (v * 2 ^ 25 % 2 ^ 128 + v / 2 ^ 103) 3
      = (v * 2 ^ 25 % 2 ^ 128 + v / 2 ^ 103) / 2 ^ 64 % 65536 := rfl
  rw [ea, eb, ec, hl, h1]
  clear ea eb ec hl h1
  have h3 : ∀ m h : Nat, h < 2 ^ 25 → (2 ^ 25 * m + h) / 2 ^ 64 = m / 2 ^ 39 := by
    intro m h hh; omega
  have h4 : ∀ w : Nat, w % 2 ^ 103 / 2 ^ 39 % 65536 = w / 2 ^ 39 % 65536 := by
    intro w; omega
  rw [h3 _ _ h2, h4]

theorem rotl128_word_4 (v : Nat) (hv : v < 2 ^ 128) :
    rotWord (wordBE v 5) (wordBE v 6) = wordBE (rotl128 v 25) 4 := by
  have hl : 512 * (v / 2 ^ 32 % 65536 % 128) + v / 2 ^ 16 % 65536 / 128
      = v / 2 ^ 23 % 65536 := by omega
  have h1 : v * 2 ^ 25 % 2 ^ 128 = 2 ^ 25 * (v % 2 ^ 103) := by omega
  have h2 : v / 2 ^ 103 < 2 ^ 25 := by omega
  clear hv
  rw [rotWord_eq _ _ (wordBE_lt _ _), rotl128_25]
  have ea : wordBE v 5 = v / 2 ^ 32 % 65536 := rfl
  have eb : wordBE v 6 = v / 2 ^ 16 % 65536 := rfl
  have ec : wordBE (v * 2 ^ 25 % 2 ^ 128 + v / 2 ^ 103) 4
      = (v * 2 ^ 25 % 2 ^ 128 + v / 2 ^ 103) / 2 ^ 48 % 65536 := rfl
  rw [ea, eb, ec, hl, h1]
  clear ea eb ec hl h1
  have h3 : ∀ m h : Nat, h < 2 ^ 25 → (2 ^ 25 * m + h) / 2 ^ 48 = m / 2 ^ 23 := by
    intro m h hh; omega
  have h4 : ∀ w : Nat, w % 2 ^ 103 / 2 ^ 23 % 65536 = w / 2 ^ 23 % 65536 := by
    intro w; omega
  rw [h3 _ _ h2, h4]

theorem rotl128_word_5 (v : Nat) (hv : v < 2 ^ 128) :
    rotWord (wordBE v 6) (wordBE v 7) = wordBE (rotl128 v 25) 5 := by
  have hl : 512 * (v / 2 ^ 16 % 65536 % 128) + v / 2 ^ 0 % 65536 / 128
      = v / 2 ^ 7 % 65536 := by omega
  have h1 : v * 2 ^ 25 % 2 ^ 128 = 2 ^ 25 * (v % 2 ^ 103) := by omega
  have h2 : v / 2 ^ 103 < 2 ^ 25 := by omega
  clear hv
  rw [rotWord_eq _ _ (wordBE_lt _ _), rotl128_25]
  have ea : wordBE v 6 = v / 2 ^ 16 % 65536 := rfl
  have eb : wordBE v 7 = v / 2 ^ 0 % 65536 := rfl
  have ec : wordBE (v * 2 ^ 25 % 2 ^ 128 + v / 2 ^ 103) 5
      = (v * 2 ^ 25 % 2 ^ 128 + v / 2 ^ 103) / 2 ^ 32 % 65536 := rfl
  rw [ea, eb, ec, hl, h1]
  clear ea eb ec hl h1
  have h3 : ∀ m h : Nat, h < 2 ^ 25 → (2 ^ 25 * m + h) / 2 ^ 32 = m / 2 ^ 7 := by
    intro m h hh; omega
  have h4 : ∀ w : Nat, w % 2 ^ 103 / 2 ^ 7 % 65536 = w / 2 ^ 7 % 65536 := by
    intro w; omega
  rw [h3 _ _ h2, h4]

theorem rotl128_word_6 (v : Nat) (hv : v < 2 ^ 128) :
    rotWord (wordBE v 7) (wordBE v 0) = wordBE (rotl128 v 25) 6 := by
  have hl : 512 * (v / 2 ^ 0 % 65536 % 128) + v / 2 ^ 112 % 65536 / 128
      = 512 * (v % 2 ^ 103 % 128) + v / 2 ^ 103 / 65536 := by omega
  have h1 : v * 2 ^ 25 % 2 ^ 128 = 2 ^ 25 * (v % 2 ^ 103) := by omega
  have h2 : v / 2 ^ 103 < 2 ^ 25 := by omega
  clear hv
  rw [rotWord_eq _ _ (wordBE_lt _ _), rotl128_25]
  have ea : wordBE v 7 = v / 2 ^ 0 % 65536 := rfl
  have eb : wordBE v 0 = v / 2 ^ 112 % 65536 := rfl
  have ec : wordBE (v * 2 ^ 25 % 2 ^ 128 + v / 2 ^ 103) 6
      = (v * 2 ^ 25 % 2 ^ 128 + v / 2 ^ 103) / 2 ^ 16 % 65536 := rfl
  rw [ea, eb, ec, hl, h1]
  clear ea eb ec hl h1
  have h3 : ∀ m h : Nat, h < 2 ^ 25 → (2 ^ 25 * m + h) / 2 ^ 16 % 65536
      = 512 * (m % 128) + h / 65536 := by
    intro m h hh; omega
  rw [h3 _ _ h2]

theorem rotl128_word_7 (v : Nat) (hv : v < 2 ^ 128) :
    rotWord (wordBE v 0) (wordBE v 1) = wordBE (rotl128 v 25) 7 := by
  have hl : 512 * (v / 2 ^ 112 % 65536 % 128) + v / 2 ^ 96 % 65536 / 128
      = v / 2 ^ 103 % 65536 := by omega
  have h1 : v * 2 ^ 25 % 2 ^ 128 = 2 ^ 25 * (v % 2 ^ 103) := by omega
  have h2 : v / 2 ^ 103 < 2 ^ 25 := by omega
  clear hv
  rw [rotWord_eq _ _ (wordBE_lt _ _), rotl128_25]
  have ea : wordBE v 0 = v / 2 ^ 112 % 65536 := rfl
  have eb : wordBE v 1 = v / 2 ^ 96 % 65536 := rfl
  have ec : wordBE (v * 2 ^ 25 % 2 ^ 128 + v / 2 ^ 103) 7
      = (v * 2 ^ 25 % 2 ^ 128 + v / 2 ^ 103) / 2 ^ 0 % 65536 := rfl
  rw [ea, eb, ec, hl, h1]
  clear ea eb ec hl h1
  have h3 : ∀ m h : Nat, h < 2 ^ 25 → (2 ^ 25 * m + h) / 2 ^ 0 % 65536 = h % 65536 := by
    intro m h hh; omega
  rw [h3 _ _ h2]

/-- One iteration of the second loop computes a word of the group rotated by 25 bits. -/
theorem rotl128_step (v : Nat) (hv : v < 2 ^ 128) (n : Nat) (hn : n < 8) :
    rotWord (wordBE v ((n + 1) % 8)) (wordBE v ((n + 2) % 8)) = wordBE (rotl128 v 25) n := by
  interval_cases n
  · exact rotl128_word_0 v hv
  · exact rotl128_word_1 v hv
  · exact rotl128_word_2 v hv
  · exact rotl128_word_3 v hv
  · exact rotl128_word_4 v hv
  · exact rotl128_word_5 v hv
  · exact rotl128_word_6 v hv
  · exact rotl128_word_7 v hv

theorem rotl128_lt (v r : Nat) (hv : v < 2 ^ 128) : rotl128 v r < 2 ^ 128 := by
  unfold rotl128
  have hr : r % 128 < 128 := Nat.mod_lt _ (by norm_num)
  generalize r % 128 = s at hr
  have h1 : v * 2 ^ s % 2 ^ 128 = 2 ^ s * (v % 2 ^ (128 - s)) := by
    have e : (2 : Nat) ^ 128 = 2 ^ s * 2 ^ (128 - s) := by
      rw [← pow_add]; congr 1; omega
    rw [e, Nat.mul_comm v, Nat.mul_mod_mul_left]
  have h2 : v / 2 ^ (128 - s) < 2 ^ s := by
    rw [Nat.div_lt_iff_lt_mul (by positivity), ← pow_add]
    have : s + (128 - s) = 128 := by omega
    rw [this]; exact hv
  have h3 : v % 2 ^ (128 - s) < 2 ^ (128 - s) := Nat.mod_lt _ (by positivity)
  rw [h1]
  calc 2 ^ s * (v % 2 ^ (128 - s)) + v / 2 ^ (128 - s)
      < 2 ^ s * (v % 2 ^ (128 - s)) + 2 ^ s := by omega
    _ = 2 ^ s * (v % 2 ^ (128 - s) + 1) := by ring
    _ ≤ 2 ^ s * 2 ^ (128 - s) := Nat.mul_le_mul_left _ h3
    _ = 2 ^ 128 := by rw [← pow_add]; congr 1; omega

theorem u16_shift_add (a b : Nat) (ha : a < 256) (hb : b < 256) :
    u16 (u16 (a <<< 8) + b) = 256 * a + b := by
  unfold u16
  rw [Nat.shiftLeft_eq]
  omega

theorem keyValue_cons16 (b0 b1 b2 b3 b4 b5 b6 b7 b8 b9 b10 b11 b12 b13 b14 b15 : Nat) :
    keyValue [b0, b1, b2, b3, b4, b5, b6, b7, b8, b9, b10, b11, b12, b13, b14, b15]
      = ((((((((((((((b0 * 256 + b1) * 256 + b2) * 256 + b3) * 256 + b4) * 256 + b5) * 256 + b6)
          * 256 + b7) * 256 + b8) * 256 + b9) * 256 + b10) * 256 + b11) * 256 + b12) * 256 + b13)
          * 256 + b14) * 256 + b15 := by
  simp [keyValue]

theorem keyWord_eq_wordBE_aux (b0 b1 b2 b3 b4 b5 b6 b7 b8 b9 b10 b11 b12 b13 b14 b15 : Nat)
    (h0 : b0 < 256) (h1 : b1 < 256) (h2 : b2 < 256) (h3 : b3 < 256) (h4 : b4 < 256) (h5 : b5 < 256) (h6 : b6 < 256) (h7 : b7 < 256) (h8 : b8 < 256) (h9 : b9 < 256) (h10 : b10 < 256) (h11 : b11 < 256) (h12 : b12 < 256) (h13 : b13 < 256) (h14 : b14 < 256) (h15 : b15 < 256)
    (m : Nat) (hm : m < 8) :
    keyWord [b0, b1, b2, b3, b4, b5, b6, b7, b8, b9, b10, b11, b12, b13, b14, b15] m
      = wordBE (keyValue [b0, b1, b2, b3, b4, b5, b6, b7, b8, b9, b10, b11, b12, b13, b14, b15]) m := by
  rw [keyValue_cons16]
  unfold keyWord wordBE
  interval_cases m
  all_goals simp only [at0, List.getD_cons_zero, List.getD_cons_succ]
  all_goals rw [u16_shift_add _ _ (by assumption) (by assumption)]
  all_goals norm_num
  all_goals omega

theorem keyValue_lt_aux (b0 b1 b2 b3 b4 b5 b6 b7 b8 b9 b10 b11 b12 b13 b14 b15 : Nat)
    (h0 : b0 < 256) (h1 : b1 < 256) (h2 : b2 < 256) (h3 : b3 < 256) (h4 : b4 < 256) (h5 : b5 < 256) (h6 : b6 < 256) (h7 : b7 < 256) (h8 : b8 < 256) (h9 : b9 < 256) (h10 : b10 < 256) (h11 : b11 < 256) (h12 : b12 < 256) (h13 : b13 < 256) (h14 : b14 < 256) (h15 : b15 < 256) :
    keyValue [b0, b1, b2, b3, b4, b5, b6, b7, b8, b9, b10, b11, b12, b13, b14, b15] < 2 ^ 128 := by
  rw [keyValue_cons16]
  omega

/-- A 16-byte key is the list of its 16 elements. -/
theorem key_eq_cons16 (key : List Nat) (hk : key.length = 16) :
    key = [at0 key 0, at0 key 1, at0 key 2, at0 key 3, at0 key 4, at0 key 5, at0 key 6,
      at0 key 7, at0 key 8, at0 key 9, at0 key 10, at0 key 11, at0 key 12, at0 key 13,
      at0 key 14, at0 key 15] := by
  have e := list_eq_map_range key
  rw [hk, range_16] at e
  simpa only [List.map] using e

theorem keyWord_eq_wordBE (key : List Nat) (hk : key.length = 16) (hb : ∀ b ∈ key, b < 256)
    (m : Nat) (hm : m < 8) : keyWord key m = wordBE (keyValue key) m := by
  have hbi : ∀ i, i < 16 → at0 key i < 256 := fun i hi =>
    at0_lt_of_forall key 256 hb i (by omega)
  have h := keyWord_eq_wordBE_aux (at0 key 0) (at0 key 1) (at0 key 2) (at0 key 3) (at0 key 4) (at0 key 5) (at0 key 6) (at0 key 7) (at0 key 8) (at0 key 9) (at0 key 10) (at0 key 11) (at0 key 12) (at0 key 13) (at0 key 14) (at0 key 15)
    (hbi 0 (by norm_num)) (hbi 1 (by norm_num)) (hbi 2 (by norm_num)) (hbi 3 (by norm_num)) (hbi 4 (by norm_num)) (hbi 5 (by norm_num)) (hbi 6 (by norm_num)) (hbi 7 (by norm_num)) (hbi 8 (by norm_num)) (hbi 9 (by norm_num)) (hbi 10 (by norm_num)) (hbi 11 (by norm_num)) (hbi 12 (by norm_num)) (hbi 13 (by norm_num)) (hbi 14 (by norm_num)) (hbi 15 (by norm_num)) m hm
  rwa [← key_eq_cons16 key hk] at h

theorem keyValue_lt (key : List Nat) (hk : key.length = 16) (hb : ∀ b ∈ key, b < 256) :
    keyValue key < 2 ^ 128 := by
  have hbi : ∀ i, i < 16 → at0 key i < 256 := fun i hi =>
    at0_lt_of_forall key 256 hb i (by omega)
  have h := keyValue_lt_aux (at0 key 0) (at0 key 1) (at0 key 2) (at0 key 3) (at0 key 4) (at0 key 5) (at0 key 6) (at0 key 7) (at0 key 8) (at0 key 9) (at0 key 10) (at0 key 11) (at0 key 12) (at0 key 13) (at0 key 14) (at0 key 15)
    (hbi 0 (by norm_num)) (hbi 1 (by norm_num)) (hbi 2 (by norm_num)) (hbi 3 (by norm_num)) (hbi 4 (by norm_num)) (hbi 5 (by norm_num)) (hbi 6 (by norm_num)) (hbi 7 (by norm_num)) (hbi 8 (by norm_num)) (hbi 9 (by norm_num)) (hbi 10 (by norm_num)) (hbi 11 (by norm_num)) (hbi 12 (by norm_num)) (hbi 13 (by norm_num)) (hbi 14 (by norm_num)) (hbi 15 (by norm_num))
  rwa [← key_eq_cons16 key hk] at h

theorem keyWord_eq_bytes (key : List Nat) (hk : key.length = 16) (hb : ∀ b ∈ key, b < 256)
    (m : Nat) (hm : m < 8) : keyWord key m = 256 * at0 key (2 * m) + at0 key (2 * m + 1) := by
  unfold keyWord
  exact u16_shift_add _ _ (at0_lt_of_forall key 256 hb _ (by omega))
    (at0_lt_of_forall key 256 hb _ (by omega))

/-- Repeated rotation by 25 bits is rotation by a multiple of 25 bits. -/
theorem rotl128_iterate (v : Nat) (hv : v < 2 ^ 128) :
    ∀ g, g ≤ 6 → (fun w => rotl128 w 25)^[g] v = rotl128 v (25 * g) := by
  intro g
  induction g with
  | zero => intro _; rw [Function.iterate_zero, id, Nat.mul_zero, rotl128_zero v hv]
  | succ g ih =>
    intro hg
    rw [Function.iterate_succ_apply', ih (by omega), rotl128_succ v hv g (by omega)]

/-- The words of a schedule built as `ideaExpandKey` builds it are the words of the
rotated key. -/
theorem expanded_word (key A : List Nat) (hk : key.length = 16) (hb : ∀ b ∈ key, b < 256)
    (h1 : ∀ m, m < 8 → at0 A m = keyWord key m)
    (h2 : ∀ m, 8 ≤ m → m < 52 → at0 A m = rotWord (at0 A (src1 m)) (at0 A (src2 m))) :
    ∀ g n, n < 8 → 8 * g + n < 52 →
      at0 A (8 * g + n) = wordBE (rotl128 (keyValue key) (25 * g)) n := by
  have hK := keyValue_lt key hk hb
  intro g
  induction g with
  | zero =>
    intro n hn _
    simp only [Nat.mul_zero, Nat.zero_add]
    rw [rotl128_zero _ hK, h1 n hn, keyWord_eq_wordBE key hk hb n hn]
  | succ g ih =>
    intro n hn hlt
    have e1 : src1 (8 * (g + 1) + n) = 8 * g + (n + 1) % 8 := by unfold src1; omega
    have e2 : src2 (8 * (g + 1) + n) = 8 * g + (n + 2) % 8 := by unfold src2; omega
    rw [h2 _ (by omega) hlt, e1, e2, ih _ (Nat.mod_lt _ (by norm_num)) (by omega),
      ih _ (Nat.mod_lt _ (by norm_num)) (by omega),
      rotl128_step _ (rotl128_lt _ _ hK) n hn, rotl128_succ _ hK g (by omega)]

/-- Every word of a schedule built as `ideaExpandKey` builds it is a 16-bit value. -/
theorem expanded_lt (key A : List Nat)
    (h1 : ∀ m, m < 8 → at0 A m = keyWord key m)
    (h2 : ∀ m, 8 ≤ m → m < 52 → at0 A m = rotWord (at0 A (src1 m)) (at0 A (src2 m))) :
    ∀ m, m < 52 → at0 A m < 65536 := by
  intro m
  induction m using Nat.strong_induction_on with
  | _ m ih =>
    intro hm
    by_cases h8 : m < 8
    · rw [h1 m h8]; exact keyWord_lt _ _
    · rw [h2 m (by omega) hm]
      apply rotWord_lt
      apply ih
      · unfold src2; omega
      · unfold src2; omega

/-! ## Key inversion -/

/-- All elements are 16-bit values. -/
theorem at0_lt_16 (l : List Nat) (h : ∀ w ∈ l, w < 65536) (i : Nat) : at0 l i < 65536 := by
  by_cases hi : i < l.length
  · exact at0_lt_of_forall l 65536 h i hi
  · rw [at0_of_le l i (by omega)]; norm_num

theorem putBack_eq (p : List Nat) (pidx v : Nat) (h0 : 0 < pidx) (h1 : pidx ≤ p.length) :
    putBack p pidx v = .ok (p.set (pidx - 1) v, pidx - 1) := by
  unfold putBack
  rw [if_neg (by omega), wr_eq p _ v (by omega)]
  rfl

theorem invertOuter_eq (EK p : List Nat) (pidx ekidx : Nat) (hw : ∀ w ∈ EK, w < 65536)
    (h0 : 4 ≤ pidx) (h1 : pidx ≤ p.length) (h2 : ekidx + 4 ≤ EK.length) :
    invertOuter EK p pidx ekidx = .ok (invertOuterFn EK (p, pidx, ekidx)) := by
  unfold invertOuter
  rw [rd_eq EK _ (by omega), ok_bind, mulInv_eq_ok _ (at0_lt_16 EK hw _), ok_bind,
    rd_eq EK _ (by omega), ok_bind, rd_eq EK _ (by omega), ok_bind,
    rd_eq EK _ (by omega), ok_bind, mulInv_eq_ok _ (at0_lt_16 EK hw _), ok_bind,
    putBack_eq p pidx _ (by omega) (by omega), ok_bind]
  dsimp only
  rw [putBack_eq _ (pidx - 1) _ (by omega) (by rw [List.length_set]; omega), ok_bind]
  dsimp only
  rw [putBack_eq _ (pidx - 1 - 1) _ (by omega) (by simp only [List.length_set]; omega), ok_bind]
  dsimp only
  rw [putBack_eq _ (pidx - 1 - 1 - 1) _ (by omega) (by simp only [List.length_set]; omega),
    ok_bind]
  rfl

theorem invertSwapped_eq (EK p : List Nat) (pidx ekidx : Nat) (hw : ∀ w ∈ EK, w < 65536)
    (h0 : 4 ≤ pidx) (h1 : pidx ≤ p.length) (h2 : ekidx + 4 ≤ EK.length) :
    invertSwapped EK p pidx ekidx = .ok (invertSwappedFn EK (p, pidx, ekidx)) := by
  unfold invertSwapped
  rw [rd_eq EK _ (by omega), ok_bind, mulInv_eq_ok _ (at0_lt_16 EK hw _), ok_bind,
    rd_eq EK _ (by omega), ok_bind, rd_eq EK _ (by omega), ok_bind,
    rd_eq EK _ (by omega), ok_bind, mulInv_eq_ok _ (at0_lt_16 EK hw _), ok_bind,
    putBack_eq p pidx _ (by omega) (by omega), ok_bind]
  dsimp only
  rw [putBack_eq _ (pidx - 1) _ (by omega) (by rw [List.length_set]; omega), ok_bind]
  dsimp only
  rw [putBack_eq _ (pidx - 1 - 1) _ (by omega) (by simp only [List.length_set]; omega), ok_bind]
  dsimp only
  rw [putBack_eq _ (pidx - 1 - 1 - 1) _ (by omega) (by simp only [List.length_set]; omega),
    ok_bind]
  rfl

theorem invertInner_eq (EK p : List Nat) (pidx ekidx : Nat)
    (h0 : 2 ≤ pidx) (h1 : pidx ≤ p.length) (h2 : ekidx + 2 ≤ EK.length) :
    invertInner EK p pidx ekidx = .ok (invertInnerFn EK (p, pidx, ekidx)) := by
  unfold invertInner
  rw [rd_eq EK _ (by omega), ok_bind, rd_eq EK _ (by omega), ok_bind,
    putBack_eq p pidx _ (by omega) (by omega), ok_bind]
  dsimp only
  rw [putBack_eq _ (pidx - 1) _ (by omega) (by rw [List.length_set]; omega), ok_bind]
  rfl

theorem invertOuter_eq3 (EK p : List Nat) (pidx ekidx : Nat) (hw : ∀ w ∈ EK, w < 65536)
    (h0 : 4 ≤ pidx) (h1 : pidx ≤ p.length) (h2 : ekidx + 4 ≤ EK.length) :
    invertOuter EK p pidx ekidx = .ok ((invertOuterFn EK (p, pidx, ekidx)).1,
      (invertOuterFn EK (p, pidx, ekidx)).2.1, (invertOuterFn EK (p, pidx, ekidx)).2.2) :=
  invertOuter_eq EK p pidx ekidx hw h0 h1 h2

theorem invertSwapped_eq3 (EK p : List Nat) (pidx ekidx : Nat) (hw : ∀ w ∈ EK, w < 65536)
    (h0 : 4 ≤ pidx) (h1 : pidx ≤ p.length) (h2 : ekidx + 4 ≤ EK.length) :
    invertSwapped EK p pidx ekidx = .ok ((invertSwappedFn EK (p, pidx, ekidx)).1,
      (invertSwappedFn EK (p, pidx, ekidx)).2.1, (invertSwappedFn EK (p, pidx, ekidx)).2.2) :=
  invertSwapped_eq EK p pidx ekidx hw h0 h1 h2

theorem invertInner_eq3 (EK p : List Nat) (pidx ekidx : Nat)
    (h0 : 2 ≤ pidx) (h1 : pidx ≤ p.length) (h2 : ekidx + 2 ≤ EK.length) :
    invertInner EK p pidx ekidx = .ok ((invertInnerFn EK (p, pidx, ekidx)).1,
      (invertInnerFn EK (p, pidx, ekidx)).2.1, (invertInnerFn EK (p, pidx, ekidx)).2.2) :=
  invertInner_eq EK p pidx ekidx h0 h1 h2

theorem invertOuterFn_facts (EK : List Nat) (s : List Nat × Nat × Nat) :
    (invertOuterFn EK s).1.length = s.1.length ∧ (invertOuterFn EK s).2.1 = s.2.1 - 4 ∧
      (invertOuterFn EK s).2.2 = s.2.2 + 4 := by
  refine ⟨by simp [invertOuterFn, putBackFn], ?_, rfl⟩
  simp only [invertOuterFn, putBackFn]
  omega

theorem invertSwappedFn_facts (EK : List Nat) (s : List Nat × Nat × Nat) :
    (invertSwappedFn EK s).1.length = s.1.length ∧ (invertSwappedFn EK s).2.1 = s.2.1 - 4 ∧
      (invertSwappedFn EK s).2.2 = s.2.2 + 4 := by
  refine ⟨by simp [invertSwappedFn, putBackFn], ?_, rfl⟩
  simp only [invertSwappedFn, putBackFn]
  omega

theorem invertInnerFn_facts (EK : List Nat) (s : List Nat × Nat × Nat) :
    (invertInnerFn EK s).1.length = s.1.length ∧ (invertInnerFn EK s).2.1 = s.2.1 - 2 ∧
      (invertInnerFn EK s).2.2 = s.2.2 + 2 := by
  refine ⟨by simp [invertInnerFn, putBackFn], ?_, rfl⟩
  simp only [invertInnerFn, putBackFn]
  omega

theorem invertLoopFn_facts (EK : List Nat) : ∀ (n : Nat) (s : List Nat × Nat × Nat),
    (invertLoopFn EK n s).1.length = s.1.length ∧ (invertLoopFn EK n s).2.1 = s.2.1 - 6 * n ∧
      (invertLoopFn EK n s).2.2 = s.2.2 + 6 * n := by
  intro n
  induction n with
  | zero => intro s; exact ⟨rfl, rfl, rfl⟩
  | succ n ih =>
    intro s
    have h1 := invertInnerFn_facts EK s
    have h2 := invertSwappedFn_facts EK (invertInnerFn EK s)
    have h3 := ih (invertSwappedFn EK (invertInnerFn EK s))
    simp only [invertLoopFn]
    refine ⟨by rw [h3.1, h2.1, h1.1], by rw [h3.2.1, h2.2.1, h1.2.1]; omega,
      by rw [h3.2.2, h2.2.2, h1.2.2]; omega⟩

theorem invertLoop_eq (EK : List Nat) (hw : ∀ w ∈ EK, w < 65536) :
    ∀ (n : Nat) (p : List Nat) (pidx ekidx : Nat),
    6 * n ≤ pidx → pidx ≤ p.length → ekidx + 6 * n ≤ EK.length →
    invertLoop n EK p pidx ekidx = .ok (invertLoopFn EK n (p, pidx, ekidx)) := by
  intro n
  induction n with
  | zero => intro p pidx ekidx _ _ _; rfl
  | succ n ih =>
    intro p pidx ekidx h0 h1 h2
    have f1 := invertInnerFn_facts EK (p, pidx, ekidx)
    have f2 := invertSwappedFn_facts EK (invertInnerFn EK (p, pidx, ekidx))
    simp only [invertLoop, invertLoopFn]
    rw [invertInner_eq3 EK p pidx ekidx (by omega) h1 (by omega), ok_bind]
    dsimp only
    rw [invertSwapped_eq3 EK _ _ _ hw (by rw [f1.2.1]; dsimp only; omega)
      (by rw [f1.2.1, f1.1]; dsimp only; omega) (by rw [f1.2.2]; dsimp only; omega), ok_bind]
    dsimp only
    exact ih _ _ _ (by rw [f2.2.1, f1.2.1]; dsimp only; omega)
      (by rw [f2.2.1, f2.1, f1.2.1, f1.1]; dsimp only; omega)
      (by rw [f2.2.2, f1.2.2]; dsimp only; omega)

theorem invertLoop_eq3 (EK : List Nat) (hw : ∀ w ∈ EK, w < 65536)
    (n : Nat) (p : List Nat) (pidx ekidx : Nat)
    (h0 : 6 * n ≤ pidx) (h1 : pidx ≤ p.length) (h2 : ekidx + 6 * n ≤ EK.length) :
    invertLoop n EK p pidx ekidx = .ok ((invertLoopFn EK n (p, pidx, ekidx)).1,
      (invertLoopFn EK n (p, pidx, ekidx)).2.1, (invertLoopFn EK n (p, pidx, ekidx)).2.2) :=
  invertLoop_eq EK hw n p pidx ekidx h0 h1 h2

/-- Without a fault `ideaInvertKey` copies the array computed by `invertFn` into `DK`. -/
theorem ideaInvertKey_eq_invertFn (EK DK : List Nat) (hw : ∀ w ∈ EK, w < 65536)
    (hl : 52 ≤ EK.length) : ideaInvertKey EK DK = .ok (copySlice DK (invertFn EK)) := by
  have f1 := invertOuterFn_facts EK (List.replicate IDEAKEYLEN 0, IDEAKEYLEN, 0)
  have f2 := invertLoopFn_facts EK (IDEAROUNDS - 1)
    (invertOuterFn EK (List.replicate IDEAKEYLEN 0, IDEAKEYLEN, 0))
  have f3 := invertInnerFn_facts EK (invertLoopFn EK (IDEAROUNDS - 1)
    (invertOuterFn EK (List.replicate IDEAKEYLEN 0, IDEAKEYLEN, 0)))
  rw [f1.1, f1.2.1, f1.2.2] at f2
  rw [f2.1, f2.2.1, f2.2.2] at f3
  simp only [IDEAKEYLEN, IDEAROUNDS, List.length_replicate] at f1 f2 f3
  unfold ideaInvertKey invertFn
  simp only [IDEAKEYLEN, IDEAROUNDS]
  rw [invertOuter_eq3 EK _ _ _ hw (by norm_num) (by simp) (by omega), ok_bind]
  dsimp only
  rw [invertLoop_eq3 EK hw _ _ _ _ (by rw [f1.2.1]; omega) (by rw [f1.2.1, f1.1]; omega)
    (by rw [f1.2.2]; omega), ok_bind]
  dsimp only
  rw [invertInner_eq3 EK _ _ _ (by rw [f2.2.1]; omega) (by rw [f2.2.1, f2.1]; omega)
    (by rw [f2.2.2]; omega), ok_bind]
  dsimp only
  rw [invertOuter_eq3 EK _ _ _ hw (by rw [f3.2.1]) (by rw [f3.2.1, f3.1]; omega)
    (by rw [f3.2.2]; omega), ok_bind]

set_option maxRecDepth 100000 in
theorem invertFn_eq (EK : List Nat) : invertFn EK = invertedKey EK := by
  unfold invertFn
  simp only [IDEAKEYLEN, IDEAROUNDS, Nat.reduceMul, Nat.reduceAdd, Nat.reduceSub]
  simp only [invertLoopFn]
  simp only [invertOuterFn, invertInnerFn, invertSwappedFn, putBackFn, Nat.reduceAdd, Nat.reduceSub]
  unfold invertedKey
  simp only [List.replicate_succ, List.replicate_zero, List.set_cons_succ, List.set_cons_zero]

/-! ## Block transform -/

theorem nextKey_drop (k : List Nat) (n : Nat) (h : n < k.length) :
    nextKey (k.drop n) = .ok (at0 k n, k.drop (n + 1)) := by
  unfold nextKey
  rw [rd_eq _ 0 (by rw [List.length_drop]; omega), ok_bind,
    sliceFrom_eq _ 1 (by rw [List.length_drop]; omega), ok_bind, at0_drop, List.drop_drop]
  rfl

theorem cipherRound_drop (k : List Nat) (n : Nat) (x : Words) (h : n + 6 ≤ k.length) :
    cipherRound x (k.drop n) = .ok (roundFn (at0 k n) (at0 k (n + 1)) (at0 k (n + 2))
      (at0 k (n + 3)) (at0 k (n + 4)) (at0 k (n + 5)) x, k.drop (n + 6)) := by
  obtain ⟨x1, x2, x3, x4⟩ := x
  unfold cipherRound
  dsimp only
  rw [nextKey_drop k n (by omega), ok_bind]
  dsimp only
  rw [nextKey_drop k (n + 1) (by omega), ok_bind]
  dsimp only
  rw [nextKey_drop k (n + 1 + 1) (by omega), ok_bind]
  dsimp only
  rw [nextKey_drop k (n + 1 + 1 + 1) (by omega), ok_bind]
  dsimp only
  rw [nextKey_drop k (n + 1 + 1 + 1 + 1) (by omega), ok_bind]
  dsimp only
  rw [nextKey_drop k (n + 1 + 1 + 1 + 1 + 1) (by omega), ok_bind]
  rfl

theorem cipherRounds_drop (k : List Nat) : ∀ (r s : Nat) (x : Words),
    6 * (s + r) ≤ k.length →
    cipherRounds r x (k.drop (6 * s)) = .ok (roundsFrom k s r x, k.drop (6 * (s + r))) := by
  intro r
  induction r with
  | zero => intro s x _; rfl
  | succ r ih =>
    intro s x h
    simp only [cipherRounds, roundsFrom]
    rw [cipherRound_drop k (6 * s) x (by omega), ok_bind]
    dsimp only
    have e : 6 * s + 6 = 6 * (s + 1) := by ring
    rw [e, ih (s + 1) _ (by omega)]
    have e2 : s + 1 + r = s + (r + 1) := by ring
    rw [e2]
    rfl

theorem cipherFinal_drop (k : List Nat) (x : Words) (h : 52 ≤ k.length) :
    cipherFinal x (k.drop 48) = .ok (finalFn k x, k.drop 51) := by
  obtain ⟨x1, x2, x3, x4⟩ := x
  unfold cipherFinal
  dsimp only
  rw [nextKey_drop k 48 (by omega), ok_bind]
  dsimp only
  rw [nextKey_drop k 49 (by omega), ok_bind]
  dsimp only
  rw [nextKey_drop k 50 (by omega), ok_bind]
  dsimp only
  rw [rd_eq _ 0 (by rw [List.length_drop]; omega), ok_bind, at0_drop]
  rfl

theorem beUint16_drop (b : List Nat) (i : Nat) (h : i + 2 ≤ b.length) :
    (sliceFrom b i >>= beUint16) = .ok (beWord b i) := by
  rw [sliceFrom_eq b i (by omega), ok_bind]
  unfold beUint16
  rw [rd_eq _ 1 (by rw [List.length_drop]; omega), ok_bind,
    rd_eq _ 0 (by rw [List.length_drop]; omega), ok_bind, at0_drop, at0_drop]
  rfl

theorem loadWords_eq (inbuf : List Nat) (h : 8 ≤ inbuf.length) :
    loadWords inbuf = .ok (blockWords inbuf) := by
  unfold loadWords
  rw [beUint16_drop inbuf 0 (by omega), ok_bind, beUint16_drop inbuf 2 (by omega), ok_bind,
    beUint16_drop inbuf 4 (by omega), ok_bind, beUint16_drop inbuf 6 (by omega), ok_bind]
  rfl

theorem cipherWords_eq (inbuf k : List Nat) (hi : 8 ≤ inbuf.length) (hk : 52 ≤ k.length) :
    cipherWords inbuf k
      = .ok (finalFn k (roundsFrom k 0 IDEAROUNDS (blockWords inbuf)), k.drop 51) := by
  unfold cipherWords
  rw [loadWords_eq inbuf hi, ok_bind]
  have h := cipherRounds_drop k IDEAROUNDS 0 (blockWords inbuf) (by simp [IDEAROUNDS]; omega)
  rw [Nat.mul_zero, List.drop_zero] at h
  rw [h, ok_bind]
  exact cipherFinal_drop k _ hk

theorem putUint16_eq (buf : List Nat) (k v : Nat) (h : k + 2 ≤ buf.length) :
    putUint16 buf k v = .ok ((buf.set k ((v >>> 8) % 256)).set (k + 1) (v % 256)) := by
  unfold putUint16
  rw [sliceFrom_eq buf k (by omega), ok_bind, rd_eq buf _ (by omega), ok_bind,
    wr_eq buf k _ (by omega), ok_bind, wr_eq _ _ _ (by rw [List.length_set]; omega)]

theorem storeWords_eq (outbuf : List Nat) (x : Words) (h : 8 ≤ outbuf.length) :
    storeWords outbuf x = .done (wordsBytes (swapMid x) ++ outbuf.drop 8) := by
  unfold storeWords
  rw [putUint16_eq outbuf 0 _ (by omega)]
  dsimp only
  rw [putUint16_eq _ 2 _ (by simp only [List.length_set]; omega)]
  dsimp only
  rw [putUint16_eq _ 4 _ (by simp only [List.length_set]; omega)]
  dsimp only
  rw [putUint16_eq _ 6 _ (by simp only [List.length_set]; omega)]
  dsimp only
  congr 1
  match outbuf, h with
  | o0 :: o1 :: o2 :: o3 :: o4 :: o5 :: o6 :: o7 :: rest, _ =>
    simp only [List.set_cons_succ, List.set_cons_zero, wordsBytes, swapMid, List.drop_succ_cons,
      List.drop_zero, List.cons_append, List.nil_append]

/-- The procedure `ideaCipher` as a function: with a block of at least 8 bytes, a
destination of at least 8 bytes and a schedule of at least 52 words it returns without a
fault and stores the eight bytes of `cipherFn` into the first eight destination bytes. -/
theorem ideaCipher_eq (inbuf outbuf k : List Nat) (hi : 8 ≤ inbuf.length)
    (ho : 8 ≤ outbuf.length) (hk : 52 ≤ k.length) :
    ideaCipher inbuf outbuf k = .done (cipherFn k inbuf ++ outbuf.drop 8) := by
  unfold ideaCipher
  rw [cipherWords_eq inbuf k hi hk]
  dsimp only
  rw [storeWords_eq outbuf _ ho]
  rfl

/-! ## Decryption undoes encryption -/

theorem keyMix_W16 (k0 k1 k2 k3 : Nat) (x : Words) : W16 (keyMix k0 k1 k2 k3 x) :=
  ⟨mul_lt _ _, u16_lt _, u16_lt _, mul_lt _ _⟩

theorem xor_lt_16 (a b : Nat) (ha : a < 65536) (hb : b < 65536) : a ^^^ b < 65536 :=
  @Nat.xor_lt_two_pow a b 16 ha hb

theorem mixMA_W16 (k4 k5 : Nat) (x : Words) (hx : W16 x) : W16 (mixMA k4 k5 x) := by
  obtain ⟨h1, h2, h3, h4⟩ := hx
  exact ⟨xor_lt_16 _ _ h1 (mul_lt _ _), xor_lt_16 _ _ h2 (u16_lt _),
    xor_lt_16 _ _ h3 (mul_lt _ _), xor_lt_16 _ _ h4 (u16_lt _)⟩

theorem swapMid_W16 (x : Words) (hx : W16 x) : W16 (swapMid x) :=
  ⟨hx.1, hx.2.2.1, hx.2.1, hx.2.2.2⟩

theorem swapMid_swapMid (x : Words) : swapMid (swapMid x) = x := rfl

theorem keyMix_swapMid (k0 k1 k2 k3 : Nat) (x : Words) :
    keyMix k0 k1 k2 k3 (swapMid x) = swapMid (keyMix k0 k2 k1 k3 x) := rfl

theorem roundFn_eq (k0 k1 k2 k3 k4 k5 : Nat) (x : Words) :
    roundFn k0 k1 k2 k3 k4 k5 x = swapMid (mixMA k4 k5 (keyMix k0 k1 k2 k3 x)) := by
  simp only [roundFn, swapMid, mixMA, keyMix]
  rw [Nat.xor_comm (mul _ k5) (u16 (x.2.2.1 + k2)), Nat.xor_comm (u16 (_ + _)) (u16 (x.2.1 + k1))]

theorem roundFn_W16 (k0 k1 k2 k3 k4 k5 : Nat) (x : Words) : W16 (roundFn k0 k1 k2 k3 k4 k5 x) := by
  rw [roundFn_eq]
  exact swapMid_W16 _ (mixMA_W16 _ _ _ (keyMix_W16 _ _ _ _ _))

theorem add_neg16 (a k : Nat) (ha : a < 65536) (hk : k < 65536) :
    u16 (u16 (a + k) + neg16 k) = a := by
  unfold u16 neg16; omega

theorem keyMix_inv (k0 k1 k2 k3 : Nat) (x : Words) (hx : W16 x) (h0 : k0 < 65536)
    (h1 : k1 < 65536) (h2 : k2 < 65536) (h3 : k3 < 65536) :
    keyMix (invOf k0) (neg16 k1) (neg16 k2) (invOf k3) (keyMix k0 k1 k2 k3 x) = x := by
  obtain ⟨x1, x2, x3, x4⟩ := x
  obtain ⟨w1, w2, w3, w4⟩ := hx
  simp only [keyMix]
  rw [mul_mul_invOf _ _ w1 h0, mul_mul_invOf _ _ w4 h3, add_neg16 _ _ w2 h1, add_neg16 _ _ w3 h2]

theorem xor_xor_cancel (a b u : Nat) : (a ^^^ u) ^^^ (b ^^^ u) = a ^^^ b := by
  rw [Nat.xor_assoc, Nat.xor_comm b u, ← Nat.xor_assoc u u b, Nat.xor_self, Nat.zero_xor]

theorem mixMA_mixMA (k4 k5 : Nat) (x : Words) : mixMA k4 k5 (mixMA k4 k5 x) = x := by
  obtain ⟨a, b, c, d⟩ := x
  simp only [mixMA]
  rw [xor_xor_cancel, xor_xor_cancel, Nat.xor_cancel_right, Nat.xor_cancel_right,
    Nat.xor_cancel_right, Nat.xor_cancel_right]

/-- A decryption round undoes the key mixing that follows an encryption round and the
middle stage of that round. -/
theorem round_peel (a b c d k4 k5 k0 k1 k2 k3 : Nat) (z : Words) (h0 : k0 < 65536)
    (h1 : k1 < 65536) (h2 : k2 < 65536) (h3 : k3 < 65536) :
    roundFn (invOf k0) (neg16 k2) (neg16 k1) (invOf k3) k4 k5
        (swapMid (keyMix k0 k1 k2 k3 (roundFn a b c d k4 k5 z)))
      = swapMid (keyMix a b c d z) := by
  rw [roundFn_eq, keyMix_swapMid,
    keyMix_inv k0 k1 k2 k3 _ (roundFn_W16 _ _ _ _ _ _ _) h0 h1 h2 h3, roundFn_eq,
    swapMid_swapMid, mixMA_mixMA]

/-- The first decryption round undoes the output transformation and the middle stage of the
last encryption round. -/
theorem round_peel_first (a b c d k4 k5 k0 k1 k2 k3 : Nat) (z : Words) (h0 : k0 < 65536)
    (h1 : k1 < 65536) (h2 : k2 < 65536) (h3 : k3 < 65536) :
    roundFn (invOf k0) (neg16 k1) (neg16 k2) (invOf k3) k4 k5
        (keyMix k0 k1 k2 k3 (swapMid (roundFn a b c d k4 k5 z)))
      = swapMid (keyMix a b c d z) := by
  rw [roundFn_eq, keyMix_inv k0 k1 k2 k3 _ (swapMid_W16 _ (roundFn_W16 _ _ _ _ _ _ _)) h0 h1 h2 h3,
    roundFn_eq, swapMid_swapMid, mixMA_mixMA]

theorem roundsFrom_succ (k : List Nat) : ∀ (n s : Nat) (x : Words),
    roundsFrom k s (n + 1) x = roundAt k (s + n) (roundsFrom k s n x) := by
  intro n
  induction n with
  | zero => intro s x; rfl
  | succ n ih =>
    intro s x
    have e : s + (n + 1) = s + 1 + n := by ring
    rw [roundsFrom, ih (s + 1), e]
    rfl

theorem blockFn_eq (k : List Nat) (x : Words) :
    blockFn k x = keyMix (at0 k 48) (at0 k 49) (at0 k 50) (at0 k 51)
      (swapMid (roundsFrom k 0 IDEAROUNDS x)) := rfl

theorem dec_first (ek : List Nat) (hek : ∀ i, at0 ek i < 65536) (z : Words) :
    roundAt (invertedKey ek) 0
        (keyMix (at0 ek 48) (at0 ek 49) (at0 ek 50) (at0 ek 51) (swapMid (roundAt ek 7 z)))
      = swapMid (keyMix (at0 ek 42) (at0 ek 43) (at0 ek 44) (at0 ek 45) z) :=
  round_peel_first _ _ _ _ _ _ _ _ _ _ z (hek 48) (hek 49) (hek 50) (hek 51)

theorem dec_step (ek : List Nat) (hek : ∀ i, at0 ek i < 65536) (m : Nat) (hm : m < 7)
    (z : Words) :
    roundAt (invertedKey ek) (7 - m)
        (swapMid (keyMix (at0 ek (6 * (m + 1))) (at0 ek (6 * (m + 1) + 1))
          (at0 ek (6 * (m + 1) + 2)) (at0 ek (6 * (m + 1) + 3)) (roundAt ek m z)))
      = swapMid (keyMix (at0 ek (6 * m)) (at0 ek (6 * m + 1)) (at0 ek (6 * m + 2))
          (at0 ek (6 * m + 3)) z) := by
  interval_cases m
  all_goals exact round_peel _ _ _ _ _ _ _ _ _ _ z (hek _) (hek _) (hek _) (hek _)

theorem dec_last (ek : List Nat) (hek : ∀ i, at0 ek i < 65536) (x : Words) (hx : W16 x) :
    keyMix (at0 (invertedKey ek) 48) (at0 (invertedKey ek) 49) (at0 (invertedKey ek) 50)
        (at0 (invertedKey ek) 51)
        (swapMid (swapMid (keyMix (at0 ek 0) (at0 ek 1) (at0 ek 2) (at0 ek 3) x)))
      = x :=
  keyMix_inv _ _ _ _ x hx (hek 0) (hek 1) (hek 2) (hek 3)

theorem dec_rounds (ek : List Nat) (hek : ∀ i, at0 ek i < 65536) (x : Words) :
    ∀ n, n ≤ 7 → roundsFrom (invertedKey ek) 0 (n + 1) (blockFn ek x)
      = swapMid (keyMix (at0 ek (6 * (7 - n))) (at0 ek (6 * (7 - n) + 1))
          (at0 ek (6 * (7 - n) + 2)) (at0 ek (6 * (7 - n) + 3)) (roundsFrom ek 0 (7 - n) x)) := by
  intro n
  induction n with
  | zero =>
    intro _
    rw [roundsFrom_succ, blockFn_eq]
    have e : roundsFrom ek 0 IDEAROUNDS x = roundAt ek 7 (roundsFrom ek 0 7 x) :=
      roundsFrom_succ ek 7 0 x
    rw [e]
    exact dec_first ek hek _
  | succ n ih =>
    intro hn
    rw [roundsFrom_succ, ih (by omega)]
    obtain ⟨m, hm⟩ : ∃ m, 7 - n = m + 1 := ⟨6 - n, by omega⟩
    have e1 : 7 - (n + 1) = m := by omega
    have e2 : 0 + (n + 1) = 7 - m := by omega
    rw [hm, e1, e2, roundsFrom_succ, Nat.zero_add]
    exact dec_step ek hek m (by omega) _

/-- The block transform with the inverted schedule undoes the block transform. -/
theorem blockFn_invertedKey (ek : List Nat) (hek : ∀ w ∈ ek, w < 65536) (x : Words)
    (hx : W16 x) : blockFn (invertedKey ek) (blockFn ek x) = x := by
  have h := at0_lt_16 ek hek
  rw [blockFn_eq (invertedKey ek)]
  have e := dec_rounds ek h x 7 (le_refl 7)
  simp only [Nat.sub_self, Nat.mul_zero, Nat.zero_add] at e
  have e8 : roundsFrom (invertedKey ek) 0 IDEAROUNDS (blockFn ek x)
      = swapMid (keyMix (at0 ek 0) (at0 ek 1) (at0 ek 2) (at0 ek 3) x) := e
  rw [e8]
  exact dec_last ek h x hx

/-! ## The entry points as functions -/

theorem mem_lt_of_at0 (l : List Nat) (c : Nat) (h : ∀ m, m < l.length → at0 l m < c) :
    ∀ w ∈ l, w < c := by
  intro w hw
  obtain ⟨i, hi, rfl⟩ := List.getElem_of_mem hw
  rw [← at0_eq_getElem l i hi]
  exact h i hi

theorem at0_lt_256 (l : List Nat) (h : ∀ b ∈ l, b < 256) (i : Nat) : at0 l i < 256 := by
  by_cases hi : i < l.length
  · exact at0_lt_of_forall l 256 h i hi
  · rw [at0_of_le l i (by omega)]; norm_num

theorem makeWords_length (n : Nat) : (makeWords n).length = n := by
  simp [makeWords]

/-- The expansion of a key of at least 16 bytes into a fresh schedule succeeds and yields
52 words of 16 bits. -/
theorem scheduleOf_facts (key : List Nat) (hk : 16 ≤ key.length) :
    ideaExpandKey key (makeWords IDEAKEYLEN) = .ok (scheduleOf key) ∧
      (scheduleOf key).length = 52 ∧ ∀ w ∈ scheduleOf key, w < 65536 := by
  have hl : (makeWords IDEAKEYLEN).length = 52 := makeWords_length _
  obtain ⟨A, hA, hlen, h1, h2, _⟩ := ideaExpandKey_spec key (makeWords IDEAKEYLEN) hk (by omega)
  have e : scheduleOf key = A := by simp [scheduleOf, hA]
  rw [e]
  refine ⟨hA, by rw [hlen, hl], ?_⟩
  apply mem_lt_of_at0
  intro m hm
  exact expanded_lt key A h1 h2 m (by omega)

theorem drop_eq_nil_of_length (l : List Nat) (n : Nat) (h : l.length = n) : l.drop n = [] := by
  rw [← h]; exact List.drop_length l

theorem invertedKey_length (ek : List Nat) : (invertedKey ek).length = 52 := rfl

theorem copySlice_invertedKey (ek : List Nat) :
    copySlice (makeWords IDEAKEYLEN) (invertedKey ek) = invertedKey ek := rfl

/-- The inversion of a schedule of 52 words of 16 bits into a fresh schedule succeeds and
yields `invertedKey`. -/
theorem ideaInvertKey_eq (ek : List Nat) (hl : ek.length = 52) (hw : ∀ w ∈ ek, w < 65536) :
    ideaInvertKey ek (makeWords IDEAKEYLEN) = .ok (invertedKey ek) := by
  rw [ideaInvertKey_eq_invertFn ek _ hw (by omega), invertFn_eq, copySlice_invertedKey]

theorem IdeaEncrypt_eq (dst src key : List Nat) (hk : 16 ≤ key.length) (hs : 8 ≤ src.length)
    (hd : 8 ≤ dst.length) :
    IdeaEncrypt dst src key = .done (cipherFn (scheduleOf key) src ++ dst.drop 8) := by
  obtain ⟨h1, h2, _⟩ := scheduleOf_facts key hk
  unfold IdeaEncrypt
  rw [h1]
  exact ideaCipher_eq src dst _ hs hd (by omega)

theorem IdeaDecrypt_eq (dst src key : List Nat) (hk : 16 ≤ key.length) (hs : 8 ≤ src.length)
    (hd : 8 ≤ dst.length) :
    IdeaDecrypt dst src key
      = .done (cipherFn (invertedKey (scheduleOf key)) src ++ dst.drop 8) := by
  obtain ⟨h1, h2, h3⟩ := scheduleOf_facts key hk
  unfold IdeaDecrypt
  rw [h1]
  dsimp only
  rw [ideaInvertKey_eq _ h2 h3]
  exact ideaCipher_eq src dst _ hs hd (by rw [invertedKey_length])

/-! ## Bytes and words -/

theorem be_join (w : Nat) (hw : w < 65536) :
    (w % 256) ||| u16 (((w >>> 8) % 256) <<< 8) = w := by
  unfold u16
  rw [Nat.shiftLeft_eq, Nat.shiftRight_eq_div_pow, Nat.lor_comm]
  have e : w / 2 ^ 8 % 256 * 2 ^ 8 % 65536 = 2 ^ 8 * (w / 2 ^ 8 % 256) := by omega
  rw [e, ← Nat.mul_add_lt_is_or (by omega)]
  omega

theorem be_split (a b : Nat) (ha : a < 256) (hb : b < 256) :
    b ||| u16 (a <<< 8) = 256 * a + b := by
  unfold u16
  rw [Nat.shiftLeft_eq, Nat.lor_comm]
  have e : a * 2 ^ 8 % 65536 = 2 ^ 8 * a := by omega
  rw [e, ← Nat.mul_add_lt_is_or (by omega)]

theorem blockWords_wordsBytes (w : Words) (hw : W16 w) : blockWords (wordsBytes w) = w := by
  obtain ⟨w1, w2, w3, w4⟩ := w
  obtain ⟨h1, h2, h3, h4⟩ := hw
  simp only [blockWords, beWord, wordsBytes, at0, List.getD_cons_zero, List.getD_cons_succ]
  rw [be_join w1 h1, be_join w2 h2, be_join w3 h3, be_join w4 h4]

theorem wordsBytes_length (w : Words) : (wordsBytes w).length = 8 := rfl

theorem blockWords_W16 (b : List Nat) (hb : ∀ x ∈ b, x < 256) : W16 (blockWords b) := by
  have h := at0_lt_256 b hb
  simp only [W16, blockWords, beWord]
  refine ⟨?_, ?_, ?_, ?_⟩ <;>
  · rw [be_split _ _ (h _) (h _)]
    have := h
    have h1 := h 0
    have h2 := h (0 + 1)
    have h3 := h 2
    have h4 := h (2 + 1)
    have h5 := h 4
    have h6 := h (4 + 1)
    have h7 := h 6
    have h8 := h (6 + 1)
    omega

theorem bytes_of_join (a b : Nat) (ha : a < 256) (hb : b < 256) :
    ((b ||| u16 (a <<< 8)) >>> 8) % 256 = a ∧ (b ||| u16 (a <<< 8)) % 256 = b := by
  rw [be_split a b ha hb, Nat.shiftRight_eq_div_pow]
  omega

theorem wordsBytes_blockWords (b : List Nat) (hl : b.length = 8) (hb : ∀ x ∈ b, x < 256) :
    wordsBytes (blockWords b) = b := by
  match b, hl, hb with
  | [b0, b1, b2, b3, b4, b5, b6, b7], _, hb =>
    have h0 : b0 < 256 := hb _ (by simp)
    have h1 : b1 < 256 := hb _ (by simp)
    have h2 : b2 < 256 := hb _ (by simp)
    have h3 : b3 < 256 := hb _ (by simp)
    have h4 : b4 < 256 := hb _ (by simp)
    have h5 : b5 < 256 := hb _ (by simp)
    have h6 : b6 < 256 := hb _ (by simp)
    have h7 : b7 < 256 := hb _ (by simp)
    simp only [blockWords, beWord, wordsBytes, at0, List.getD_cons_zero, List.getD_cons_succ]
    rw [(bytes_of_join b0 b1 h0 h1).1, (bytes_of_join b0 b1 h0 h1).2,
      (bytes_of_join b2 b3 h2 h3).1, (bytes_of_join b2 b3 h2 h3).2,
      (bytes_of_join b4 b5 h4 h5).1, (bytes_of_join b4 b5 h4 h5).2,
      (bytes_of_join b6 b7 h6 h7).1, (bytes_of_join b6 b7 h6 h7).2]

theorem blockFn_W16 (k : List Nat) (x : Words) : W16 (blockFn k x) := by
  rw [blockFn_eq]
  exact keyMix_W16 _ _ _ _ _

theorem cipherFn_length (k b : List Nat) : (cipherFn k b).length = 8 := rfl

/-- At the level of blocks: the block transform with the inverted schedule undoes the block
transform. -/
theorem cipherFn_invertedKey (ek b : List Nat) (hek : ∀ w ∈ ek, w < 65536)
    (hl : b.length = 8) (hb : ∀ x ∈ b, x < 256) :
    cipherFn (invertedKey ek) (cipherFn ek b) = b := by
  unfold cipherFn
  rw [blockWords_wordsBytes _ (blockFn_W16 _ _),
    blockFn_invertedKey ek hek _ (blockWords_W16 b hb), wordsBytes_blockWords b hl hb]

/-! ## Known-answer vectors -/

theorem kat_encrypt_1 : cipherFn (scheduleOf [0, 1, 2, 3, 4, 5, 6, 7, 8, 9, 10, 11, 12, 13, 14, 15])
    [0, 17, 34, 51, 68, 85, 102, 119] = [245, 38, 171, 154, 98, 192, 210, 88] := by
  decide!

theorem kat_decrypt_1 : cipherFn (invertedKey (scheduleOf [0, 1, 2, 3, 4, 5, 6, 7, 8, 9, 10, 11, 12, 13, 14, 15]))
    [245, 38, 171, 154, 98, 192, 210, 88] = [0, 17, 34, 51, 68, 85, 102, 119] := by
  decide!

theorem kat_encrypt_2 : cipherFn (scheduleOf [43, 214, 69, 159, 130, 197, 179, 0, 149, 44, 73, 16, 72, 129, 255, 72])
    [234, 2, 71, 20, 173, 92, 77, 132] = [200, 251, 81, 211, 81, 102, 39, 168] := by
  decide!

theorem kat_decrypt_2 : cipherFn (invertedKey (scheduleOf [43, 214, 69, 159, 130, 197, 179, 0, 149, 44, 73, 16, 72, 129, 255, 72]))
    [200, 251, 81, 211, 81, 102, 39, 168] = [234, 2, 71, 20, 173, 92, 77, 132] := by
  decide!

theorem kat_encrypt_3 : cipherFn (scheduleOf [0, 1, 2, 3, 4, 5, 6, 7, 8, 9, 10, 11, 12, 13, 14, 15])
    [219, 45, 74, 146, 170, 104, 39, 63] = [0, 17, 34, 51, 68, 85, 102, 119] := by
  decide!

theorem kat_decrypt_3 : cipherFn (invertedKey (scheduleOf [0, 1, 2, 3, 4, 5, 6, 7, 8, 9, 10, 11, 12, 13, 14, 15]))
    [0, 17, 34, 51, 68, 85, 102, 119] = [219, 45, 74, 146, 170, 104, 39, 63] := by
  decide!

theorem kat_encrypt_4 : cipherFn (scheduleOf [43, 214, 69, 159, 130, 197, 179, 0, 149, 44, 73, 16, 72, 129, 255, 72])
    [241, 41, 166, 96, 30, 246, 42, 71] = [234, 2, 71, 20, 173, 92, 77, 132] := by
  decide!

theorem kat_decrypt_4 : cipherFn (invertedKey (scheduleOf [43, 214, 69, 159, 130, 197, 179, 0, 149, 44, 73, 16, 72, 129, 255, 72]))
    [234, 2, 71, 20, 173, 92, 77, 132] = [241, 41, 166, 96, 30, 246, 42, 71] := by
  decide!

/-! ## Faults on short inputs -/

theorem expandLoad_short : ∀ (n j : Nat) (userKey EK : List Nat),
    userKey.length < 2 * n → j + n ≤ EK.length →
    expandLoad n j userKey EK = .error .indexOutOfRange := by
  intro n
  induction n with
  | zero => intro j userKey EK h _; omega
  | succ n ih =>
    intro j userKey EK h he
    simp only [expandLoad]
    by_cases h0 : userKey.length < 1
    · rw [rd_fault userKey 0 (by omega)]; rfl
    · rw [rd_eq userKey 0 (by omega), ok_bind]
      by_cases h1 : userKey.length < 2
      · rw [rd_fault userKey 1 (by omega)]; rfl
      · rw [rd_eq userKey 1 (by omega), ok_bind, wr_eq EK j _ (by omega), ok_bind,
          sliceFrom_eq userKey 2 (by omega), ok_bind]
        exact ih _ _ _ (by rw [List.length_drop]; omega) (by rw [List.length_set]; omega)

theorem ideaExpandKey_short (key : List Nat) (hk : key.length < 16) :
    ideaExpandKey key (makeWords IDEAKEYLEN) = .error .indexOutOfRange := by
  unfold ideaExpandKey
  rw [expandLoad_short 8 0 key _ (by omega) (by rw [makeWords_length]; decide)]
  rfl

theorem loadWords_short (inbuf : List Nat) (h : inbuf.length < 8) :
    loadWords inbuf = .error .indexOutOfRange := by
  have hb : ∀ i, inbuf.length < i + 2 → i ≤ inbuf.length →
      (sliceFrom inbuf i >>= beUint16) = .error .indexOutOfRange := by
    intro i h1 h2
    rw [sliceFrom_eq inbuf i h2, ok_bind]
    unfold beUint16
    rw [rd_fault _ 1 (by rw [List.length_drop]; omega)]
    rfl
  unfold loadWords
  by_cases h2 : inbuf.length < 2
  · rw [hb 0 (by omega) (by omega)]; rfl
  rw [beUint16_drop inbuf 0 (by omega), ok_bind]
  by_cases h4 : inbuf.length < 4
  · rw [hb 2 (by omega) (by omega)]; rfl
  rw [beUint16_drop inbuf 2 (by omega), ok_bind]
  by_cases h6 : inbuf.length < 6
  · rw [hb 4 (by omega) (by omega)]; rfl
  rw [beUint16_drop inbuf 4 (by omega), ok_bind, hb 6 (by omega) (by omega)]
  rfl

theorem ideaCipher_short (inbuf outbuf k : List Nat) (h : inbuf.length < 8) :
    ideaCipher inbuf outbuf k = .panic .indexOutOfRange outbuf := by
  unfold ideaCipher cipherWords
  rw [loadWords_short inbuf h]
  rfl

/-! ## The claims -/

theorem getElem?_of_at0 (l : List Nat) (n : Nat) (h : n < l.length) : l[n]? = some (at0 l n) := by
  rw [at0_eq_getElem l n h, List.getElem?_eq_getElem h]

/-- C1: round trip. For every 16-byte key and every 8-byte block, `IdeaEncrypt` returns
without a fault and stores a block `c` into the 8-byte destination, and `IdeaDecrypt` with
the same key on `c` returns without a fault and stores exactly the original block. -/
theorem encrypt_decrypt_roundtrip (key src dst dst2 : List Nat) (hk : key.length = 16)
    (hs : src.length = 8) (hb : ∀ b ∈ src, b < 256) (hd : dst.length = 8)
    (hd2 : dst2.length = 8) :
    ∃ c, IdeaEncrypt dst src key = .done c ∧ IdeaDecrypt dst2 c key = .done src := by
  obtain ⟨_, _, h3⟩ := scheduleOf_facts key (by omega)
  refine ⟨cipherFn (scheduleOf key) src, ?_, ?_⟩
  · rw [IdeaEncrypt_eq dst src key (by omega) (by omega) (by omega),
      drop_eq_nil_of_length dst 8 hd, List.append_nil]
  · rw [IdeaDecrypt_eq dst2 _ key (by omega) (by rw [cipherFn_length]) (by omega),
      drop_eq_nil_of_length dst2 8 hd2, List.append_nil,
      cipherFn_invertedKey _ src h3 hs hb]

theorem encrypt_decrypt_roundtrip_witness :
    ([0, 1, 2, 3, 4, 5, 6, 7, 8, 9, 10, 11, 12, 13, 14, 15] : List Nat).length = 16 ∧
    ([0, 17, 34, 51, 68, 85, 102, 119] : List Nat).length = 8 ∧
    (∀ b ∈ ([0, 17, 34, 51, 68, 85, 102, 119] : List Nat), b < 256) ∧
    ([0, 0, 0, 0, 0, 0, 0, 0] : List Nat).length = 8 ∧
    ∃ c, IdeaEncrypt [0, 0, 0, 0, 0, 0, 0, 0] [0, 17, 34, 51, 68, 85, 102, 119]
        [0, 1, 2, 3, 4, 5, 6, 7, 8, 9, 10, 11, 12, 13, 14, 15] = .done c ∧
      IdeaDecrypt [0, 0, 0, 0, 0, 0, 0, 0] c [0, 1, 2, 3, 4, 5, 6, 7, 8, 9, 10, 11, 12, 13, 14, 15]
        = .done [0, 17, 34, 51, 68, 85, 102, 119] :=
  ⟨rfl, rfl, by decide, rfl,
    encrypt_decrypt_roundtrip _ _ _ _ rfl rfl (by decide) rfl rfl⟩

/-- C2: known-answer vectors. For each of the four NESSIE pairs and every 8-byte destination,
`IdeaEncrypt` on the plaintext stores the ciphertext and `IdeaDecrypt` on the ciphertext
stores the plaintext. -/
theorem known_answer_vectors (dst : List Nat) (hd : dst.length = 8) :
    IdeaEncrypt dst [0, 17, 34, 51, 68, 85, 102, 119]
        [0, 1, 2, 3, 4, 5, 6, 7, 8, 9, 10, 11, 12, 13, 14, 15]
        = .done [245, 38, 171, 154, 98, 192, 210, 88] ∧
      IdeaDecrypt dst [245, 38, 171, 154, 98, 192, 210, 88]
        [0, 1, 2, 3, 4, 5, 6, 7, 8, 9, 10, 11, 12, 13, 14, 15]
        = .done [0, 17, 34, 51, 68, 85, 102, 119] ∧
      IdeaEncrypt dst [234, 2, 71, 20, 173, 92, 77, 132]
        [43, 214, 69, 159, 130, 197, 179, 0, 149, 44, 73, 16, 72, 129, 255, 72]
        = .done [200, 251, 81, 211, 81, 102, 39, 168] ∧
      IdeaDecrypt dst [200, 251, 81, 211, 81, 102, 39, 168]
        [43, 214, 69, 159, 130, 197, 179, 0, 149, 44, 73, 16, 72, 129, 255, 72]
        = .done [234, 2, 71, 20, 173, 92, 77, 132] ∧
      IdeaEncrypt dst [219, 45, 74, 146, 170, 104, 39, 63]
        [0, 1, 2, 3, 4, 5, 6, 7, 8, 9, 10, 11, 12, 13, 14, 15]
        = .done [0, 17, 34, 51, 68, 85, 102, 119] ∧
      IdeaDecrypt dst [0, 17, 34, 51, 68, 85, 102, 119]
        [0, 1, 2, 3, 4, 5, 6, 7, 8, 9, 10, 11, 12, 13, 14, 15]
        = .done [219, 45, 74, 146, 170, 104, 39, 63] ∧
      IdeaEncrypt dst [241, 41, 166, 96, 30, 246, 42, 71]
        [43, 214, 69, 159, 130, 197, 179, 0, 149, 44, 73, 16, 72, 129, 255, 72]
        = .done [234, 2, 71, 20, 173, 92, 77, 132] ∧
      IdeaDecrypt dst [234, 2, 71, 20, 173, 92, 77, 132]
        [43, 214, 69, 159, 130, 197, 179, 0, 149, 44, 73, 16, 72, 129, 255, 72]
        = .done [241, 41, 166, 96, 30, 246, 42, 71] := by
  have hd8 : dst.drop 8 = [] := drop_eq_nil_of_length dst 8 hd
  exact ⟨by rw [IdeaEncrypt_eq _ _ _ (by decide) (by decide) (by omega), kat_encrypt_1, hd8]; rfl,
    by rw [IdeaDecrypt_eq _ _ _ (by decide) (by decide) (by omega), kat_decrypt_1, hd8]; rfl,
    by rw [IdeaEncrypt_eq _ _ _ (by decide) (by decide) (by omega), kat_encrypt_2, hd8]; rfl,
    by rw [IdeaDecrypt_eq _ _ _ (by decide) (by decide) (by omega), kat_decrypt_2, hd8]; rfl,
    by rw [IdeaEncrypt_eq _ _ _ (by decide) (by decide) (by omega), kat_encrypt_3, hd8]; rfl,
    by rw [IdeaDecrypt_eq _ _ _ (by decide) (by decide) (by omega), kat_decrypt_3, hd8]; rfl,
    by rw [IdeaEncrypt_eq _ _ _ (by decide) (by decide) (by omega), kat_encrypt_4, hd8]; rfl,
    by rw [IdeaDecrypt_eq _ _ _ (by decide) (by decide) (by omega), kat_decrypt_4, hd8]; rfl⟩

theorem known_answer_vectors_witness :
    ([0, 0, 0, 0, 0, 0, 0, 0] : List Nat).length = 8 ∧
    (IdeaEncrypt [0, 0, 0, 0, 0, 0, 0, 0] [0, 17, 34, 51, 68, 85, 102, 119]
        [0, 1, 2, 3, 4, 5, 6, 7, 8, 9, 10, 11, 12, 13, 14, 15]
        = .done [245, 38, 171, 154, 98, 192, 210, 88] ∧
      IdeaDecrypt [0, 0, 0, 0, 0, 0, 0, 0] [245, 38, 171, 154, 98, 192, 210, 88]
        [0, 1, 2, 3, 4, 5, 6, 7, 8, 9, 10, 11, 12, 13, 14, 15]
        = .done [0, 17, 34, 51, 68, 85, 102, 119] ∧
      IdeaEncrypt [0, 0, 0, 0, 0, 0, 0, 0] [234, 2, 71, 20, 173, 92, 77, 132]
        [43, 214, 69, 159, 130, 197, 179, 0, 149, 44, 73, 16, 72, 129, 255, 72]
        = .done [200, 251, 81, 211, 81, 102, 39, 168] ∧
      IdeaDecrypt [0, 0, 0, 0, 0, 0, 0, 0] [200, 251, 81, 211, 81, 102, 39, 168]
        [43, 214, 69, 159, 130, 197, 179, 0, 149, 44, 73, 16, 72, 129, 255, 72]
        = .done [234, 2, 71, 20, 173, 92, 77, 132] ∧
      IdeaEncrypt [0, 0, 0, 0, 0, 0, 0, 0] [219, 45, 74, 146, 170, 104, 39, 63]
        [0, 1, 2, 3, 4, 5, 6, 7, 8, 9, 10, 11, 12, 13, 14, 15]
        = .done [0, 17, 34, 51, 68, 85, 102, 119] ∧
      IdeaDecrypt [0, 0, 0, 0, 0, 0, 0, 0] [0, 17, 34, 51, 68, 85, 102, 119]
        [0, 1, 2, 3, 4, 5, 6, 7, 8, 9, 10, 11, 12, 13, 14, 15]
        = .done [219, 45, 74, 146, 170, 104, 39, 63] ∧
      IdeaEncrypt [0, 0, 0, 0, 0, 0, 0, 0] [241, 41, 166, 96, 30, 246, 42, 71]
        [43, 214, 69, 159, 130, 197, 179, 0, 149, 44, 73, 16, 72, 129, 255, 72]
        = .done [234, 2, 71, 20, 173, 92, 77, 132] ∧
      IdeaDecrypt [0, 0, 0, 0, 0, 0, 0, 0] [234, 2, 71, 20, 173, 92, 77, 132]
        [43, 214, 69, 159, 130, 197, 179, 0, 149, 44, 73, 16, 72, 129, 255, 72]
        = .done [241, 41, 166, 96, 30, 246, 42, 71]) :=
  ⟨rfl, known_answer_vectors [0, 0, 0, 0, 0, 0, 0, 0] rfl⟩

/-- C3: ring multiplication equals its reference definition. For all 16-bit `x` and `y`,
`mul x y` is the product of the ring elements modulo 65537, with 65536 encoded as 0. -/
theorem mul_eq_ring_product (x y : Nat) (hx : x < 65536) (hy : y < 65536) :
    mul x y = ((ringRep x * ringRep y) % 65537) % 65536 :=
  mul_eq_mulRef x y hx hy

theorem mul_eq_ring_product_witness :
    (0 : Nat) < 65536 ∧ (65535 : Nat) < 65536 ∧
      mul 0 65535 = ((ringRep 0 * ringRep 65535) % 65537) % 65536 :=
  ⟨by decide, by decide, mul_eq_ring_product 0 65535 (by decide) (by decide)⟩

/-- C4: `mulInv` returns the ring inverse. For every 16-bit `x`, 0 included, `mulInv x`
returns without a fault a 16-bit value `r` with `mul x r = 1`. -/
theorem mulInv_is_inverse (x : Nat) (hx : x < 65536) :
    ∃ r, mulInv x = .ok r ∧ r < 65536 ∧ mul x r = 1 :=
  ⟨invOf x, mulInv_eq_ok x hx, invOf_lt x hx, mul_invOf x hx⟩

theorem mulInv_is_inverse_witness :
    (0 : Nat) < 65536 ∧ ∃ r, mulInv 0 = .ok r ∧ r < 65536 ∧ mul 0 r = 1 :=
  ⟨by decide, mulInv_is_inverse 0 (by decide)⟩

/-- C5: multiplying by `y` and then by the inverse of `y` is the identity. For all 16-bit
`x` and `y`, 0 included, `mulInv y` returns a value `r` and `mul (mul x y) r = x`. -/
theorem mul_then_inverse (x y : Nat) (hx : x < 65536) (hy : y < 65536) :
    ∃ r, mulInv y = .ok r ∧ mul (mul x y) r = x :=
  ⟨invOf y, mulInv_eq_ok y hy, mul_mul_invOf x y hx hy⟩

theorem mul_then_inverse_witness :
    (12345 : Nat) < 65536 ∧ (0 : Nat) < 65536 ∧
      ∃ r, mulInv 0 = .ok r ∧ mul (mul 12345 0) r = 12345 :=
  ⟨by decide, by decide, mul_then_inverse 12345 0 (by decide) (by decide)⟩

/-- C6: `mulInv` is an involution. For every 16-bit `x`, `mulInv x` returns a value `r` and
`mulInv r` returns `x`. -/
theorem mulInv_involution (x : Nat) (hx : x < 65536) :
    ∃ r, mulInv x = .ok r ∧ mulInv r = .ok x := by
  refine ⟨invOf x, mulInv_eq_ok x hx, ?_⟩
  rw [mulInv_eq_ok _ (invOf_lt x hx), invOf_invOf x hx]

theorem mulInv_involution_witness :
    (2 : Nat) < 65536 ∧ ∃ r, mulInv 2 = .ok r ∧ mulInv r = .ok 2 :=
  ⟨by decide, mulInv_involution 2 (by decide)⟩

/-- C7, as stated, fails: a 17-byte key is not rejected. `IdeaEncrypt` and `IdeaDecrypt`
return without a fault and store a block. -/
theorem key_of_17_bytes_accepted :
    ([0, 1, 2, 3, 4, 5, 6, 7, 8, 9, 10, 11, 12, 13, 14, 15, 16] : List Nat).length ≠ 16 ∧
    IdeaEncrypt [0, 0, 0, 0, 0, 0, 0, 0] [0, 17, 34, 51, 68, 85, 102, 119]
        [0, 1, 2, 3, 4, 5, 6, 7, 8, 9, 10, 11, 12, 13, 14, 15, 16]
      = .done [245, 38, 171, 154, 98, 192, 210, 88] ∧
    IdeaDecrypt [0, 0, 0, 0, 0, 0, 0, 0] [245, 38, 171, 154, 98, 192, 210, 88]
        [0, 1, 2, 3, 4, 5, 6, 7, 8, 9, 10, 11, 12, 13, 14, 15, 16]
      = .done [0, 17, 34, 51, 68, 85, 102, 119] := by
  decide!

/-- C7, amended: there is no key length check. With an 8-byte block and an 8-byte
destination, `IdeaEncrypt` and `IdeaDecrypt` fail exactly when the key is shorter than 16
bytes; the failure is the index-out-of-range panic of `ideaExpandKey` and the destination is
left as it was. A key of 16 bytes or more is accepted. -/
theorem key_length_faults (key src dst : List Nat) (hs : src.length = 8) (hd : dst.length = 8) :
    (key.length < 16 →
      IdeaEncrypt dst src key = .panic .indexOutOfRange dst ∧
      IdeaDecrypt dst src key = .panic .indexOutOfRange dst) ∧
    (16 ≤ key.length →
      (∃ out, IdeaEncrypt dst src key = .done out) ∧
      (∃ out, IdeaDecrypt dst src key = .done out)) := by
  constructor
  · intro hk
    have h := ideaExpandKey_short key hk
    constructor
    · unfold IdeaEncrypt; rw [h]
    · unfold IdeaDecrypt; rw [h]
  · intro hk
    exact ⟨⟨_, IdeaEncrypt_eq dst src key hk (by omega) (by omega)⟩,
      ⟨_, IdeaDecrypt_eq dst src key hk (by omega) (by omega)⟩⟩

theorem key_length_faults_witness :
    ([0, 17, 34, 51, 68, 85, 102, 119] : List Nat).length = 8 ∧
    ([0, 0, 0, 0, 0, 0, 0, 0] : List Nat).length = 8 ∧
    ((([0, 1, 2, 3, 4, 5, 6, 7, 8, 9, 10, 11, 12, 13, 14] : List Nat).length < 16 →
      IdeaEncrypt [0, 0, 0, 0, 0, 0, 0, 0] [0, 17, 34, 51, 68, 85, 102, 119]
          [0, 1, 2, 3, 4, 5, 6, 7, 8, 9, 10, 11, 12, 13, 14]
        = .panic .indexOutOfRange [0, 0, 0, 0, 0, 0, 0, 0] ∧
      IdeaDecrypt [0, 0, 0, 0, 0, 0, 0, 0] [0, 17, 34, 51, 68, 85, 102, 119]
          [0, 1, 2, 3, 4, 5, 6, 7, 8, 9, 10, 11, 12, 13, 14]
        = .panic .indexOutOfRange [0, 0, 0, 0, 0, 0, 0, 0]) ∧
    (16 ≤ ([0, 1, 2, 3, 4, 5, 6, 7, 8, 9, 10, 11, 12, 13, 14] : List Nat).length →
      (∃ out, IdeaEncrypt [0, 0, 0, 0, 0, 0, 0, 0] [0, 17, 34, 51, 68, 85, 102, 119]
          [0, 1, 2, 3, 4, 5, 6, 7, 8, 9, 10, 11, 12, 13, 14] = .done out) ∧
      (∃ out, IdeaDecrypt [0, 0, 0, 0, 0, 0, 0, 0] [0, 17, 34, 51, 68, 85, 102, 119]
          [0, 1, 2, 3, 4, 5, 6, 7, 8, 9, 10, 11, 12, 13, 14] = .done out))) :=
  ⟨rfl, rfl, key_length_faults _ _ _ rfl rfl⟩

/-- C8, as stated, fails: a 9-byte block is not rejected. `IdeaEncrypt` and `IdeaDecrypt`
return without a fault and store a block. -/
theorem block_of_9_bytes_accepted :
    ([0, 17, 34, 51, 68, 85, 102, 119, 136] : List Nat).length ≠ 8 ∧
    IdeaEncrypt [0, 0, 0, 0, 0, 0, 0, 0] [0, 17, 34, 51, 68, 85, 102, 119, 136]
        [0, 1, 2, 3, 4, 5, 6, 7, 8, 9, 10, 11, 12, 13, 14, 15]
      = .done [245, 38, 171, 154, 98, 192, 210, 88] ∧
    IdeaDecrypt [0, 0, 0, 0, 0, 0, 0, 0] [0, 17, 34, 51, 68, 85, 102, 119, 136]
        [0, 1, 2, 3, 4, 5, 6, 7, 8, 9, 10, 11, 12, 13, 14, 15]
      = .done [219, 45, 74, 146, 170, 104, 39, 63] := by
  decide!

/-- C8, amended: there is no block length check. With a 16-byte key and an 8-byte
destination, `IdeaEncrypt` and `IdeaDecrypt` fail exactly when the input block is shorter
than 8 bytes; the failure is the index-out-of-range panic of the first loads of `ideaCipher`
and the destination is left as it was. A block of 8 bytes or more is accepted. -/
theorem block_length_faults (key src dst : List Nat) (hk : key.length = 16)
    (hd : dst.length = 8) :
    (src.length < 8 →
      IdeaEncrypt dst src key = .panic .indexOutOfRange dst ∧
      IdeaDecrypt dst src key = .panic .indexOutOfRange dst) ∧
    (8 ≤ src.length →
      (∃ out, IdeaEncrypt dst src key = .done out) ∧
      (∃ out, IdeaDecrypt dst src key = .done out)) := by
  obtain ⟨h1, h2, h3⟩ := scheduleOf_facts key (by omega)
  constructor
  · intro hs
    constructor
    · unfold IdeaEncrypt
      rw [h1]
      exact ideaCipher_short src dst _ hs
    · unfold IdeaDecrypt
      rw [h1]
      dsimp only
      rw [ideaInvertKey_eq _ h2 h3]
      exact ideaCipher_short src dst _ hs
  · intro hs
    exact ⟨⟨_, IdeaEncrypt_eq dst src key (by omega) hs (by omega)⟩,
      ⟨_, IdeaDecrypt_eq dst src key (by omega) hs (by omega)⟩⟩

theorem block_length_faults_witness :
    ([0, 1, 2, 3, 4, 5, 6, 7, 8, 9, 10, 11, 12, 13, 14, 15] : List Nat).length = 16 ∧
    ([0, 0, 0, 0, 0, 0, 0, 0] : List Nat).length = 8 ∧
    ((([0, 17, 34, 51, 68, 85, 102] : List Nat).length < 8 →
      IdeaEncrypt [0, 0, 0, 0, 0, 0, 0, 0] [0, 17, 34, 51, 68, 85, 102]
          [0, 1, 2, 3, 4, 5, 6, 7, 8, 9, 10, 11, 12, 13, 14, 15]
        = .panic .indexOutOfRange [0, 0, 0, 0, 0, 0, 0, 0] ∧
      IdeaDecrypt [0, 0, 0, 0, 0, 0, 0, 0] [0, 17, 34, 51, 68, 85, 102]
          [0, 1, 2, 3, 4, 5, 6, 7, 8, 9, 10, 11, 12, 13, 14, 15]
        = .panic .indexOutOfRange [0, 0, 0, 0, 0, 0, 0, 0]) ∧
    (8 ≤ ([0, 17, 34, 51, 68, 85, 102] : List Nat).length →
      (∃ out, IdeaEncrypt [0, 0, 0, 0, 0, 0, 0, 0] [0, 17, 34, 51, 68, 85, 102]
          [0, 1, 2, 3, 4, 5, 6, 7, 8, 9, 10, 11, 12, 13, 14, 15] = .done out) ∧
      (∃ out, IdeaDecrypt [0, 0, 0, 0, 0, 0, 0, 0] [0, 17, 34, 51, 68, 85, 102]
          [0, 1, 2, 3, 4, 5, 6, 7, 8, 9, 10, 11, 12, 13, 14, 15] = .done out))) :=
  ⟨rfl, rfl, block_length_faults _ _ _ rfl rfl⟩

/-- C9: key expansion closed form. For every 16-byte key and every slice `EK` of 52 words,
`ideaExpandKey` returns without a fault and, for every `n < 52`, word `n` of the result is
big-endian word `n mod 8` of the 128-bit key value rotated left cyclically by
`25 * (n / 8)` bits. Hence the first eight words are the big-endian words of the key, and
word `n` is word `n mod 8` of the key value rotated by 25 bits `n / 8` times. -/
theorem expandKey_closed_form (key EK : List Nat) (hk : key.length = 16)
    (hb : ∀ b ∈ key, b < 256) (he : EK.length = 52) :
    ∃ A, ideaExpandKey key EK = .ok A ∧ A.length = 52 ∧
      (∀ n, n < 52 →
        A[n]? = some (wordBE (rotl128 (keyValue key) (25 * (n / 8))) (n % 8))) ∧
      (∀ n, n < 8 → A[n]? = some (256 * at0 key (2 * n) + at0 key (2 * n + 1))) ∧
      (∀ n, n < 52 →
        A[n]? = some (wordBE ((fun v => rotl128 v 25)^[n / 8] (keyValue key)) (n % 8))) := by
  obtain ⟨A, hA, hlen, h1, h2, _⟩ := ideaExpandKey_spec key EK (by omega) (by omega)
  have hK := keyValue_lt key hk hb
  have hmain : ∀ n, n < 52 →
      at0 A n = wordBE (rotl128 (keyValue key) (25 * (n / 8))) (n % 8) := by
    intro n hn
    have h := expanded_word key A hk hb h1 h2 (n / 8) (n % 8) (Nat.mod_lt _ (by norm_num))
      (by omega)
    rwa [Nat.div_add_mod] at h
  refine ⟨A, hA, by rw [hlen, he], ?_, ?_, ?_⟩
  · intro n hn
    rw [getElem?_of_at0 A n (by omega), hmain n hn]
  · intro n hn
    rw [getElem?_of_at0 A n (by omega), h1 n hn, keyWord_eq_bytes key hk hb n hn]
  · intro n hn
    rw [getElem?_of_at0 A n (by omega), hmain n hn, rotl128_iterate _ hK (n / 8) (by omega)]

theorem expandKey_closed_form_witness :
    ([0, 1, 2, 3, 4, 5, 6, 7, 8, 9, 10, 11, 12, 13, 14, 15] : List Nat).length = 16 ∧
    (∀ b ∈ ([0, 1, 2, 3, 4, 5, 6, 7, 8, 9, 10, 11, 12, 13, 14, 15] : List Nat), b < 256) ∧
    (makeWords 52).length = 52 ∧
    ∃ A, ideaExpandKey [0, 1, 2, 3, 4, 5, 6, 7, 8, 9, 10, 11, 12, 13, 14, 15] (makeWords 52) = .ok A ∧
      A.length = 52 ∧
      (∀ n, n < 52 → A[n]? = some (wordBE (rotl128
        (keyValue [0, 1, 2, 3, 4, 5, 6, 7, 8, 9, 10, 11, 12, 13, 14, 15]) (25 * (n / 8))) (n % 8))) ∧
      (∀ n, n < 8 → A[n]? = some (256 * at0 [0, 1, 2, 3, 4, 5, 6, 7, 8, 9, 10, 11, 12, 13, 14, 15] (2 * n)
        + at0 [0, 1, 2, 3, 4, 5, 6, 7, 8, 9, 10, 11, 12, 13, 14, 15] (2 * n + 1))) ∧
      (∀ n, n < 52 → A[n]? = some (wordBE ((fun v => rotl128 v 25)^[n / 8]
        (keyValue [0, 1, 2, 3, 4, 5, 6, 7, 8, 9, 10, 11, 12, 13, 14, 15])) (n % 8))) :=
  ⟨rfl, by decide, rfl, expandKey_closed_form _ _ rfl (by decide) rfl⟩

/-- C10: totality under the size precondition. For every 16-byte key and every 8-byte
source block, the key expansion and the key inversion return without a fault schedules of
52 words; the block transform with either schedule returns without a fault with its key
slice advanced to the last subkey, index 51, so that subkeys 0 to 51 are read and no
other; and for every 8-byte destination `IdeaEncrypt` and `IdeaDecrypt` return without a
fault (no index or slice bound out of range, no division by zero) and leave in the
destination eight bytes that do not depend on its former content. -/
theorem entry_points_total (key src : List Nat) (hk : key.length = 16) (hs : src.length = 8) :
    ∃ ek dk, ideaExpandKey key (makeWords IDEAKEYLEN) = .ok ek ∧ ek.length = 52 ∧
      ideaInvertKey ek (makeWords IDEAKEYLEN) = .ok dk ∧ dk.length = 52 ∧
      (∃ w, cipherWords src ek = .ok (w, ek.drop 51)) ∧ (ek.drop 51).length = 1 ∧
      (∃ w, cipherWords src dk = .ok (w, dk.drop 51)) ∧ (dk.drop 51).length = 1 ∧
      ∃ o1 o2, o1.length = 8 ∧ o2.length = 8 ∧
        ∀ dst : List Nat, dst.length = 8 →
          IdeaEncrypt dst src key = .done o1 ∧ IdeaDecrypt dst src key = .done o2 := by
  obtain ⟨h1, h2, h3⟩ := scheduleOf_facts key (by omega)
  refine ⟨scheduleOf key, invertedKey (scheduleOf key), h1, h2, ideaInvertKey_eq _ h2 h3,
    invertedKey_length _, ⟨_, cipherWords_eq src _ (by omega) (by omega)⟩,
    by rw [List.length_drop, h2], ⟨_, cipherWords_eq src _ (by omega)
      (by rw [invertedKey_length])⟩, by rw [List.length_drop, invertedKey_length],
    cipherFn (scheduleOf key) src, cipherFn (invertedKey (scheduleOf key)) src,
    cipherFn_length _ _, cipherFn_length _ _, ?_⟩
  intro dst hd
  constructor
  · rw [IdeaEncrypt_eq dst src key (by omega) (by omega) (by omega),
      drop_eq_nil_of_length dst 8 hd, List.append_nil]
  · rw [IdeaDecrypt_eq dst src key (by omega) (by omega) (by omega),
      drop_eq_nil_of_length dst 8 hd, List.append_nil]

theorem entry_points_total_witness :
    ([0, 1, 2, 3, 4, 5, 6, 7, 8, 9, 10, 11, 12, 13, 14, 15] : List Nat).length = 16 ∧
    ([0, 17, 34, 51, 68, 85, 102, 119] : List Nat).length = 8 ∧
    ∃ ek dk, ideaExpandKey [0, 1, 2, 3, 4, 5, 6, 7, 8, 9, 10, 11, 12, 13, 14, 15]
        (makeWords IDEAKEYLEN) = .ok ek ∧ ek.length = 52 ∧
      ideaInvertKey ek (makeWords IDEAKEYLEN) = .ok dk ∧ dk.length = 52 ∧
      (∃ w, cipherWords [0, 17, 34, 51, 68, 85, 102, 119] ek = .ok (w, ek.drop 51)) ∧
      (ek.drop 51).length = 1 ∧
      (∃ w, cipherWords [0, 17, 34, 51, 68, 85, 102, 119] dk = .ok (w, dk.drop 51)) ∧
      (dk.drop 51).length = 1 ∧
      ∃ o1 o2, o1.length = 8 ∧ o2.length = 8 ∧
        ∀ dst : List Nat, dst.length = 8 →
          IdeaEncrypt dst [0, 17, 34, 51, 68, 85, 102, 119]
            [0, 1, 2, 3, 4, 5, 6, 7, 8, 9, 10, 11, 12, 13, 14, 15] = .done o1 ∧
          IdeaDecrypt dst [0, 17, 34, 51, 68, 85, 102, 119]
            [0, 1, 2, 3, 4, 5, 6, 7, 8, 9, 10, 11, 12, 13, 14, 15] = .done o2 :=
  ⟨rfl, rfl, entry_points_total _ _ rfl rfl⟩

/-! ## Key inversion is an involution -/

theorem neg16_neg16 (a : Nat) (ha : a < 65536) : neg16 (neg16 a) = a := by
  unfold neg16; omega

theorem range_52 : List.range 52 = [0, 1, 2, 3, 4, 5, 6, 7, 8, 9, 10, 11, 12, 13, 14, 15, 16,
    17, 18, 19, 20, 21, 22, 23, 24, 25, 26, 27, 28, 29, 30, 31, 32, 33, 34, 35, 36, 37, 38, 39,
    40, 41, 42, 43, 44, 45, 46, 47, 48, 49, 50, 51] := by
  decide

theorem invertedKey_lt (ek : List Nat) (hw : ∀ w ∈ ek, w < 65536) :
    ∀ w ∈ invertedKey ek, w < 65536 := by
  have h := at0_lt_16 ek hw
  apply mem_lt_of_at0
  intro m hm
  rw [invertedKey_length] at hm
  interval_cases m
  all_goals first
    | exact invOf_lt _ (h _)
    | exact neg16_lt _
    | exact h _

theorem at0_invertedKey_invertedKey (ek : List Nat) (hw : ∀ w ∈ ek, w < 65536) :
    ∀ m, m < 52 → at0 (invertedKey (invertedKey ek)) m = at0 ek m := by
  have h := at0_lt_16 ek hw
  intro m hm
  interval_cases m
  all_goals first
    | exact invOf_invOf _ (h _)
    | exact neg16_neg16 _ (h _)
    | rfl

/-- Inverting a schedule of 52 words of 16 bits twice gives the schedule back. -/
theorem invertedKey_invertedKey (ek : List Nat) (hl : ek.length = 52)
    (hw : ∀ w ∈ ek, w < 65536) : invertedKey (invertedKey ek) = ek := by
  apply list_ext_at0
  · rw [invertedKey_length, hl]
  · intro i hi
    rw [invertedKey_length] at hi
    exact at0_invertedKey_invertedKey ek hw i hi

/-- The inversion of a schedule of 52 words of 16 bits into any slice of 52 words succeeds
and yields `invertedKey`. -/
theorem ideaInvertKey_eq_any (ek DK : List Nat) (hl : ek.length = 52)
    (hw : ∀ w ∈ ek, w < 65536) (hd : DK.length = 52) :
    ideaInvertKey ek DK = .ok (invertedKey ek) := by
  have e : copySlice DK (invertedKey ek) = invertedKey ek := by
    unfold copySlice
    rw [hd, invertedKey_length, drop_eq_nil_of_length DK 52 hd, List.append_nil]
    exact List.take_of_length_le (by rw [invertedKey_length])
  rw [ideaInvertKey_eq_invertFn ek DK hw (by omega), invertFn_eq, e]

/-- The layout of the decryption schedule in terms of the encryption schedule. -/
theorem invertedKey_layout (EK : List Nat) (hw : ∀ w ∈ EK, w < 65536) :
    (mulInv (at0 EK 48) = .ok (at0 (invertedKey EK) 0) ∧
      at0 (invertedKey EK) 1 = neg16 (at0 EK 49) ∧
      at0 (invertedKey EK) 2 = neg16 (at0 EK 50) ∧
      mulInv (at0 EK 51) = .ok (at0 (invertedKey EK) 3)) ∧
    (∀ r, 1 ≤ r → r ≤ 7 →
      mulInv (at0 EK (48 - 6 * r)) = .ok (at0 (invertedKey EK) (6 * r)) ∧
      at0 (invertedKey EK) (6 * r + 1) = neg16 (at0 EK (50 - 6 * r)) ∧
      at0 (invertedKey EK) (6 * r + 2) = neg16 (at0 EK (49 - 6 * r)) ∧
      mulInv (at0 EK (51 - 6 * r)) = .ok (at0 (invertedKey EK) (6 * r + 3))) ∧
    (∀ r, r ≤ 7 →
      at0 (invertedKey EK) (6 * r + 4) = at0 EK (46 - 6 * r) ∧
      at0 (invertedKey EK) (6 * r + 5) = at0 EK (47 - 6 * r)) ∧
    (mulInv (at0 EK 0) = .ok (at0 (invertedKey EK) 48) ∧
      at0 (invertedKey EK) 49 = neg16 (at0 EK 1) ∧
      at0 (invertedKey EK) 50 = neg16 (at0 EK 2) ∧
      mulInv (at0 EK 3) = .ok (at0 (invertedKey EK) 51)) := by
  have h := at0_lt_16 EK hw
  refine ⟨⟨mulInv_eq_ok _ (h _), rfl, rfl, mulInv_eq_ok _ (h _)⟩, ?_, ?_,
    ⟨mulInv_eq_ok _ (h _), rfl, rfl, mulInv_eq_ok _ (h _)⟩⟩
  · intro r h1 h7
    interval_cases r
    all_goals exact ⟨mulInv_eq_ok _ (h _), rfl, rfl, mulInv_eq_ok _ (h _)⟩
  · intro r h7
    interval_cases r
    all_goals exact ⟨rfl, rfl⟩

theorem cipherFn_lt (k b : List Nat) : ∀ x ∈ cipherFn k b, x < 256 := by
  intro x hx
  unfold cipherFn wordsBytes at hx
  simp only [List.mem_cons, List.mem_singleton, List.not_mem_nil, or_false] at hx
  rcases hx with h | h | h | h | h | h | h | h <;> rw [h] <;> exact Nat.mod_lt _ (by norm_num)

/-- At the level of blocks: the block transform undoes the block transform with the
inverted schedule. -/
theorem cipherFn_of_invertedKey (ek b : List Nat) (hl : ek.length = 52)
    (hek : ∀ w ∈ ek, w < 65536) (hb : b.length = 8) (hbb : ∀ x ∈ b, x < 256) :
    cipherFn ek (cipherFn (invertedKey ek) b) = b := by
  have h := cipherFn_invertedKey (invertedKey ek) b (invertedKey_lt ek hek) hb hbb
  rwa [invertedKey_invertedKey ek hl hek] at h

/-! ## The block transform and its reference -/

theorem specRound_eq (k : List Nat) (r : Nat) (x : Words) : specRound k r x = roundAt k r x :=
  rfl

theorem range_8 : List.range 8 = [0, 1, 2, 3, 4, 5, 6, 7] := by decide

theorem specFold_eq (k : List Nat) (x : Words) :
    (List.range 8).foldl (fun x r => specRound k r x) x = roundsFrom k 0 IDEAROUNDS x := by
  rw [range_8]
  simp only [List.foldl_cons, List.foldl_nil, specRound_eq, IDEAROUNDS, roundsFrom,
    Nat.reduceAdd]

theorem specWords_eq (b : List Nat) (hb : ∀ x ∈ b, x < 256) : specWords b = blockWords b := by
  have h := at0_lt_256 b hb
  simp only [specWords, blockWords, beWord]
  rw [be_split _ _ (h 0) (h (0 + 1)), be_split _ _ (h 2) (h (2 + 1)),
    be_split _ _ (h 4) (h (4 + 1)), be_split _ _ (h 6) (h (6 + 1))]

theorem specBytes_eq (w : Nat) (hw : w < 65536) : specBytes w = [(w >>> 8) % 256, w % 256] := by
  unfold specBytes
  rw [Nat.shiftRight_eq_div_pow]
  have e : w / 2 ^ 8 % 256 = w / 256 := by omega
  rw [e]

theorem specBlock_eq (k b : List Nat) (hb : ∀ x ∈ b, x < 256) : specBlock k b = cipherFn k b := by
  unfold specBlock cipherFn
  simp only
  rw [specFold_eq, specWords_eq b hb, specBytes_eq _ (mul_lt _ _), specBytes_eq _ (mul_lt _ _),
    specBytes_eq _ (Nat.mod_lt _ (by norm_num)), specBytes_eq _ (Nat.mod_lt _ (by norm_num))]
  rfl

/-! ## Termination and exits of `mulInv` -/

/-- For `2 ≤ x < 65536` the loop of `mulInv`, started as `mulInv` starts it, returns the
value of `mulInv x` with any bound on the iterations that is at least `65537 % x`. -/
theorem mulInvLoop_total (x : Nat) (h2 : 2 ≤ x) (hx : x < 65536) :
    65537 % x ≠ 0 ∧ 65537 % x < x ∧
    ∀ fuel, 65537 % x ≤ fuel →
      mulInvLoop fuel x (u16 (0x10001 % x)) 1 (u16 (0x10001 / x)) = .ok (invOf x) := by
  have hd : x * (65537 / x) + 65537 % x = 65537 := Nat.div_add_mod 65537 x
  have hylt : 65537 % x < x := Nat.mod_lt _ (by omega)
  have hy0 : 65537 % x ≠ 0 := by
    intro hc
    have hdvd : x ∣ 65537 := Nat.dvd_of_mod_eq_zero hc
    rcases (Nat.dvd_prime prime_65537).1 hdvd with h | h <;> omega
  have hq : 65537 / x ≤ 32768 := by
    by_contra hc
    have : 2 * 32769 ≤ x * (65537 / x) := Nat.mul_le_mul h2 (by omega)
    omega
  refine ⟨hy0, hylt, ?_⟩
  intro fuel hf
  have e1 : u16 (0x10001 % x) = 65537 % x := Nat.mod_eq_of_lt (by omega)
  have e2 : u16 (0x10001 / x) = 65537 / x := Nat.mod_eq_of_lt (by omega)
  rw [e1, e2]
  have hrep : toZ x = (x : ZMod 65537) := by
    unfold toZ ringRep
    rw [if_neg (by omega)]
  obtain ⟨r, hr, hrlt, hrz⟩ := mulInvLoop_spec x fuel x (65537 % x) 1 (65537 / x) (by omega)
    hylt hx (by rw [Nat.one_mul, Nat.mul_comm, Nat.add_comm]; exact hd) (by simp)
    (by
      have hz : ((x * (65537 / x) + 65537 % x : ℕ) : ZMod 65537) = 0 := by
        rw [hd]; exact ZMod.natCast_self 65537
      push_cast at hz ⊢
      linear_combination hz) hf
  rw [hr]
  congr 1
  apply toZ_injective _ _ hrlt (invOf_lt x hx)
  have h1 := toZ_invOf x hx
  rw [hrep] at h1
  have hne : (x : ZMod 65537) ≠ 0 := by rw [← hrep]; exact toZ_ne_zero x hx
  exact mul_right_cancel₀ hne (hrz.trans h1.symm)

/-- The value returned by the loop of `mulInv` from the way it is left. -/
theorem mulInvLoop_of_exit : ∀ (fuel x y t0 t1 : Nat) (b : Bool) (t : Nat),
    mulInvLoopExit fuel x y t0 t1 = some (b, t) →
    mulInvLoop fuel x y t0 t1 = .ok (if b then sub16 1 t else t) := by
  intro fuel
  induction fuel with
  | zero => intro x y t0 t1 b t h; simp [mulInvLoopExit] at h
  | succ n ih =>
    intro x y t0 t1 b t h
    simp only [mulInvLoopExit] at h
    simp only [mulInvLoop]
    by_cases hy1 : y = 1
    · rw [if_pos hy1] at h ⊢
      simp only [Option.some.injEq, Prod.mk.injEq] at h
      obtain ⟨hb, ht⟩ := h
      rw [← hb, ← ht]
      rfl
    · rw [if_neg hy1] at h ⊢
      by_cases hy0 : y = 0
      · rw [if_pos hy0] at h; simp at h
      · rw [if_neg hy0] at h ⊢
        by_cases hx1 : x % y = 1
        · rw [if_pos hx1] at h ⊢
          simp only [Option.some.injEq, Prod.mk.injEq] at h
          obtain ⟨hb, ht⟩ := h
          rw [← hb, ← ht]
          rfl
        · rw [if_neg hx1] at h ⊢
          by_cases hx0 : x % y = 0
          · rw [if_pos hx0] at h; simp at h
          · rw [if_neg hx0] at h ⊢
            exact ih _ _ _ _ b t h

/-- The value returned by `mulInv` from the way it is left. -/
theorem mulInv_of_exit (x : Nat) (b : Bool) (t : Nat) (h : mulInvExit x = some (b, t)) :
    mulInv x = .ok (if b then sub16 1 t else t) := by
  unfold mulInvExit at h
  unfold mulInv
  by_cases hx : x ≤ 1
  · rw [if_pos hx] at h; simp at h
  · rw [if_neg hx] at h ⊢
    simp only at h ⊢
    by_cases hy : u16 (0x10001 % x) = 1
    · rw [if_pos hy] at h ⊢
      simp only [Option.some.injEq, Prod.mk.injEq] at h
      obtain ⟨hb, ht⟩ := h
      rw [← hb, ← ht]
      rfl
    · rw [if_neg hy] at h ⊢
      exact mulInvLoop_of_exit _ _ _ _ _ b t h

/-! ## Bytes past the key and the block -/

theorem at0_take (l : List Nat) (n i : Nat) (h : i < n) : at0 (l.take n) i = at0 l i := by
  simp [at0, List.getD_eq_getElem?_getD, List.getElem?_take, h]

theorem keyWord_take (key : List Nat) (m : Nat) (hm : m < 8) :
    keyWord (key.take 16) m = keyWord key m := by
  unfold keyWord
  rw [at0_take key 16 _ (by omega), at0_take key 16 _ (by omega)]

/-- Two schedules of 52 words built as `ideaExpandKey` builds them from the same first eight
words are equal. -/
theorem expanded_unique (A B : List Nat) (hA : A.length = 52) (hB : B.length = 52)
    (h1 : ∀ m, m < 8 → at0 A m = at0 B m)
    (hrA : ∀ m, 8 ≤ m → m < 52 → at0 A m = rotWord (at0 A (src1 m)) (at0 A (src2 m)))
    (hrB : ∀ m, 8 ≤ m → m < 52 → at0 B m = rotWord (at0 B (src1 m)) (at0 B (src2 m))) :
    A = B := by
  apply list_ext_at0 A B (by rw [hA, hB])
  intro m
  induction m using Nat.strong_induction_on with
  | _ m ih =>
    intro hm
    rw [hA] at hm
    by_cases h8 : m < 8
    · exact h1 m h8
    · rw [hrA m (by omega) hm, hrB m (by omega) hm,
        ih (src1 m) (by unfold src1; omega) (by rw [hA]; unfold src1; omega),
        ih (src2 m) (by unfold src2; omega) (by rw [hA]; unfold src2; omega)]

theorem scheduleOf_take (key : List Nat) (hk : 16 ≤ key.length) :
    scheduleOf (key.take 16) = scheduleOf key := by
  have hl : (makeWords IDEAKEYLEN).length = 52 := makeWords_length _
  have hk2 : 16 ≤ (key.take 16).length := by rw [List.length_take]; omega
  obtain ⟨A, hA, hAl, hA1, hA2, _⟩ := ideaExpandKey_spec key (makeWords IDEAKEYLEN) hk (by omega)
  obtain ⟨B, hB, hBl, hB1, hB2, _⟩ :=
    ideaExpandKey_spec (key.take 16) (makeWords IDEAKEYLEN) hk2 (by omega)
  have eA : scheduleOf key = A := by simp [scheduleOf, hA]
  have eB : scheduleOf (key.take 16) = B := by simp [scheduleOf, hB]
  rw [eA, eB]
  apply expanded_unique B A (by rw [hBl, hl]) (by rw [hAl, hl]) _ hB2 hA2
  intro m hm
  rw [hB1 m hm, hA1 m hm, keyWord_take key m hm]

theorem cipherFn_take (k src : List Nat) : cipherFn k (src.take 8) = cipherFn k src := by
  unfold cipherFn blockWords beWord
  rw [at0_take src 8 _ (by omega), at0_take src 8 _ (by omega), at0_take src 8 _ (by omega),
    at0_take src 8 _ (by omega), at0_take src 8 _ (by omega), at0_take src 8 _ (by omega),
    at0_take src 8 _ (by omega), at0_take src 8 _ (by omega)]


theorem mulInvLoop_exit_of_ok : ∀ (fuel x y t0 t1 r : Nat),
    mulInvLoop fuel x y t0 t1 = .ok r → ∃ b t, mulInvLoopExit fuel x y t0 t1 = some (b, t) := by
  intro fuel
  induction fuel with
  | zero => intro x y t0 t1 r h; simp [mulInvLoop] at h
  | succ n ih =>
    intro x y t0 t1 r h
    simp only [mulInvLoop] at h
    simp only [mulInvLoopExit]
    by_cases hy1 : y = 1
    · rw [if_pos hy1]; exact ⟨_, _, rfl⟩
    · rw [if_neg hy1] at h ⊢
      by_cases hy0 : y = 0
      · rw [if_pos hy0] at h; simp at h
      · rw [if_neg hy0] at h ⊢
        by_cases hx1 : x % y = 1
        · rw [if_pos hx1]; exact ⟨_, _, rfl⟩
        · rw [if_neg hx1] at h ⊢
          by_cases hx0 : x % y = 0
          · rw [if_pos hx0] at h; simp at h
          · rw [if_neg hx0] at h ⊢
            exact ih _ _ _ _ r h

/-- For `2 ≤ x < 65536` the function `mulInv` is left through one of its three `return`
statements of the Euclidean part. -/
theorem mulInvExit_some (x : Nat) (h2 : 2 ≤ x) (hx : x < 65536) :
    ∃ b t, mulInvExit x = some (b, t) := by
  obtain ⟨_, _, hf⟩ := mulInvLoop_total x h2 hx
  unfold mulInvExit
  rw [if_neg (by omega)]
  simp only
  by_cases hy : u16 (0x10001 % x) = 1
  · rw [if_pos hy]; exact ⟨_, _, rfl⟩
  · rw [if_neg hy]
    exact mulInvLoop_exit_of_ok _ _ _ _ _ _
      (hf 65536 (le_of_lt (lt_trans (Nat.mod_lt _ (by omega)) hx)))

/-! ## The claims, continued -/

/-- C11: reverse round trip. For every 16-byte key and every 8-byte block, `IdeaDecrypt`
returns without a fault and stores an 8-byte block `p` into the 8-byte destination, and
`IdeaEncrypt` with the same key on `p` stores exactly the original block; with the round
trip of C1, encryption and decryption with a fixed key are inverse bijections of the
8-byte blocks. -/
theorem decrypt_encrypt_roundtrip (key src dst dst2 : List Nat) (hk : key.length = 16)
    (hs : src.length = 8) (hb : ∀ b ∈ src, b < 256) (hd : dst.length = 8)
    (hd2 : dst2.length = 8) :
    ∃ p, IdeaDecrypt dst src key = .done p ∧ p.length = 8 ∧ (∀ b ∈ p, b < 256) ∧
      IdeaEncrypt dst2 p key = .done src := by
  obtain ⟨_, h2, h3⟩ := scheduleOf_facts key (by omega)
  refine ⟨cipherFn (invertedKey (scheduleOf key)) src, ?_, cipherFn_length _ _,
    cipherFn_lt _ _, ?_⟩
  · rw [IdeaDecrypt_eq dst src key (by omega) (by omega) (by omega),
      drop_eq_nil_of_length dst 8 hd, List.append_nil]
  · rw [IdeaEncrypt_eq dst2 _ key (by omega) (by rw [cipherFn_length]) (by omega),
      drop_eq_nil_of_length dst2 8 hd2, List.append_nil,
      cipherFn_of_invertedKey _ src h2 h3 hs hb]

theorem decrypt_encrypt_roundtrip_witness :
    ([0, 1, 2, 3, 4, 5, 6, 7, 8, 9, 10, 11, 12, 13, 14, 15] : List Nat).length = 16 ∧
    ([245, 38, 171, 154, 98, 192, 210, 88] : List Nat).length = 8 ∧
    (∀ b ∈ ([245, 38, 171, 154, 98, 192, 210, 88] : List Nat), b < 256) ∧
    ([0, 0, 0, 0, 0, 0, 0, 0] : List Nat).length = 8 ∧
    ∃ p, IdeaDecrypt [0, 0, 0, 0, 0, 0, 0, 0] [245, 38, 171, 154, 98, 192, 210, 88]
        [0, 1, 2, 3, 4, 5, 6, 7, 8, 9, 10, 11, 12, 13, 14, 15] = .done p ∧
      p.length = 8 ∧ (∀ b ∈ p, b < 256) ∧
      IdeaEncrypt [0, 0, 0, 0, 0, 0, 0, 0] p [0, 1, 2, 3, 4, 5, 6, 7, 8, 9, 10, 11, 12, 13, 14, 15]
        = .done [245, 38, 171, 154, 98, 192, 210, 88] :=
  ⟨rfl, rfl, by decide, rfl,
    decrypt_encrypt_roundtrip _ _ _ _ rfl rfl (by decide) rfl rfl⟩

/-- C12: schedule-level inversion. For every schedule `ek` of 52 words of 16 bits, whether
`ideaExpandKey` can produce it or not, and every 8-byte block `b`: `ideaInvertKey` returns
a schedule `dk` without a fault, `ideaCipher` with `ek` on `b` stores a block `c`, and
`ideaCipher` with `dk` on `c` stores `b`. -/
theorem schedule_level_inversion (ek dk0 b o1 o2 : List Nat) (hl : ek.length = 52)
    (hw : ∀ w ∈ ek, w < 65536) (hd : dk0.length = 52) (hb : b.length = 8)
    (hbb : ∀ x ∈ b, x < 256) (ho1 : o1.length = 8) (ho2 : o2.length = 8) :
    ∃ dk c, ideaInvertKey ek dk0 = .ok dk ∧ ideaCipher b o1 ek = .done c ∧
      ideaCipher c o2 dk = .done b := by
  refine ⟨invertedKey ek, cipherFn ek b, ideaInvertKey_eq_any ek dk0 hl hw hd, ?_, ?_⟩
  · rw [ideaCipher_eq b o1 ek (by omega) (by omega) (by omega),
      drop_eq_nil_of_length o1 8 ho1, List.append_nil]
  · rw [ideaCipher_eq _ o2 _ (by rw [cipherFn_length]) (by omega)
      (by rw [invertedKey_length]), drop_eq_nil_of_length o2 8 ho2, List.append_nil,
      cipherFn_invertedKey ek b hw hb hbb]

theorem schedule_level_inversion_witness :
    (List.range 52).length = 52 ∧
    (∀ w ∈ List.range 52, w < 65536) ∧
    (makeWords 52).length = 52 ∧
    ([0, 17, 34, 51, 68, 85, 102, 119] : List Nat).length = 8 ∧
    (∀ x ∈ ([0, 17, 34, 51, 68, 85, 102, 119] : List Nat), x < 256) ∧
    ([0, 0, 0, 0, 0, 0, 0, 0] : List Nat).length = 8 ∧
    ∃ dk c, ideaInvertKey (List.range 52) (makeWords 52) = .ok dk ∧
      ideaCipher [0, 17, 34, 51, 68, 85, 102, 119] [0, 0, 0, 0, 0, 0, 0, 0] (List.range 52) = .done c ∧
      ideaCipher c [0, 0, 0, 0, 0, 0, 0, 0] dk = .done [0, 17, 34, 51, 68, 85, 102, 119] :=
  ⟨rfl, by decide, rfl, rfl, by decide, rfl,
    schedule_level_inversion _ _ _ _ _ rfl (by decide) rfl rfl (by decide) rfl rfl⟩

/-- C13: exact layout of the decryption schedule. For every `EK` of 52 words of 16 bits
and every `DK` of 52 words, `ideaInvertKey` returns without a fault a schedule `D` with
`D[0..3] = (mulInv EK[48], -EK[49], -EK[50], mulInv EK[51])`; for `r` from 1 to 7,
`D[6r..6r+3] = (mulInv EK[48-6r], -EK[50-6r], -EK[49-6r], mulInv EK[51-6r])`; for `r` from
0 to 7, `D[6r+4] = EK[46-6r]` and `D[6r+5] = EK[47-6r]`; and
`D[48..51] = (mulInv EK[0], -EK[1], -EK[2], mulInv EK[3])`, negation modulo `2 ^ 16`. -/
theorem invertKey_layout (EK DK : List Nat) (hl : EK.length = 52)
    (hw : ∀ w ∈ EK, w < 65536) (hd : DK.length = 52) :
    ∃ D, ideaInvertKey EK DK = .ok D ∧ D.length = 52 ∧
      (mulInv (at0 EK 48) = .ok (at0 D 0) ∧ at0 D 1 = neg16 (at0 EK 49) ∧
        at0 D 2 = neg16 (at0 EK 50) ∧ mulInv (at0 EK 51) = .ok (at0 D 3)) ∧
      (∀ r, 1 ≤ r → r ≤ 7 →
        mulInv (at0 EK (48 - 6 * r)) = .ok (at0 D (6 * r)) ∧
        at0 D (6 * r + 1) = neg16 (at0 EK (50 - 6 * r)) ∧
        at0 D (6 * r + 2) = neg16 (at0 EK (49 - 6 * r)) ∧
        mulInv (at0 EK (51 - 6 * r)) = .ok (at0 D (6 * r + 3))) ∧
      (∀ r, r ≤ 7 →
        at0 D (6 * r + 4) = at0 EK (46 - 6 * r) ∧ at0 D (6 * r + 5) = at0 EK (47 - 6 * r)) ∧
      (mulInv (at0 EK 0) = .ok (at0 D 48) ∧ at0 D 49 = neg16 (at0 EK 1) ∧
        at0 D 50 = neg16 (at0 EK 2) ∧ mulInv (at0 EK 3) = .ok (at0 D 51)) :=
  ⟨invertedKey EK, ideaInvertKey_eq_any EK DK hl hw hd, invertedKey_length EK,
    invertedKey_layout EK hw⟩

theorem invertKey_layout_witness :
    (List.range 52).length = 52 ∧
    (∀ w ∈ List.range 52, w < 65536) ∧
    (makeWords 52).length = 52 ∧
    ∃ D, ideaInvertKey (List.range 52) (makeWords 52) = .ok D ∧ D.length = 52 ∧
      (mulInv (at0 (List.range 52) 48) = .ok (at0 D 0) ∧
        at0 D 1 = neg16 (at0 (List.range 52) 49) ∧
        at0 D 2 = neg16 (at0 (List.range 52) 50) ∧
        mulInv (at0 (List.range 52) 51) = .ok (at0 D 3)) ∧
      (∀ r, 1 ≤ r → r ≤ 7 →
        mulInv (at0 (List.range 52) (48 - 6 * r)) = .ok (at0 D (6 * r)) ∧
        at0 D (6 * r + 1) = neg16 (at0 (List.range 52) (50 - 6 * r)) ∧
        at0 D (6 * r + 2) = neg16 (at0 (List.range 52) (49 - 6 * r)) ∧
        mulInv (at0 (List.range 52) (51 - 6 * r)) = .ok (at0 D (6 * r + 3))) ∧
      (∀ r, r ≤ 7 →
        at0 D (6 * r + 4) = at0 (List.range 52) (46 - 6 * r) ∧
        at0 D (6 * r + 5) = at0 (List.range 52) (47 - 6 * r)) ∧
      (mulInv (at0 (List.range 52) 0) = .ok (at0 D 48) ∧
        at0 D 49 = neg16 (at0 (List.range 52) 1) ∧
        at0 D 50 = neg16 (at0 (List.range 52) 2) ∧
        mulInv (at0 (List.range 52) 3) = .ok (at0 D 51)) :=
  ⟨rfl, by decide, rfl, invertKey_layout _ _ rfl (by decide) rfl⟩

/-- C14, as stated, fails: with `EK[i] = i` the inverted schedule has `D[4] = 46 = EK[46]`
and `D[5] = 47 = EK[47]`, not `D[4] = EK[47]` and `D[5] = EK[46]`. -/
theorem inner_subkeys_not_exchanged :
    ∃ D, ideaInvertKey (List.range 52) (makeWords 52) = .ok D ∧
      at0 D 4 = 46 ∧ at0 D 5 = 47 ∧
      at0 D 4 ≠ at0 (List.range 52) (47 - 6 * 0) ∧
      at0 D 5 ≠ at0 (List.range 52) (46 - 6 * 0) :=
  ⟨invertedKey (List.range 52), ideaInvertKey_eq_any _ _ rfl (by decide) rfl,
    by decide, by decide, by decide, by decide⟩

/-- C14, amended: the inner subkeys are carried over by key inversion with their values and
their order unchanged. For every `EK` of 52 words of 16 bits and `r` from 0 to 7,
`D[6r+4] = EK[46-6r]` and `D[6r+5] = EK[47-6r]`: the pair `(EK[6s+4], EK[6s+5])` of
encryption round `s` is the pair `(D[6(7-s)+4], D[6(7-s)+5])` of decryption round `7 - s`. -/
theorem inner_subkeys_carried (EK DK : List Nat) (hl : EK.length = 52)
    (hw : ∀ w ∈ EK, w < 65536) (hd : DK.length = 52) :
    ∃ D, ideaInvertKey EK DK = .ok D ∧
      (∀ r, r ≤ 7 →
        at0 D (6 * r + 4) = at0 EK (46 - 6 * r) ∧ at0 D (6 * r + 5) = at0 EK (47 - 6 * r)) ∧
      (∀ s, s ≤ 7 →
        at0 D (6 * (7 - s) + 4) = at0 EK (6 * s + 4) ∧
        at0 D (6 * (7 - s) + 5) = at0 EK (6 * s + 5)) := by
  refine ⟨invertedKey EK, ideaInvertKey_eq_any EK DK hl hw hd,
    (invertedKey_layout EK hw).2.2.1, ?_⟩
  intro s hs
  interval_cases s
  all_goals exact ⟨rfl, rfl⟩

theorem inner_subkeys_carried_witness :
    (List.range 52).length = 52 ∧
    (∀ w ∈ List.range 52, w < 65536) ∧
    (makeWords 52).length = 52 ∧
    ∃ D, ideaInvertKey (List.range 52) (makeWords 52) = .ok D ∧
      (∀ r, r ≤ 7 →
        at0 D (6 * r + 4) = at0 (List.range 52) (46 - 6 * r) ∧
        at0 D (6 * r + 5) = at0 (List.range 52) (47 - 6 * r)) ∧
      (∀ s, s ≤ 7 →
        at0 D (6 * (7 - s) + 4) = at0 (List.range 52) (6 * s + 4) ∧
        at0 D (6 * (7 - s) + 5) = at0 (List.range 52) (6 * s + 5)) :=
  ⟨rfl, by decide, rfl, inner_subkeys_carried _ _ rfl (by decide) rfl⟩

/-- C15, as stated, fails: with `EK[i] = i` the inverted schedule has `D[1] = -49` and
`D[2] = -50` modulo `2 ^ 16`, not `D[1] = -EK[50]` and `D[2] = -EK[49]`. -/
theorem first_quadruple_not_exchanged :
    ∃ D, ideaInvertKey (List.range 52) (makeWords 52) = .ok D ∧
      at0 D 1 = 65487 ∧ at0 D 2 = 65486 ∧
      at0 D 1 ≠ neg16 (at0 (List.range 52) 50) ∧
      at0 D 2 ≠ neg16 (at0 (List.range 52) 49) :=
  ⟨invertedKey (List.range 52), ideaInvertKey_eq_any _ _ rfl (by decide) rfl,
    by decide, by decide, by decide, by decide⟩

/-- C15, amended: the output-transformation subkeys are placed first, with the two additive
subkeys negated and kept in their order, not exchanged as they are in the rounds. For every
`EK` of 52 words of 16 bits, `D[0..3] = (mulInv EK[48], -EK[49], -EK[50], mulInv EK[51])`. -/
theorem first_quadruple_layout (EK DK : List Nat) (hl : EK.length = 52)
    (hw : ∀ w ∈ EK, w < 65536) (hd : DK.length = 52) :
    ∃ D, ideaInvertKey EK DK = .ok D ∧
      mulInv (at0 EK 48) = .ok (at0 D 0) ∧ at0 D 1 = neg16 (at0 EK 49) ∧
      at0 D 2 = neg16 (at0 EK 50) ∧ mulInv (at0 EK 51) = .ok (at0 D 3) :=
  ⟨invertedKey EK, ideaInvertKey_eq_any EK DK hl hw hd, (invertedKey_layout EK hw).1⟩

theorem first_quadruple_layout_witness :
    (List.range 52).length = 52 ∧
    (∀ w ∈ List.range 52, w < 65536) ∧
    (makeWords 52).length = 52 ∧
    ∃ D, ideaInvertKey (List.range 52) (makeWords 52) = .ok D ∧
      mulInv (at0 (List.range 52) 48) = .ok (at0 D 0) ∧
      at0 D 1 = neg16 (at0 (List.range 52) 49) ∧
      at0 D 2 = neg16 (at0 (List.range 52) 50) ∧
      mulInv (at0 (List.range 52) 51) = .ok (at0 D 3) :=
  ⟨rfl, by decide, rfl, first_quadruple_layout _ _ rfl (by decide) rfl⟩

/-- C16: `ideaCipher` equals the reference block transform. For every 8-byte block, every
8-byte destination and every schedule of 52 words, `ideaCipher` returns without a fault and
stores the block that the reference `specBlock` computes: the eight round maps of the claim
for `r = 0, ..., 7`, then the words `mul x1 k[48]`, `x3 + k[49]`, `x2 + k[50]`,
`mul x4 k[51]` written big-endian in that order. -/
theorem ideaCipher_eq_reference (inbuf outbuf k : List Nat) (hi : inbuf.length = 8)
    (hb : ∀ x ∈ inbuf, x < 256) (ho : outbuf.length = 8) (hk : k.length = 52) :
    ideaCipher inbuf outbuf k = .done (specBlock k inbuf) := by
  rw [ideaCipher_eq inbuf outbuf k (by omega) (by omega) (by omega),
    drop_eq_nil_of_length outbuf 8 ho, List.append_nil, specBlock_eq k inbuf hb]

theorem ideaCipher_eq_reference_witness :
    ([0, 17, 34, 51, 68, 85, 102, 119] : List Nat).length = 8 ∧
    (∀ x ∈ ([0, 17, 34, 51, 68, 85, 102, 119] : List Nat), x < 256) ∧
    ([0, 0, 0, 0, 0, 0, 0, 0] : List Nat).length = 8 ∧
    (List.range 52).length = 52 ∧
    ideaCipher [0, 17, 34, 51, 68, 85, 102, 119] [0, 0, 0, 0, 0, 0, 0, 0] (List.range 52)
      = .done (specBlock (List.range 52) [0, 17, 34, 51, 68, 85, 102, 119]) :=
  ⟨rfl, by decide, rfl, rfl, ideaCipher_eq_reference _ _ _ rfl (by decide) rfl rfl⟩

/-- C17: `mulInv` is total. For every 16-bit `x`, `mulInv x` returns a value without a
fault: no division or remainder by zero and no exhaustion of the bound on the iterations.
For `x ≥ 2` the first divisor `x` and the first remainder `65537 % x` are not zero, the
loop returns the same value with every bound on the iterations from `65537 % x` on, and
the function is left through a `return` reached with one of the two remainders equal to 1. -/
theorem mulInv_total (x : Nat) (hx : x < 65536) :
    ∃ r, mulInv x = .ok r ∧
      (2 ≤ x → x ≠ 0 ∧ 65537 % x ≠ 0 ∧
        (∀ fuel, 65537 % x ≤ fuel →
          mulInvLoop fuel x (u16 (0x10001 % x)) 1 (u16 (0x10001 / x)) = .ok r) ∧
        ∃ b t, mulInvExit x = some (b, t)) := by
  refine ⟨invOf x, mulInv_eq_ok x hx, ?_⟩
  intro h2
  obtain ⟨h0, _, hf⟩ := mulInvLoop_total x h2 hx
  exact ⟨by omega, h0, hf, mulInvExit_some x h2 hx⟩

theorem mulInv_total_witness :
    (12 : Nat) < 65536 ∧
    ∃ r, mulInv 12 = .ok r ∧
      (2 ≤ 12 → 12 ≠ 0 ∧ 65537 % 12 ≠ 0 ∧
        (∀ fuel, 65537 % 12 ≤ fuel →
          mulInvLoop fuel 12 (u16 (0x10001 % 12)) 1 (u16 (0x10001 / 12)) = .ok r) ∧
        ∃ b t, mulInvExit 12 = some (b, t)) :=
  ⟨by decide, mulInv_total 12 (by decide)⟩

/-- C18: `ideaInvertKey` is an involution on schedules. For every `EK` of 52 words of 16
bits, `ideaInvertKey` returns a schedule `D` and `ideaInvertKey` on `D` returns `EK`, entry
for entry. -/
theorem invertKey_involution (EK DK DK2 : List Nat) (hl : EK.length = 52)
    (hw : ∀ w ∈ EK, w < 65536) (hd : DK.length = 52) (hd2 : DK2.length = 52) :
    ∃ D, ideaInvertKey EK DK = .ok D ∧ ideaInvertKey D DK2 = .ok EK := by
  refine ⟨invertedKey EK, ideaInvertKey_eq_any EK DK hl hw hd, ?_⟩
  rw [ideaInvertKey_eq_any _ DK2 (invertedKey_length EK) (invertedKey_lt EK hw) hd2,
    invertedKey_invertedKey EK hl hw]

theorem invertKey_involution_witness :
    (List.range 52).length = 52 ∧
    (∀ w ∈ List.range 52, w < 65536) ∧
    (makeWords 52).length = 52 ∧
    ∃ D, ideaInvertKey (List.range 52) (makeWords 52) = .ok D ∧
      ideaInvertKey D (makeWords 52) = .ok (List.range 52) :=
  ⟨rfl, by decide, rfl, invertKey_involution _ _ _ rfl (by decide) rfl rfl⟩

/-- C19: extra input bytes are ignored. For every key of at least 16 bytes and every source
block of at least 8 bytes, with an 8-byte destination, `IdeaEncrypt` and `IdeaDecrypt`
return without a fault and store exactly what they store for the first 16 bytes of the key
and the first 8 bytes of the block. -/
theorem extra_bytes_ignored (key src dst : List Nat) (hk : 16 ≤ key.length)
    (hs : 8 ≤ src.length) (hd : dst.length = 8) :
    ∃ o1 o2, IdeaEncrypt dst src key = .done o1 ∧
      IdeaEncrypt dst (src.take 8) (key.take 16) = .done o1 ∧
      IdeaDecrypt dst src key = .done o2 ∧
      IdeaDecrypt dst (src.take 8) (key.take 16) = .done o2 := by
  have hk2 : 16 ≤ (key.take 16).length := by rw [List.length_take]; omega
  have hs2 : 8 ≤ (src.take 8).length := by rw [List.length_take]; omega
  refine ⟨cipherFn (scheduleOf key) src ++ dst.drop 8,
    cipherFn (invertedKey (scheduleOf key)) src ++ dst.drop 8,
    IdeaEncrypt_eq dst src key hk hs (by omega), ?_,
    IdeaDecrypt_eq dst src key hk hs (by omega), ?_⟩
  · rw [IdeaEncrypt_eq dst _ _ hk2 hs2 (by omega), scheduleOf_take key hk, cipherFn_take]
  · rw [IdeaDecrypt_eq dst _ _ hk2 hs2 (by omega), scheduleOf_take key hk, cipherFn_take]

theorem extra_bytes_ignored_witness :
    16 ≤ ([0, 1, 2, 3, 4, 5, 6, 7, 8, 9, 10, 11, 12, 13, 14, 15, 16, 17, 18, 19] : List Nat).length ∧
    8 ≤ ([0, 17, 34, 51, 68, 85, 102, 119, 136, 153] : List Nat).length ∧
    ([0, 0, 0, 0, 0, 0, 0, 0] : List Nat).length = 8 ∧
    ∃ o1 o2, IdeaEncrypt [0, 0, 0, 0, 0, 0, 0, 0] [0, 17, 34, 51, 68, 85, 102, 119, 136, 153]
        [0, 1, 2, 3, 4, 5, 6, 7, 8, 9, 10, 11, 12, 13, 14, 15, 16, 17, 18, 19] = .done o1 ∧
      IdeaEncrypt [0, 0, 0, 0, 0, 0, 0, 0] (List.take 8 [0, 17, 34, 51, 68, 85, 102, 119, 136, 153])
        (List.take 16 [0, 1, 2, 3, 4, 5, 6, 7, 8, 9, 10, 11, 12, 13, 14, 15, 16, 17, 18, 19]) = .done o1 ∧
      IdeaDecrypt [0, 0, 0, 0, 0, 0, 0, 0] [0, 17, 34, 51, 68, 85, 102, 119, 136, 153]
        [0, 1, 2, 3, 4, 5, 6, 7, 8, 9, 10, 11, 12, 13, 14, 15, 16, 17, 18, 19] = .done o2 ∧
      IdeaDecrypt [0, 0, 0, 0, 0, 0, 0, 0] (List.take 8 [0, 17, 34, 51, 68, 85, 102, 119, 136, 153])
        (List.take 16 [0, 1, 2, 3, 4, 5, 6, 7, 8, 9, 10, 11, 12, 13, 14, 15, 16, 17, 18, 19]) = .done o2 :=
  ⟨by decide, by decide, rfl, extra_bytes_ignored _ _ _ (by decide) (by decide) rfl⟩

/-- C20, as stated, fails: for `x = 2` the function is left through the negating exit with
the accumulator `t1 = 65537 / 2 = 32768`, and it returns `32769`, which is `1 - t1` modulo
`2 ^ 16`, not `0 - t1 = 32768`; for `x = 12` it is left through the negating exit after the
loop with `t1 = 27307` and returns `38230 = 1 - t1`, not `0 - t1 = 38229`. -/
theorem negating_exit_is_not_plain_negation :
    mulInvExit 2 = some (true, 32768) ∧ mulInv 2 = .ok 32769 ∧ sub16 0 32768 = 32768 ∧
    mulInvExit 12 = some (true, 27307) ∧ mulInv 12 = .ok 38230 ∧ sub16 0 27307 = 38229 :=
  ⟨by decide!, mulInv_of_exit 2 true 32768 (by decide!), by decide,
    by decide!, mulInv_of_exit 12 true 27307 (by decide!), by decide⟩

/-- C20, amended: negating exit of `mulInv`. For every `x` for which the function is left
through a negating exit (lines 20-22 and 36) with the accumulator `t1`, one has `x ≥ 2` and
the value returned is `1 - t1` modulo `2 ^ 16`. -/
theorem negating_exit_value (x t1 : Nat) (he : mulInvExit x = some (true, t1)) :
    2 ≤ x ∧ mulInv x = .ok (sub16 1 t1) := by
  constructor
  · by_contra hc
    unfold mulInvExit at he
    rw [if_pos (by omega)] at he
    simp at he
  · exact mulInv_of_exit x true t1 he

theorem negating_exit_value_witness :
    mulInvExit 12 = some (true, 27307) ∧ 2 ≤ 12 ∧ mulInv 12 = .ok (sub16 1 27307) :=
  ⟨by decide!, negating_exit_value 12 27307 (by decide!)⟩

end Idea
